import Mathlib

/-! # passgen: a shallow embedding of `passgen.go`

The password-construction engine of `passgen.go` (`generatePassword`,
`findWordsForLength`, `getSecureRandomIndex`, `getSecureRandomNumber`,
`capitalizeFirstLetter`) is translated function by function.

Modelling conventions
* A Go `string` is its sequence of bytes (`GoString`); `len` is the byte count.
* A Go `int` is a 64-bit two's-complement integer: values are `Int`, and every
  `+`, `-`, `*` of the source goes through `wrap`.  Loop counters guarded by
  `i < numWords` are incremented without `wrap` (they cannot overflow).
* A Go function returning `(T, error)` returns `Res.ret value err`; a run-time
  panic (index out of range, `rand.Int` with a non-positive bound,
  `strings.Join` length overflow) is `Res.panic`.
* The entropy source `crypto/rand.Reader` is an explicit stream of draws that is
  threaded through every function, so the draws a call performs are visible
  as the consumed prefix of the stream.
* The one-second wall-clock budget of `findWordsForLength` is the number of
  attempts the clock allows (`budget`).
-/

namespace Passgen

/-! ## Strings and machine integers -/

/-- One byte of a Go string. -/
abbrev Byte := Fin 256

/-- A Go string: an immutable sequence of bytes. -/
abbrev GoString := List Byte

/-- Go's builtin `len` for strings and slices. -/
def len {α : Type} (l : List α) : Int := (l.length : Int)

/-- The largest Go `int` on a 64-bit platform. -/
def maxInt : Int := 9223372036854775807

/-- The smallest Go `int` on a 64-bit platform. -/
def minInt : Int := -9223372036854775808

/-- Reduction of a mathematical integer to the 64-bit two's-complement range. -/
def wrap (x : Int) : Int :=
  (x + 9223372036854775808) % 18446744073709551616 - 9223372036854775808

/-- Go `a + b` on `int`. -/
def iadd (a b : Int) : Int := wrap (a + b)

/-- Go `a - b` on `int`. -/
def isub (a b : Int) : Int := wrap (a - b)

/-- Go `a * b` on `int`. -/
def imul (a b : Int) : Int := wrap (a * b)

/-- The values a Go `int` can hold. -/
def IsInt (x : Int) : Prop := minInt ≤ x ∧ x ≤ maxInt

instance (x : Int) : Decidable (IsInt x) := by
  unfold IsInt; exact inferInstance

/-! ## Errors and results -/

/-- The error values the program creates or passes on. -/
inductive Err where
  /-- Message "number of words must be greater than 0". -/
  | invalidWordCount
  /-- Message "requested length %d is too short for %d words (minimum length is %d)". -/
  | lengthTooShort (length numWords minLength : Int)
  /-- Message "requested length %d is too long for %d words (maximum length is %d)". -/
  | lengthTooLong (length numWords maxLength : Int)
  /-- Message "could not find a valid combination of words for length %d". -/
  | noCombination (targetLength : Int)
  /-- Message "max must be greater than 0". -/
  | maxNotPositive
  /-- Message "min must be less than or equal to max". -/
  | minGreaterThanMax
  /-- An error returned by the entropy source itself. -/
  | entropy (code : Nat)
  /-- The entropy source has no more data. -/
  | entropyExhausted
  deriving DecidableEq, Repr

/-- The two length-validation errors of `generatePassword`. -/
def Err.isLengthOutOfRange : Err → Bool
  | Err.lengthTooShort _ _ _ => true
  | Err.lengthTooLong _ _ _ => true
  | _ => false

/-- The two errors that come from the entropy source. -/
def Err.isEntropy : Err → Bool
  | Err.entropy _ => true
  | Err.entropyExhausted => true
  | _ => false

/-- Outcome of a Go function with result type `(T, error)`: the pair it
returns, or a run-time panic. -/
inductive Res (α : Type) where
  | ret (val : α) (err : Option Err)
  | panic
  deriving DecidableEq, Repr

/-! ## The entropy source -/

/-- One reply of the entropy source: raw random data or a read error. -/
inductive Draw where
  | value (raw : Nat)
  | fail (code : Nat)
  deriving DecidableEq, Repr

/-- The entropy source: the replies it will give, in order. -/
abbrev Entropy := List Draw

/-- Library function `rand.Int(rand.Reader, max)` of `crypto/rand`: a value in
`[0, max)`, an error when reading the source fails, a panic when `max <= 0`.
One reply of the stream stands for the outcome of one whole call, whatever
number of bytes the library reads for it (it reads again after a rejected
sample, and reads nothing for `max = 1`, where the result 0 is the outcome of
every value reply; a failure reply to a call with `max = 1` has no counterpart
in the library). -/
def randInt (max : Int) (e : Entropy) : Res Int × Entropy :=
  if max ≤ 0 then (Res.panic, e)
  else
    match e with
    | [] => (Res.ret 0 (some Err.entropyExhausted), [])
    | Draw.fail code :: rest => (Res.ret 0 (some (Err.entropy code)), rest)
    | Draw.value raw :: rest => (Res.ret ((raw : Int) % max) none, rest)

/-- Source function `getSecureRandomIndex`. -/
def getSecureRandomIndex (max : Int) (e : Entropy) : Res Int × Entropy :=
  if max ≤ 0 then (Res.ret 0 (some Err.maxNotPositive), e)
  else
    match randInt max e with
    | (Res.ret _ (some err), e1) => (Res.ret 0 (some err), e1)
    | (Res.ret n none, e1) => (Res.ret n none, e1)
    | (Res.panic, e1) => (Res.panic, e1)

/-- Source function `getSecureRandomNumber`. -/
def getSecureRandomNumber (min max : Int) (e : Entropy) : Res Int × Entropy :=
  if min > max then (Res.ret 0 (some Err.minGreaterThanMax), e)
  else
    match randInt (iadd (isub max min) 1) e with
    | (Res.ret _ (some err), e1) => (Res.ret 0 (some err), e1)
    | (Res.ret n none, e1) => (Res.ret (iadd min n) none, e1)
    | (Res.panic, e1) => (Res.panic, e1)

/-! ## Capitalisation -/

/-- Library function `unicode.ToUpper` on the rune `rune(b)` obtained from one
byte `b`, i.e. on the code points U+0000..U+00FF: ASCII and Latin-1 lower-case
letters move to their capitals, U+00B5 to U+039C and U+00FF to U+0178. -/
def unicodeToUpper (b : Byte) : Nat :=
  let r := b.val
  if 97 ≤ r ∧ r ≤ 122 then r - 32
  else if r = 181 then 924
  else if 224 ≤ r ∧ r ≤ 246 then r - 32
  else if 248 ≤ r ∧ r ≤ 254 then r - 32
  else if r = 255 then 376
  else r

/-- Go conversion `string(r)` of a rune: its UTF-8 encoding, with U+FFFD for
surrogates and values above U+10FFFF. -/
def encodeRune (r : Nat) : GoString :=
  if r < 128 then [Fin.ofNat r]
  else if r < 2048 then [Fin.ofNat (192 + r / 64), Fin.ofNat (128 + r % 64)]
  else if (55296 ≤ r ∧ r ≤ 57343) ∨ 1114111 < r then [239, 191, 189]
  else if r < 65536 then
    [Fin.ofNat (224 + r / 4096), Fin.ofNat (128 + r / 64 % 64), Fin.ofNat (128 + r % 64)]
  else
    [Fin.ofNat (240 + r / 262144), Fin.ofNat (128 + r / 4096 % 64),
     Fin.ofNat (128 + r / 64 % 64), Fin.ofNat (128 + r % 64)]

/-- Source function `capitalizeFirstLetter`: `string(unicode.ToUpper(rune(s[0]))) + s[1:]`. -/
def capitalizeFirstLetter (s : GoString) : GoString :=
  match s with
  | [] => []
  | b :: rest => encodeRune (unicodeToUpper b) ++ rest

/-! ## Library functions used by `generatePassword` -/

/-- The length computation at the start of `strings.Join` for two or more
elements: `none` when the library panics with "Join output length overflow"
(a result of `2^63` bytes or more cannot be built in any case). -/
def joinLength (elems : List GoString) (sep : GoString) : Option Int :=
  if 0 < len sep ∧ len sep ≥ maxInt / (len elems - 1) then none
  else
    elems.foldl
      (fun acc elem =>
        match acc with
        | none => none
        | some n => if len elem > maxInt - n then none else some (n + len elem))
      (some (if 0 < len sep then len sep * (len elems - 1) else 0))

/-- The string `strings.Join` builds: the elements with `sep` between them. -/
def joinBytes : List GoString → GoString → GoString
  | [], _ => []
  | [a], _ => a
  | a :: b :: rest, sep => a ++ sep ++ joinBytes (b :: rest) sep

/-- Library function `strings.Join`; `none` is its overflow panic. -/
def stringsJoin (elems : List GoString) (sep : GoString) : Option GoString :=
  match elems with
  | [] => some []
  | [a] => some a
  | _ :: _ :: _ =>
    match joinLength elems sep with
    | none => none
    | some _ => some (joinBytes elems sep)

/-- Decimal digits of a natural number as ASCII bytes. -/
def natDecimal (n : Nat) : GoString :=
  (Nat.toDigits 10 n).map (fun c => Fin.ofNat c.toNat)

/-- Library call `fmt.Sprintf("%d", n)`. -/
def sprintfD (n : Int) : GoString :=
  if n < 0 then (45 : Byte) :: natDecimal n.natAbs else natDecimal n.toNat

/-- The rune slice `symbols` of `generatePassword`:
`! @ # $ % ^ & * ( ) - _ + = ~` backquote `| \ / ? > < . ,`. -/
def symbols : List Nat :=
  [33, 64, 35, 36, 37, 94, 38, 42, 40, 41, 45, 95, 43, 61, 126, 96, 124, 92, 47, 63, 62, 60,
   46, 44]

/-- Go indexing `l[i]`: a panic when the index is out of range. -/
def index {α : Type} (l : List α) (i : Int) : Option α :=
  if i < 0 then none else l.get? i.toNat

/-! ## `findWordsForLength` -/

/-- The inner loop of `findWordsForLength`
(`for attempts := 0; attempts < 100; attempts++`), started with `fuel`
iterations left.  It returns the variable `word`, which is still `""` when no
candidate was accepted. -/
def findWord (wordList : List GoString) (maxWordLength : Int) :
    Nat → Entropy → Res GoString × Entropy
  | 0, e => (Res.ret [] none, e)
  | fuel + 1, e =>
    match getSecureRandomIndex (len wordList) e with
    | (Res.panic, e1) => (Res.panic, e1)
    | (Res.ret _ (some err), e1) => (Res.ret [] (some err), e1)
    | (Res.ret idx none, e1) =>
      match index wordList idx with
      | none => (Res.panic, e1)
      | some candidate =>
        if len candidate ≤ maxWordLength then (Res.ret candidate none, e1)
        else findWord wordList maxWordLength fuel e1

/-- The slot loop of `findWordsForLength` (`for i := 0; i < numWords; i++`)
from slot `i` on, with at most `fuel` iterations.  It returns
`passwordWords` and `remainingLength` as they are when the loop is left. -/
def slotLoop (words shortWords : List GoString) (numWords separatorLength : Int) :
    Nat → Int → List GoString → Int → Entropy → Res (List GoString × Int) × Entropy
  | 0, _, passwordWords, remainingLength, e => (Res.ret (passwordWords, remainingLength) none, e)
  | fuel + 1, i, passwordWords, remainingLength, e =>
    if i < numWords then
      let maxWordLength :=
        isub remainingLength (imul (isub (isub numWords i) 1) separatorLength)
      if maxWordLength ≤ 0 then (Res.ret (passwordWords, remainingLength) none, e)
      else
        let wordList := if maxWordLength ≤ 2 then shortWords else words
        match findWord wordList maxWordLength 100 e with
        | (Res.panic, e1) => (Res.panic, e1)
        | (Res.ret _ (some err), e1) => (Res.ret ([], 0) (some err), e1)
        | (Res.ret word none, e1) =>
          if word = [] then (Res.ret (passwordWords, remainingLength) none, e1)
          else
            let remaining1 := isub remainingLength (len word)
            let remaining2 :=
              if i < isub numWords 1 then isub remaining1 separatorLength else remaining1
            slotLoop words shortWords numWords separatorLength fuel (i + 1)
              (passwordWords ++ [word]) remaining2 e1
    else (Res.ret (passwordWords, remainingLength) none, e)

/-- Source function `findWordsForLength`.  `budget` is the number of times the
loop test `time.Since(startTime) < time.Second` succeeds. -/
def findWordsForLength (words shortWords : List GoString)
    (numWords separatorLength targetLength : Int) :
    Nat → Entropy → Res (List GoString) × Entropy
  | 0, e => (Res.ret [] (some (Err.noCombination targetLength)), e)
  | budget + 1, e =>
    match slotLoop words shortWords numWords separatorLength numWords.toNat 0 [] targetLength e with
    | (Res.panic, e1) => (Res.panic, e1)
    | (Res.ret _ (some err), e1) => (Res.ret [] (some err), e1)
    | (Res.ret (passwordWords, remainingLength) none, e1) =>
      if len passwordWords = numWords ∧ remainingLength = 0 then (Res.ret passwordWords none, e1)
      else findWordsForLength words shortWords numWords separatorLength targetLength budget e1

/-! ## `generatePassword` -/

/-- The word-selection loop of `generatePassword` for an unconstrained length
(`for i := 0; i < numWords; i++`), from index `i` on. -/
def selectLoop (words : List GoString) (numWords : Int) :
    Nat → Int → List GoString → Entropy → Res (List GoString) × Entropy
  | 0, _, passwordWords, e => (Res.ret passwordWords none, e)
  | fuel + 1, i, passwordWords, e =>
    if i < numWords then
      match getSecureRandomIndex (len words) e with
      | (Res.panic, e1) => (Res.panic, e1)
      | (Res.ret _ (some err), e1) => (Res.ret [] (some err), e1)
      | (Res.ret idx none, e1) =>
        match index words idx with
        | none => (Res.panic, e1)
        | some w => selectLoop words numWords fuel (i + 1) (passwordWords ++ [w]) e1
    else (Res.ret passwordWords none, e)

/-- The block `if addNumber { ... }` of `generatePassword`. -/
def appendNumber (addNumber : Bool) (password : GoString) (e : Entropy) :
    Res GoString × Entropy :=
  if addNumber then
    match getSecureRandomNumber 0 9 e with
    | (Res.panic, e1) => (Res.panic, e1)
    | (Res.ret _ (some err), e1) => (Res.ret [] (some err), e1)
    | (Res.ret num none, e1) => (Res.ret (password ++ sprintfD num) none, e1)
  else (Res.ret password none, e)

/-- The block `if addSymbol { ... }` of `generatePassword`. -/
def appendSymbol (addSymbol : Bool) (password : GoString) (e : Entropy) :
    Res GoString × Entropy :=
  if addSymbol then
    match getSecureRandomIndex (len symbols) e with
    | (Res.panic, e1) => (Res.panic, e1)
    | (Res.ret _ (some err), e1) => (Res.ret [] (some err), e1)
    | (Res.ret idx none, e1) =>
      match index symbols idx with
      | none => (Res.panic, e1)
      | some sym => (Res.ret (password ++ encodeRune sym) none, e1)
  else (Res.ret password none, e)

/-- The part of `generatePassword` after the words are chosen: capitalise,
join, append the digit, append the symbol. -/
def decorate (passwordWords : List GoString) (separator : GoString)
    (capitalize addNumber addSymbol : Bool) (e : Entropy) : Res GoString × Entropy :=
  let passwordWords :=
    if capitalize then passwordWords.map capitalizeFirstLetter else passwordWords
  match stringsJoin passwordWords separator with
  | none => (Res.panic, e)
  | some password =>
    match appendNumber addNumber password e with
    | (Res.panic, e1) => (Res.panic, e1)
    | (Res.ret _ (some err), e1) => (Res.ret [] (some err), e1)
    | (Res.ret password1 none, e1) => appendSymbol addSymbol password1 e1

/-- The word-choosing part of `generatePassword`: `findWordsForLength` when a
length is requested, the selection loop otherwise. -/
def chooseWords (budget : Nat) (words shortWords : List GoString) (numWords : Int)
    (separator : GoString) (length : Int) (e : Entropy) : Res (List GoString) × Entropy :=
  if length > 0 then
    findWordsForLength words shortWords numWords (len separator) length budget e
  else selectLoop words numWords numWords.toNat 0 [] e

/-- Source function `generatePassword`. -/
def generatePassword (budget : Nat) (words shortWords : List GoString) (numWords : Int)
    (separator : GoString) (length : Int) (capitalize addNumber addSymbol : Bool)
    (e : Entropy) : Res GoString × Entropy :=
  if numWords ≤ 0 then (Res.ret [] (some Err.invalidWordCount), e)
  else
    let minLength := iadd (imul numWords 3) (imul (isub numWords 1) (len separator))
    let maxLength := iadd (imul numWords 14) (imul (isub numWords 1) (len separator))
    if length > 0 ∧ length < minLength then
      (Res.ret [] (some (Err.lengthTooShort length numWords minLength)), e)
    else if length > 0 ∧ length > maxLength then
      (Res.ret [] (some (Err.lengthTooLong length numWords maxLength)), e)
    else
      match chooseWords budget words shortWords numWords separator length e with
      | (Res.panic, e1) => (Res.panic, e1)
      | (Res.ret _ (some err), e1) => (Res.ret [] (some err), e1)
      | (Res.ret passwordWords none, e1) =>
        decorate passwordWords separator capitalize addNumber addSymbol e1

/-- The total length of a list of words. -/
def sumLen (ws : List GoString) : Int := (ws.map len).sum

/-- A string that is empty or starts with an ASCII byte. -/
def AsciiFirst (s : GoString) : Prop := ∀ b rest, s = b :: rest → b.val < 128

/-- A string literal as a Go string (its UTF-8 bytes). -/
def str (s : String) : GoString := s.toList.flatMap (fun c => encodeRune c.toNat)

/-- The requests that pass the two validation steps of `generatePassword`: a
positive word count and, when a length is requested, a length within the
bounds the source computes. -/
def PassesValidation (numWords : Int) (separator : GoString) (length : Int) : Prop :=
  0 < numWords ∧
    ¬ (length > 0 ∧
      length < iadd (imul numWords 3) (imul (isub numWords 1) (len separator))) ∧
    ¬ (length > 0 ∧
      length > iadd (imul numWords 14) (imul (isub numWords 1) (len separator)))

instance (numWords : Int) (separator : GoString) (length : Int) :
    Decidable (PassesValidation numWords separator length) := by
  unfold PassesValidation; exact inferInstance

/-- The expression `remainingLength - (numWords-i-1)*separatorLength` of
`findWordsForLength`: the variable `maxWordLength` of slot `i`. -/
def maxWordLengthAt (numWords separatorLength i remainingLength : Int) : Int :=
  isub remainingLength (imul (isub (isub numWords i) 1) separatorLength)

/-- The word list slot `i` draws from: the short catalog when the slot's
`maxWordLength` is at most 2, the general catalog otherwise. -/
def slotList (words shortWords : List GoString) (maxWordLength : Int) : List GoString :=
  if maxWordLength ≤ 2 then shortWords else words

/-- The value of `remainingLength` after `word` was accepted in slot `i`: the
length of the word is subtracted and, except in the last slot, the separator
length. -/
def remainingAfter (numWords separatorLength i remainingLength : Int) (word : GoString) : Int :=
  if i < isub numWords 1 then isub (isub remainingLength (len word)) separatorLength
  else isub remainingLength (len word)

/-- The general catalog of the concrete scenario of the specification. -/
def scenarioGeneral : List GoString := [str "cat", str "dog", str "blue"]

/-- The short catalog of the concrete scenario of the specification. -/
def scenarioShort : List GoString := [str "ox", str "go"]

/-! ## Draws performed by a call -/

/-- The error component of an outcome (`none` for a panic). -/
def Res.error {α : Type} : Res α → Option Err
  | Res.ret _ err => err
  | Res.panic => none

/-- A stretch of the entropy stream in which every draw succeeds. -/
def drawsOf (raws : List Nat) : Entropy := raws.map Draw.value

/-- `Steps e r e1 k`: a call started on the stream `e` ended with outcome `r`
and stream `e1` after `k` draws.  Either all `k` draws succeeded and `r` is
not an error of the entropy source; or the first `k - 1` draws succeeded, the
`k`-th one failed with `code` and `r` carries exactly that error; or the
stream ran out at the `k`-th draw and `r` carries the exhaustion error. -/
def Steps {α : Type} (e : Entropy) (r : Res α) (e1 : Entropy) (k : Nat) : Prop :=
  ∃ raws : List Nat,
    (e = drawsOf raws ++ e1 ∧ k = raws.length ∧
      ∀ err, r.error = some err → err.isEntropy = false) ∨
    (∃ code, e = drawsOf raws ++ Draw.fail code :: e1 ∧ k = raws.length + 1 ∧
      r.error = some (Err.entropy code)) ∨
    (e = drawsOf raws ∧ e1 = [] ∧ k = raws.length + 1 ∧
      r.error = some Err.entropyExhausted)

/-! ## The draws of one slot -/

/-- The draw `r` picks from `wordList` a candidate that does not fit the slot:
it is longer than `maxWordLength`. -/
def TooLong (wordList : List GoString) (maxWordLength : Int) (r : Nat) : Prop :=
  ∃ c, wordList.get? (r % wordList.length) = some c ∧ maxWordLength < len c

/-- `FirstFit wordList m e word e1`: read from the stream `e`, the draws of
the slot are fewer than 100 draws that pick candidates longer than `m`,
followed by one draw that picks `word`, whose length is at most `m`; `e1` is
the rest of the stream. -/
def FirstFit (wordList : List GoString) (m : Int) (e : Entropy) (word : GoString)
    (e1 : Entropy) : Prop :=
  ∃ (rejected : List Nat) (raw : Nat),
    e = drawsOf rejected ++ Draw.value raw :: e1 ∧ rejected.length < 100 ∧
    (∀ r ∈ rejected, TooLong wordList m r) ∧
    wordList.get? (raw % wordList.length) = some word ∧ len word ≤ m

/-- `SlotTrace words shortWords n sep i rem ws e e1 r`: starting in slot `i`
with `remainingLength = rem` and stream `e`, the words `ws` are accepted one
per slot.  In each slot the bound `maxWordLength` is positive, the word is the
first fitting candidate drawn from the list chosen for that bound, and
`remainingLength` is updated as in the source; at the end the stream is `e1`
and `remainingLength` is `r`. -/
def SlotTrace (words shortWords : List GoString) (n sep : Int) :
    Int → Int → List GoString → Entropy → Entropy → Int → Prop
  | _, rem, [], e, e1, r => e = e1 ∧ rem = r
  | i, rem, w :: rest, e, e1, r =>
    0 < maxWordLengthAt n sep i rem ∧
      ∃ e2 : Entropy,
        FirstFit (slotList words shortWords (maxWordLengthAt n sep i rem))
          (maxWordLengthAt n sep i rem) e w e2 ∧
        SlotTrace words shortWords n sep (i + 1) (remainingAfter n sep i rem w) rest e2 e1 r

/-! ## Attempts that end without a word list -/

/-- `AttemptsFail words shortWords n sep target budget e e1`: started on the
stream `e`, each of `budget` consecutive attempts of `findWordsForLength` runs
its slot loop to the end without an error of `getSecureRandomIndex` and fails
the test `len(passwordWords) == numWords && remainingLength == 0`; `e1` is the
stream after the last of them. -/
def AttemptsFail (words shortWords : List GoString) (n sep target : Int) :
    Nat → Entropy → Entropy → Prop
  | 0, e, e1 => e1 = e
  | budget + 1, e, e1 =>
    ∃ (pw : List GoString) (rem : Int) (e2 : Entropy),
      slotLoop words shortWords n sep n.toNat 0 [] target e = (Res.ret (pw, rem) none, e2) ∧
      ¬ (len pw = n ∧ rem = 0) ∧
      AttemptsFail words shortWords n sep target budget e2 e1

/-! ## Machine arithmetic and the entropy source: basic facts -/

theorem wrap_of_isInt {x : Int} (h : IsInt x) : wrap x = x := by
  unfold IsInt minInt maxInt at h
  unfold wrap
  omega

theorem isInt_wrap (x : Int) : IsInt (wrap x) := by
  unfold IsInt minInt maxInt wrap
  omega

theorem wrap_modEq (x : Int) : (wrap x - x) % 18446744073709551616 = 0 := by
  unfold wrap
  omega

theorem randInt_cases (max : Int) (e : Entropy) (h : 0 < max) :
    (e = [] ∧ randInt max e = (Res.ret 0 (some Err.entropyExhausted), [])) ∨
    (∃ code rest, e = Draw.fail code :: rest ∧
      randInt max e = (Res.ret 0 (some (Err.entropy code)), rest)) ∨
    (∃ raw rest, e = Draw.value raw :: rest ∧
      randInt max e = (Res.ret ((raw : Int) % max) none, rest)) := by
  have hn : ¬ max ≤ 0 := by omega
  rcases e with _ | ⟨d, rest⟩
  · left; simp [randInt, hn]
  · cases d with
    | value raw => right; right; exact ⟨raw, rest, rfl, by simp [randInt, hn]⟩
    | fail code => right; left; exact ⟨code, rest, rfl, by simp [randInt, hn]⟩

theorem getSecureRandomIndex_pos (max : Int) (e : Entropy) (h : 0 < max) :
    getSecureRandomIndex max e = randInt max e := by
  have hn : ¬ max ≤ 0 := by omega
  rcases randInt_cases max e h with ⟨_, h1⟩ | ⟨_, _, _, h1⟩ | ⟨_, _, _, h1⟩ <;>
    simp [getSecureRandomIndex, hn, h1]

theorem getSecureRandomIndex_ok {max : Int} {e e1 : Entropy} {idx : Int}
    (h : getSecureRandomIndex max e = (Res.ret idx none, e1)) :
    0 < max ∧ ∃ raw : Nat, e = Draw.value raw :: e1 ∧ idx = (raw : Int) % max := by
  by_cases hm : max ≤ 0
  · simp [getSecureRandomIndex, hm] at h
  · have hpos : 0 < max := by omega
    rw [getSecureRandomIndex_pos max e hpos] at h
    refine ⟨hpos, ?_⟩
    rcases randInt_cases max e hpos with ⟨_, h1⟩ | ⟨_, _, _, h1⟩ | ⟨raw, rest, he, h1⟩
    · rw [h1] at h; simp at h
    · rw [h1] at h; simp at h
    · rw [h1] at h
      simp only [Prod.mk.injEq, Res.ret.injEq, and_true] at h
      exact ⟨raw, by rw [he, h.2], h.1.symm⟩

theorem getSecureRandomIndex_ne_panic (max : Int) (e e1 : Entropy) :
    getSecureRandomIndex max e ≠ (Res.panic, e1) := by
  by_cases hm : max ≤ 0
  · simp [getSecureRandomIndex, hm]
  · have hpos : 0 < max := by omega
    rw [getSecureRandomIndex_pos max e hpos]
    rcases randInt_cases max e hpos with ⟨_, h1⟩ | ⟨_, _, _, h1⟩ | ⟨raw, rest, he, h1⟩ <;>
      simp [h1]


/-- C9: `getSecureRandomIndex max` fails with the range error and leaves the
entropy source untouched when `max <= 0`; when `max > 0` it is exactly the
draw `rand.Int` makes for bound `max`: either the source's error, passed on
unchanged, or the drawn value, which lies in `[0, max)`. -/
theorem getSecureRandomIndex_contract (max : Int) (e : Entropy) :
    (max ≤ 0 → getSecureRandomIndex max e = (Res.ret 0 (some Err.maxNotPositive), e)) ∧
    (0 < max →
      getSecureRandomIndex max e = randInt max e ∧
      ((∃ err e1, err.isEntropy = true ∧
          getSecureRandomIndex max e = (Res.ret 0 (some err), e1)) ∨
       (∃ r e1, getSecureRandomIndex max e = (Res.ret r none, e1) ∧ 0 ≤ r ∧ r < max))) := by
  constructor
  · intro h
    simp [getSecureRandomIndex, h]
  · intro h
    refine ⟨getSecureRandomIndex_pos max e h, ?_⟩
    rw [getSecureRandomIndex_pos max e h]
    rcases randInt_cases max e h with ⟨_, h1⟩ | ⟨code, rest, _, h1⟩ | ⟨raw, rest, _, h1⟩
    · exact Or.inl ⟨Err.entropyExhausted, [], rfl, h1⟩
    · exact Or.inl ⟨Err.entropy code, rest, rfl, h1⟩
    · exact Or.inr ⟨_, _, h1, Int.emod_nonneg _ (by omega), Int.emod_lt_of_pos _ h⟩

theorem getSecureRandomIndex_contract_witness :
    getSecureRandomIndex (-2) [Draw.value 7] =
        (Res.ret 0 (some Err.maxNotPositive), [Draw.value 7]) ∧
      (getSecureRandomIndex 5 [Draw.value 7] = randInt 5 [Draw.value 7] ∧
        ((∃ err e1, err.isEntropy = true ∧
            getSecureRandomIndex 5 [Draw.value 7] = (Res.ret 0 (some err), e1)) ∨
         (∃ r e1, getSecureRandomIndex 5 [Draw.value 7] = (Res.ret r none, e1) ∧
            0 ≤ r ∧ r < 5))) :=
  ⟨(getSecureRandomIndex_contract (-2) [Draw.value 7]).1 (by decide),
   (getSecureRandomIndex_contract 5 [Draw.value 7]).2 (by decide)⟩

/-- C10: for `numWords <= 0`, `generatePassword` returns the invalid-word-count
error whatever the catalogs, separator, length and flags are (in particular
for a length that would fail validation), and the entropy source is left
untouched. -/
theorem generatePassword_invalidWordCount (budget : Nat) (words shortWords : List GoString)
    (numWords : Int) (separator : GoString) (length : Int)
    (capitalize addNumber addSymbol : Bool) (e : Entropy) (h : numWords ≤ 0) :
    generatePassword budget words shortWords numWords separator length capitalize addNumber
      addSymbol e = (Res.ret [] (some Err.invalidWordCount), e) := by
  simp [generatePassword, h]

theorem generatePassword_invalidWordCount_witness :
    generatePassword 3 [str "cat"] [str "ox"] (-1) (str "-") 1 true true true
      [Draw.value 4, Draw.fail 2] =
      (Res.ret [] (some Err.invalidWordCount), [Draw.value 4, Draw.fail 2]) :=
  generatePassword_invalidWordCount 3 [str "cat"] [str "ox"] (-1) (str "-") 1 true true true
    [Draw.value 4, Draw.fail 2] (by decide)

/-- Counterexample to C3 as stated: for `numWords = 3074457345618258603` and an
empty separator the products `numWords*3` and `numWords*14` overflow, so the
code compares `length = 5` with `minLength = -9223372036854775807` and
`maxLength = 6148914691236517210`, accepts it although
`5 < numWords*3 + (numWords-1)*0`, and calls `findWordsForLength`.  Every
attempt draws a three-letter word and a two-letter word and is abandoned at
the third slot; with all draws successful the call ends with the
no-combination error, after the draws of its attempts were made. -/
theorem generatePassword_lengthCheck_overflow :
    ((0 : Int) < 3074457345618258603 ∧ IsInt 3074457345618258603 ∧ (0 : Int) < 5 ∧
      (5 : Int) < 3074457345618258603 * 3 + (3074457345618258603 - 1) * len ([] : GoString)) ∧
    iadd (imul 3074457345618258603 3) (imul (isub 3074457345618258603 1) (len ([] : GoString))) =
      -9223372036854775807 ∧
    iadd (imul 3074457345618258603 14) (imul (isub 3074457345618258603 1) (len ([] : GoString))) =
      6148914691236517210 ∧
    generatePassword 2 [str "cat", str "dog"] [str "ox", str "go"] 3074457345618258603 [] 5
        false false false
        [Draw.value 0, Draw.value 1, Draw.value 1, Draw.value 0, Draw.value 1] =
      (Res.ret [] (some (Err.noCombination 5)), [Draw.value 1]) ∧
    (Err.noCombination 5).isLengthOutOfRange = false := by
  decide

/-- C3 (amended): with `minLength` and `maxLength` as the source computes them
(`numWords*3 + (numWords-1)*len(separator)` and
`numWords*14 + (numWords-1)*len(separator)` in `int` arithmetic), a positive
`length` below `minLength` or above `maxLength` makes `generatePassword`
return one length-out-of-range error, the same for every catalog, flag setting
and entropy source, and the entropy source is left untouched.  When
`numWords*14 + (numWords-1)*len(separator)` is an `int`, the two bounds are the
mathematical values of these expressions. -/
theorem generatePassword_lengthOutOfRange (numWords : Int) (separator : GoString) (length : Int)
    (hn : 0 < numWords) (hl : 0 < length)
    (hout : length < iadd (imul numWords 3) (imul (isub numWords 1) (len separator)) ∨
      length > iadd (imul numWords 14) (imul (isub numWords 1) (len separator))) :
    (∃ err : Err, err.isLengthOutOfRange = true ∧
      ∀ (budget : Nat) (words shortWords : List GoString) (capitalize addNumber addSymbol : Bool)
        (e : Entropy),
        generatePassword budget words shortWords numWords separator length capitalize addNumber
          addSymbol e = (Res.ret [] (some err), e)) ∧
    (IsInt (numWords * 14 + (numWords - 1) * len separator) →
      iadd (imul numWords 3) (imul (isub numWords 1) (len separator)) =
          numWords * 3 + (numWords - 1) * len separator ∧
        iadd (imul numWords 14) (imul (isub numWords 1) (len separator)) =
          numWords * 14 + (numWords - 1) * len separator) := by
  have hn0 : ¬ numWords ≤ 0 := by omega
  constructor
  · by_cases hs : length < iadd (imul numWords 3) (imul (isub numWords 1) (len separator))
    · refine ⟨Err.lengthTooShort length numWords
        (iadd (imul numWords 3) (imul (isub numWords 1) (len separator))), rfl, ?_⟩
      intro budget words shortWords capitalize addNumber addSymbol e
      simp [generatePassword, hn0, hl, hs]
    · have hlong : length > iadd (imul numWords 14) (imul (isub numWords 1) (len separator)) := by
        rcases hout with h | h
        · exact absurd h hs
        · exact h
      refine ⟨Err.lengthTooLong length numWords
        (iadd (imul numWords 14) (imul (isub numWords 1) (len separator))), rfl, ?_⟩
      intro budget words shortWords capitalize addNumber addSymbol e
      simp [generatePassword, hn0, hl, hs, hlong]
  · intro hint
    have hlen : 0 ≤ len separator := by unfold len; omega
    have hp : 0 ≤ (numWords - 1) * len separator := mul_nonneg (by omega) hlen
    unfold IsInt minInt maxInt at hint
    have h1 : isub numWords 1 = numWords - 1 := wrap_of_isInt (by
      unfold IsInt minInt maxInt; omega)
    have h2 : imul (isub numWords 1) (len separator) = (numWords - 1) * len separator := by
      rw [h1]; exact wrap_of_isInt (by unfold IsInt minInt maxInt; omega)
    have h3 : imul numWords 3 = numWords * 3 := wrap_of_isInt (by
      unfold IsInt minInt maxInt; omega)
    have h4 : imul numWords 14 = numWords * 14 := wrap_of_isInt (by
      unfold IsInt minInt maxInt; omega)
    rw [h2, h3, h4]
    exact ⟨wrap_of_isInt (by unfold IsInt minInt maxInt; omega),
      wrap_of_isInt (by unfold IsInt minInt maxInt; omega)⟩


theorem generatePassword_lengthOutOfRange_witness :
    ((0 : Int) < 3 ∧ (0 : Int) < 10 ∧
      ((10 : Int) < iadd (imul 3 3) (imul (isub 3 1) (len (str "-"))) ∨
        (10 : Int) > iadd (imul 3 14) (imul (isub 3 1) (len (str "-"))))) ∧
    ((∃ err : Err, err.isLengthOutOfRange = true ∧
      ∀ (budget : Nat) (words shortWords : List GoString) (capitalize addNumber addSymbol : Bool)
        (e : Entropy),
        generatePassword budget words shortWords 3 (str "-") 10 capitalize addNumber
          addSymbol e = (Res.ret [] (some err), e)) ∧
    (IsInt (3 * 14 + (3 - 1) * len (str "-")) →
      iadd (imul 3 3) (imul (isub 3 1) (len (str "-"))) = 3 * 3 + (3 - 1) * len (str "-") ∧
        iadd (imul 3 14) (imul (isub 3 1) (len (str "-"))) =
          3 * 14 + (3 - 1) * len (str "-"))) :=
  ⟨by decide, generatePassword_lengthOutOfRange 3 (str "-") 10 (by decide) (by decide)
    (by decide)⟩

theorem randInt_err_isEntropy {max : Int} {e e1 : Entropy} {v : Int} {err : Err}
    (h : randInt max e = (Res.ret v (some err), e1)) : err.isEntropy = true := by
  by_cases hm : max ≤ 0
  · simp [randInt, hm] at h
  · rcases randInt_cases max e (by omega) with ⟨_, h1⟩ | ⟨_, _, _, h1⟩ | ⟨_, _, _, h1⟩
    · rw [h1] at h
      simp only [Prod.mk.injEq, Res.ret.injEq, Option.some.injEq] at h
      rw [← h.1.2]; rfl
    · rw [h1] at h
      simp only [Prod.mk.injEq, Res.ret.injEq, Option.some.injEq] at h
      rw [← h.1.2]; rfl
    · rw [h1] at h
      simp at h

/-- Counterexample to C8 as stated: `0 <= maxInt` are machine integers, but
`max-min+1` overflows to a negative bound, `rand.Int` panics, and the call
neither returns an error nor a value in `[min, max]`. -/
theorem getSecureRandomNumber_overflow_panics :
    IsInt 0 ∧ IsInt 9223372036854775807 ∧ (0 : Int) ≤ 9223372036854775807 ∧
      getSecureRandomNumber 0 9223372036854775807 [Draw.value 5] =
        (Res.panic, [Draw.value 5]) ∧
      ¬ ((∃ err e1, getSecureRandomNumber 0 9223372036854775807 [Draw.value 5] =
            (Res.ret 0 (some err), e1)) ∨
         (∃ r e1, getSecureRandomNumber 0 9223372036854775807 [Draw.value 5] =
            (Res.ret r none, e1) ∧ 0 ≤ r ∧ r ≤ 9223372036854775807)) := by
  have h : getSecureRandomNumber 0 9223372036854775807 [Draw.value 5] =
      (Res.panic, [Draw.value 5]) := by decide
  refine ⟨by decide, by decide, by decide, h, ?_⟩
  rw [h]
  simp

/-- C8 (amended): for machine integers `min` and `max`, `getSecureRandomNumber`
returns the range error, without a draw, when `min > max`, and never returns
it when `min <= max`; when `min <= max` and `max-min+1` does not overflow it
either passes on the error of the entropy source or returns `min` plus the
value drawn for bound `max-min+1`, an integer `r` with `min <= r <= max`. -/
theorem getSecureRandomNumber_contract (min max : Int) (e : Entropy)
    (hmin : IsInt min) (hmax : IsInt max) :
    (min > max → getSecureRandomNumber min max e = (Res.ret 0 (some Err.minGreaterThanMax), e)) ∧
    (min ≤ max →
      (∀ v e1, getSecureRandomNumber min max e ≠ (Res.ret v (some Err.minGreaterThanMax), e1)) ∧
      (max - min + 1 ≤ maxInt →
        (∃ err e1, err.isEntropy = true ∧
          randInt (max - min + 1) e = (Res.ret 0 (some err), e1) ∧
          getSecureRandomNumber min max e = (Res.ret 0 (some err), e1)) ∨
        (∃ n e1, randInt (max - min + 1) e = (Res.ret n none, e1) ∧
          getSecureRandomNumber min max e = (Res.ret (min + n) none, e1) ∧
          min ≤ min + n ∧ min + n ≤ max))) := by
  constructor
  · intro h
    simp [getSecureRandomNumber, h]
  · intro h
    have hng : ¬ min > max := by omega
    constructor
    · intro v e1 hc
      simp only [getSecureRandomNumber, hng, if_false] at hc
      split at hc
      · rename_i v1 err e2 hr
        have he := randInt_err_isEntropy hr
        simp only [Prod.mk.injEq, Res.ret.injEq, Option.some.injEq] at hc
        rw [hc.1.2] at he
        simp [Err.isEntropy] at he
      · simp at hc
      · simp at hc
    · intro hov
      unfold IsInt minInt maxInt at hmin hmax
      unfold maxInt at hov
      have hb : iadd (isub max min) 1 = max - min + 1 := by
        unfold iadd isub wrap
        omega
      have hpos : 0 < max - min + 1 := by omega
      rcases randInt_cases (max - min + 1) e hpos with
        ⟨_, h1⟩ | ⟨code, rest, _, h1⟩ | ⟨raw, rest, _, h1⟩
      · exact Or.inl ⟨Err.entropyExhausted, [], rfl, h1, by
          simp [getSecureRandomNumber, hng, hb, h1]⟩
      · exact Or.inl ⟨Err.entropy code, rest, rfl, h1, by
          simp [getSecureRandomNumber, hng, hb, h1]⟩
      · have h0 : 0 ≤ (raw : Int) % (max - min + 1) := Int.emod_nonneg _ (by omega)
        have h2 : (raw : Int) % (max - min + 1) < max - min + 1 := Int.emod_lt_of_pos _ hpos
        refine Or.inr ⟨_, rest, h1, ?_, by omega, by omega⟩
        have hw : iadd min ((raw : Int) % (max - min + 1)) = min + (raw : Int) % (max - min + 1) := by
          unfold iadd wrap
          omega
        simp [getSecureRandomNumber, hng, hb, h1, hw]

theorem getSecureRandomNumber_contract_witness :
    (IsInt 9 ∧ IsInt 0) ∧
      getSecureRandomNumber 9 0 [Draw.value 13] =
        (Res.ret 0 (some Err.minGreaterThanMax), [Draw.value 13]) ∧
      ((∃ err e1, err.isEntropy = true ∧
          randInt (9 - 0 + 1) [Draw.value 13] = (Res.ret 0 (some err), e1) ∧
          getSecureRandomNumber 0 9 [Draw.value 13] = (Res.ret 0 (some err), e1)) ∨
        (∃ n e1, randInt (9 - 0 + 1) [Draw.value 13] = (Res.ret n none, e1) ∧
          getSecureRandomNumber 0 9 [Draw.value 13] = (Res.ret (0 + n) none, e1) ∧
          (0 : Int) ≤ 0 + n ∧ 0 + n ≤ 9)) :=
  ⟨⟨by decide, by decide⟩,
   (getSecureRandomNumber_contract 9 0 [Draw.value 13] (by decide) (by decide)).1 (by decide),
   ((getSecureRandomNumber_contract 0 9 [Draw.value 13] (by decide) (by decide)).2
      (by decide)).2 (by decide)⟩

/-! ## The loops of `findWordsForLength` -/

theorem index_some {α : Type} {l : List α} {i : Int} {a : α} (h : index l i = some a) :
    a ∈ l := by
  unfold index at h
  split at h
  · simp at h
  · exact List.get?_mem h

theorem findWord_ok {wordList : List GoString} {maxWordLength : Int} :
    ∀ (fuel : Nat) (e e1 : Entropy) (word : GoString),
      findWord wordList maxWordLength fuel e = (Res.ret word none, e1) →
      word = [] ∨ (word ∈ wordList ∧ len word ≤ maxWordLength) := by
  intro fuel
  induction fuel with
  | zero =>
    intro e e1 word h
    simp only [findWord, Prod.mk.injEq, Res.ret.injEq, and_true] at h
    exact Or.inl h.1.symm
  | succ k ih =>
    intro e e1 word h
    rw [findWord] at h
    split at h
    · simp at h
    · simp at h
    · split at h
      · simp at h
      · rename_i candidate hidx
        split at h
        · rename_i hle
          simp only [Prod.mk.injEq, Res.ret.injEq, and_true] at h
          rw [← h.1]
          exact Or.inr ⟨index_some hidx, hle⟩
        · exact ih _ _ _ h

/-- One iteration of the slot loop that ends without error or panic: the loop
is left at once (slot budget not positive, or no word found), or a non-empty
word that fits is appended and the loop goes on with slot `i + 1`. -/
theorem slotLoop_succ {words shortWords : List GoString} {numWords separatorLength : Int}
    {fuel : Nat} {i : Int} {pw pw1 : List GoString} {rem rem1 : Int} {e e1 : Entropy}
    (hi : i < numWords)
    (h : slotLoop words shortWords numWords separatorLength (fuel + 1) i pw rem e =
      (Res.ret (pw1, rem1) none, e1)) :
    (pw1 = pw ∧ rem1 = rem) ∨
    (0 < isub rem (imul (isub (isub numWords i) 1) separatorLength) ∧
      ∃ (word : GoString) (e2 : Entropy), word ≠ [] ∧
        findWord
          (if isub rem (imul (isub (isub numWords i) 1) separatorLength) ≤ 2 then shortWords
            else words)
          (isub rem (imul (isub (isub numWords i) 1) separatorLength)) 100 e =
          (Res.ret word none, e2) ∧
        slotLoop words shortWords numWords separatorLength fuel (i + 1) (pw ++ [word])
          (if i < isub numWords 1 then isub (isub rem (len word)) separatorLength
            else isub rem (len word)) e2 = (Res.ret (pw1, rem1) none, e1)) := by
  rw [slotLoop] at h
  simp only [hi, if_true] at h
  split at h
  · simp only [Prod.mk.injEq, Res.ret.injEq, and_true] at h
    exact Or.inl ⟨h.1.1.symm, h.1.2.symm⟩
  · rename_i hmax
    split at h
    · simp at h
    · simp at h
    · rename_i word e2 hfw
      split at h
      · simp only [Prod.mk.injEq, Res.ret.injEq, and_true] at h
        exact Or.inl ⟨h.1.1.symm, h.1.2.symm⟩
      · rename_i hne
        exact Or.inr ⟨by omega, word, e2, hne, hfw, h⟩

theorem slotLoop_done {words shortWords : List GoString} {numWords separatorLength : Int}
    {fuel : Nat} {i : Int} {pw pw1 : List GoString} {rem rem1 : Int} {e e1 : Entropy}
    (hi : ¬ i < numWords)
    (h : slotLoop words shortWords numWords separatorLength fuel i pw rem e =
      (Res.ret (pw1, rem1) none, e1)) :
    pw1 = pw ∧ rem1 = rem ∧ e1 = e := by
  cases fuel with
  | zero =>
    simp only [slotLoop, Prod.mk.injEq, Res.ret.injEq, and_true] at h
    exact ⟨h.1.1.symm, h.1.2.symm, h.2.symm⟩
  | succ k =>
    rw [slotLoop] at h
    simp only [hi, if_false, Prod.mk.injEq, Res.ret.injEq, and_true] at h
    exact ⟨h.1.1.symm, h.1.2.symm, h.2.symm⟩


theorem len_nonneg {α : Type} (l : List α) : 0 ≤ len l := by
  unfold len; omega

theorem len_append_singleton {α : Type} (l : List α) (a : α) : len (l ++ [a]) = len l + 1 := by
  simp [len]

theorem len_pos_of_ne_nil {α : Type} {l : List α} (h : l ≠ []) : 1 ≤ len l := by
  cases l with
  | nil => exact absurd rfl h
  | cons a t => simp [len]

theorem sumLen_append_singleton (ws : List GoString) (w : GoString) :
    sumLen (ws ++ [w]) = sumLen ws + len w := by
  simp [sumLen]

/-- Exactness of an attempt.  With `1 <= numWords`, a non-negative separator
length whose total `(numWords-1)*separatorLength` is an `int`, and
`0 <= remainingLength <= targetLength`, the slot loop keeps
`remainingLength + (lengths of the words so far) + (separators so far)` equal
to `targetLength` and `remainingLength` non-negative. -/
theorem slotLoop_exact {words shortWords : List GoString} {n sep target : Int}
    (hn : n ≤ maxInt) (hsep : 0 ≤ sep) (hprod : (n - 1) * sep ≤ maxInt)
    (ht : target ≤ maxInt) :
    ∀ (fuel : Nat) (i : Int) (pw pw1 : List GoString) (rem rem1 : Int) (e e1 : Entropy),
      0 ≤ i → i ≤ n → len pw = i → 0 ≤ rem → rem ≤ target →
      (i < n → rem + sumLen pw + i * sep = target) →
      (i = n → rem + sumLen pw + (n - 1) * sep = target) →
      slotLoop words shortWords n sep fuel i pw rem e = (Res.ret (pw1, rem1) none, e1) →
      len pw1 ≤ n ∧ 0 ≤ rem1 ∧ rem1 ≤ target ∧
        (len pw1 = n → rem1 + sumLen pw1 + (n - 1) * sep = target) := by
  unfold maxInt at hn hprod ht
  intro fuel
  induction fuel with
  | zero =>
    intro i pw pw1 rem rem1 e e1 hi0 hin hlen hr0 hrt hlt heq h
    simp only [slotLoop, Prod.mk.injEq, Res.ret.injEq, and_true] at h
    obtain ⟨⟨h1, h2⟩, _⟩ := h
    subst h1 h2
    exact ⟨by omega, hr0, hrt, fun hl => heq (by omega)⟩
  | succ k ih =>
    intro i pw pw1 rem rem1 e e1 hi0 hin hlen hr0 hrt hlt heq h
    by_cases hi : i < n
    · rcases slotLoop_succ hi h with ⟨h1, h2⟩ | ⟨hmax, word, e2, hne, hfw, hrec⟩
      · subst h1 h2
        exact ⟨by omega, hr0, hrt, fun hl => heq (by omega)⟩
      · have hB0 : 0 ≤ i * sep := mul_nonneg hi0 hsep
        have hBA : i * sep ≤ (n - 1) * sep := mul_le_mul_of_nonneg_right (by omega) hsep
        have hP : (n - i - 1) * sep = (n - 1) * sep - i * sep := by ring
        have h1 : isub (isub n i) 1 = n - i - 1 := by
          unfold isub wrap; omega
        have h2 : imul (n - i - 1) sep = (n - 1) * sep - i * sep := by
          unfold imul wrap; rw [hP]; omega
        have h3 : isub rem ((n - 1) * sep - i * sep) = rem - ((n - 1) * sep - i * sep) := by
          unfold isub wrap; omega
        rw [h1, h2, h3] at hfw hmax
        have hL1 : 1 ≤ len word := len_pos_of_ne_nil hne
        have hL2 : len word ≤ rem - ((n - 1) * sep - i * sep) := by
          rcases findWord_ok _ _ _ _ hfw with hnil | ⟨_, hle⟩
          · exact absurd hnil hne
          · exact hle
        have h4 : isub n 1 = n - 1 := by unfold isub wrap; omega
        have h5 : isub rem (len word) = rem - len word := by unfold isub wrap; omega
        rw [h4, h5] at hrec
        have hS : sumLen (pw ++ [word]) = sumLen pw + len word := sumLen_append_singleton pw word
        have hlen1 : len (pw ++ [word]) = i + 1 := by rw [len_append_singleton, hlen]
        have hlt1 := hlt hi
        have hI : (i + 1) * sep = i * sep + sep := by ring
        by_cases hlast : i < n - 1
        · have hsepP : (i + 1) * sep ≤ (n - 1) * sep :=
            mul_le_mul_of_nonneg_right (by omega) hsep
          have h6 : isub (rem - len word) sep = rem - len word - sep := by
            unfold isub wrap; omega
          simp only [hlast, if_true, h6] at hrec
          exact ih (i + 1) _ pw1 _ rem1 e2 e1 (by omega) (by omega) hlen1 (by omega) (by omega)
            (fun _ => by rw [hS, hI]; omega) (fun hc => by omega) hrec
        · have hin1 : i = n - 1 := by omega
          simp only [hlast, if_false] at hrec
          have hIn : i * sep = (n - 1) * sep := by rw [hin1]
          exact ih (i + 1) _ pw1 _ rem1 e2 e1 (by omega) (by omega) hlen1 (by omega) (by omega)
            (fun hc => by omega) (fun _ => by rw [hS]; omega) hrec
    · obtain ⟨h1, h2, _⟩ := slotLoop_done hi h
      subst h1 h2
      exact ⟨by omega, hr0, hrt, fun _ => heq (by omega)⟩


/-- Congruence of an attempt.  For `1 <= numWords`, whatever the other
arguments are, the slot loop keeps
`remainingLength + (lengths of the words so far) + (separators so far)`
congruent to `targetLength` modulo `2^64`. -/
theorem slotLoop_congr {words shortWords : List GoString} {n sep target : Int}
    (hn1 : 1 ≤ n) (hn : n ≤ maxInt) :
    ∀ (fuel : Nat) (i : Int) (pw pw1 : List GoString) (rem rem1 : Int) (e e1 : Entropy),
      i ≤ n → len pw = i →
      (i < n → (rem + sumLen pw + i * sep - target) % 18446744073709551616 = 0) →
      (i = n → (rem + sumLen pw + (n - 1) * sep - target) % 18446744073709551616 = 0) →
      slotLoop words shortWords n sep fuel i pw rem e = (Res.ret (pw1, rem1) none, e1) →
      len pw1 ≤ n ∧
        (len pw1 = n →
          (rem1 + sumLen pw1 + (n - 1) * sep - target) % 18446744073709551616 = 0) := by
  unfold maxInt at hn
  intro fuel
  induction fuel with
  | zero =>
    intro i pw pw1 rem rem1 e e1 hin hlen hlt heq h
    simp only [slotLoop, Prod.mk.injEq, Res.ret.injEq, and_true] at h
    obtain ⟨⟨h1, h2⟩, _⟩ := h
    subst h1 h2
    exact ⟨by omega, fun hl => heq (by omega)⟩
  | succ k ih =>
    intro i pw pw1 rem rem1 e e1 hin hlen hlt heq h
    by_cases hi : i < n
    · rcases slotLoop_succ hi h with ⟨h1, h2⟩ | ⟨_, word, e2, _, _, hrec⟩
      · subst h1 h2
        exact ⟨by omega, fun hl => heq (by omega)⟩
      · have h4 : isub n 1 = n - 1 := by unfold isub wrap; omega
        rw [h4] at hrec
        have hS : sumLen (pw ++ [word]) = sumLen pw + len word := sumLen_append_singleton pw word
        have hlen1 : len (pw ++ [word]) = i + 1 := by rw [len_append_singleton, hlen]
        have hlt1 := hlt hi
        have hI : (i + 1) * sep = i * sep + sep := by ring
        by_cases hlast : i < n - 1
        · simp only [hlast, if_true] at hrec
          exact ih (i + 1) _ pw1 _ rem1 e2 e1 (by omega) hlen1
            (fun _ => by rw [hS, hI]; unfold isub wrap; omega) (fun hc => by omega) hrec
        · have hin1 : i = n - 1 := by omega
          simp only [hlast, if_false] at hrec
          have hIn : i * sep = (n - 1) * sep := by rw [hin1]
          exact ih (i + 1) _ pw1 _ rem1 e2 e1 (by omega) hlen1
            (fun hc => by omega) (fun _ => by rw [hS]; unfold isub wrap; omega) hrec
    · obtain ⟨h1, h2, _⟩ := slotLoop_done hi h
      subst h1 h2
      exact ⟨by omega, fun _ => heq (by omega)⟩

/-- A successful call of `findWordsForLength` ends with an attempt whose slot
loop, started from slot 0 with `remainingLength = targetLength`, returned the
word list with `remainingLength = 0`. -/
theorem findWordsForLength_ok {words shortWords : List GoString} {n sep target : Int} :
    ∀ (budget : Nat) (e e1 : Entropy) (ws : List GoString),
      findWordsForLength words shortWords n sep target budget e = (Res.ret ws none, e1) →
      len ws = n ∧
        ∃ e0 : Entropy,
          slotLoop words shortWords n sep n.toNat 0 [] target e0 = (Res.ret (ws, 0) none, e1) := by
  intro budget
  induction budget with
  | zero =>
    intro e e1 ws h
    simp [findWordsForLength] at h
  | succ k ih =>
    intro e e1 ws h
    rw [findWordsForLength] at h
    split at h
    · simp at h
    · simp at h
    · rename_i pw rem e2 hs
      split at h
      · rename_i hc
        simp only [Prod.mk.injEq, Res.ret.injEq, and_true] at h
        obtain ⟨h1, h2⟩ := h
        subst h1 h2
        refine ⟨hc.1, e, ?_⟩
        rw [hs, hc.2]
      · exact ih _ _ _ h

/-- Counterexample to C1 as stated.  (a) With `numWords = 0` the call returns
the empty word list without error for `targetLength = 0`, while
`0 + (0-1)*1 = -1`.  (b) With a negative `targetLength` and a huge
`separatorLength` the `int` arithmetic wraps around: two three-letter words are
returned, while `6 + 1*(2^63-6) = 2^63` is not `targetLength = -2^63`. -/
theorem findWordsForLength_not_exact :
    (findWordsForLength [str "cat"] [str "ox"] 0 1 0 1 [] = (Res.ret [] none, []) ∧
      sumLen [] + (0 - 1) * 1 ≠ 0) ∧
    (findWordsForLength [str "cat"] [str "ox"] 2 9223372036854775802 (-9223372036854775808) 1
        [Draw.value 0, Draw.value 0] = (Res.ret [str "cat", str "cat"] none, []) ∧
      sumLen [str "cat", str "cat"] + (2 - 1) * 9223372036854775802 ≠ -9223372036854775808) := by
  decide

/-- C1 (amended): for `1 <= numWords`, if `findWordsForLength` returns a word
list without error then the list has exactly `numWords` words, and the sum of
the words' lengths plus `(numWords-1)*separatorLength` equals `targetLength`
in `int` arithmetic (modulo `2^64`); it equals `targetLength` exactly when
`separatorLength` and `targetLength` are non-negative and
`(numWords-1)*separatorLength` does not overflow. -/
theorem findWordsForLength_exact (words shortWords : List GoString)
    (numWords separatorLength targetLength : Int) (budget : Nat) (e e1 : Entropy)
    (ws : List GoString) (hn1 : 1 ≤ numWords) (hn : IsInt numWords) (ht : IsInt targetLength)
    (h : findWordsForLength words shortWords numWords separatorLength targetLength budget e =
      (Res.ret ws none, e1)) :
    len ws = numWords ∧
      wrap (sumLen ws + (numWords - 1) * separatorLength) = targetLength ∧
      (0 ≤ separatorLength → 0 ≤ targetLength → (numWords - 1) * separatorLength ≤ maxInt →
        sumLen ws + (numWords - 1) * separatorLength = targetLength) := by
  obtain ⟨hlen, e0, hs⟩ := findWordsForLength_ok budget e e1 ws h
  have hsum0 : sumLen [] = 0 := rfl
  have hlen0 : len ([] : List GoString) = 0 := rfl
  refine ⟨hlen, ?_, ?_⟩
  · have hc := (@slotLoop_congr words shortWords numWords separatorLength targetLength hn1 hn.2
      numWords.toNat 0 [] ws targetLength 0 e0 e1 (by omega) hlen0
      (fun _ => by rw [hsum0]; simp) (fun hc => by omega) hs).2 hlen
    unfold IsInt minInt maxInt at ht
    unfold wrap
    omega
  · intro hsep ht0 hprod
    have hx := (slotLoop_exact hn.2 hsep hprod ht.2
      numWords.toNat 0 [] ws targetLength 0 e0 e1 (by omega) (by omega) hlen0 ht0 (le_refl _)
      (fun _ => by rw [hsum0]; simp) (fun hc => by omega) hs).2.2.2 hlen
    omega

theorem findWordsForLength_exact_witness :
    ((1 : Int) ≤ 2 ∧ IsInt 2 ∧ IsInt 7 ∧
      findWordsForLength [str "cat", str "dog", str "blue"] [str "ox", str "go"] 2 1 7 3
          [Draw.value 2, Draw.value 0] = (Res.ret [str "blue", str "ox"] none, [])) ∧
    (len [str "blue", str "ox"] = 2 ∧
      wrap (sumLen [str "blue", str "ox"] + (2 - 1) * 1) = 7 ∧
      ((0 : Int) ≤ 1 → (0 : Int) ≤ 7 → (2 - 1) * 1 ≤ maxInt →
        sumLen [str "blue", str "ox"] + (2 - 1) * 1 = 7)) :=
  ⟨by decide,
   findWordsForLength_exact [str "cat", str "dog", str "blue"] [str "ox", str "go"] 2 1 7 3
    [Draw.value 2, Draw.value 0] [] [str "blue", str "ox"] (by decide) (by decide) (by decide)
    (by decide)⟩


/-! ## Capitalisation -/

theorem unicodeToUpper_ascii {b : Byte} (h : b.val < 128) : unicodeToUpper b < 128 := by
  unfold unicodeToUpper
  simp only
  split_ifs <;> omega

theorem encodeRune_ascii {r : Nat} (h : r < 128) : encodeRune r = [Fin.ofNat r] := by
  simp [encodeRune, h]

theorem capitalizeFirstLetter_len {s : GoString} (h : AsciiFirst s) :
    len (capitalizeFirstLetter s) = len s := by
  cases s with
  | nil => rfl
  | cons b rest =>
    have hb : b.val < 128 := h b rest rfl
    simp [capitalizeFirstLetter, encodeRune_ascii (unicodeToUpper_ascii hb), len]

/-- C6 (code bug): on the UTF-8 string "élan" the function upper-cases the
first byte, not the first character: the byte `0xC3` is read as U+00C3, which
is its own capital and is written back as the two bytes `0xC3 0x83`, so the
result is "Ã", the stray byte `0xA9` and "lan", not "Élan". -/
theorem capitalizeFirstLetter_first_byte :
    str "élan" = [195, 169, 108, 97, 110] ∧
      str "Élan" = [195, 137, 108, 97, 110] ∧
      capitalizeFirstLetter (str "élan") = [195, 131, 169, 108, 97, 110] ∧
      capitalizeFirstLetter (str "élan") ≠ str "Élan" := by
  decide

/-- C7 (code bug): capitalising "élan" twice differs from capitalising it
once; every application puts one more byte `0x83` after the first byte. -/
theorem capitalizeFirstLetter_twice :
    capitalizeFirstLetter (str "élan") = [195, 131, 169, 108, 97, 110] ∧
      capitalizeFirstLetter (capitalizeFirstLetter (str "élan")) =
        [195, 131, 131, 169, 108, 97, 110] ∧
      capitalizeFirstLetter (capitalizeFirstLetter (str "élan")) ≠
        capitalizeFirstLetter (str "élan") := by
  decide

set_option maxRecDepth 100000 in
/-- A first byte outside ASCII is always written back as two bytes, so the
result is one byte longer than the argument. -/
theorem encodeRune_unicodeToUpper_nonascii :
    ∀ b : Byte, 128 ≤ b.val → (encodeRune (unicodeToUpper b)).length = 2 := by
  decide

theorem unicodeToUpper_fin_val {b : Byte} (h : b.val < 128) :
    ((Fin.ofNat (unicodeToUpper b) : Byte)).val = unicodeToUpper b := by
  have := unicodeToUpper_ascii h
  simp only [Fin.ofNat]
  omega

set_option maxRecDepth 100000 in
theorem unicodeToUpper_idem :
    ∀ b : Byte, b.val < 128 →
      unicodeToUpper (Fin.ofNat (unicodeToUpper b) : Byte) = unicodeToUpper b := by
  decide

/-- On a string that starts with an ASCII byte the function replaces that byte
by its upper-case form and keeps the rest; doing so twice changes nothing
more. -/
theorem capitalizeFirstLetter_ascii (b : Byte) (rest : GoString) (h : b.val < 128) :
    capitalizeFirstLetter (b :: rest) = Fin.ofNat (unicodeToUpper b) :: rest ∧
      capitalizeFirstLetter (capitalizeFirstLetter (b :: rest)) =
        capitalizeFirstLetter (b :: rest) := by
  have h1 : capitalizeFirstLetter (b :: rest) = Fin.ofNat (unicodeToUpper b) :: rest := by
    simp [capitalizeFirstLetter, encodeRune_ascii (unicodeToUpper_ascii h)]
  refine ⟨h1, ?_⟩
  rw [h1]
  have h2 : ((Fin.ofNat (unicodeToUpper b) : Byte)).val < 128 := by
    rw [unicodeToUpper_fin_val h]; exact unicodeToUpper_ascii h
  have h3 := unicodeToUpper_idem b h
  simp [capitalizeFirstLetter, encodeRune_ascii (unicodeToUpper_ascii h), h3,
    encodeRune_ascii (unicodeToUpper_ascii h2)]


/-! ## The decoration steps of `generatePassword` -/

theorem sprintfD_digit (k : Nat) (h : k < 10) : sprintfD (k : Int) = [Fin.ofNat (48 + k)] := by
  interval_cases k <;> decide

theorem symbols_ascii : ∀ c ∈ symbols, c < 128 ∧ ¬ (48 ≤ c ∧ c ≤ 57) := by
  decide

theorem symbols_distinct : symbols.length = 24 ∧ symbols.Nodup := by
  decide

/-- A successful `if addNumber` block appends nothing when the flag is off,
and one decimal digit, chosen by one draw, when it is on. -/
theorem appendNumber_ok {addNumber : Bool} {password p1 : GoString} {e e1 : Entropy}
    (h : appendNumber addNumber password e = (Res.ret p1 none, e1)) :
    (addNumber = false ∧ p1 = password ∧ e1 = e) ∨
    (addNumber = true ∧ ∃ raw : Nat, e = Draw.value raw :: e1 ∧
      p1 = password ++ [Fin.ofNat (48 + raw % 10)]) := by
  cases addNumber with
  | false =>
    simp only [appendNumber, Bool.false_eq_true, if_false, Prod.mk.injEq, Res.ret.injEq,
      and_true] at h
    exact Or.inl ⟨rfl, h.1.symm, h.2.symm⟩
  | true =>
    right
    refine ⟨rfl, ?_⟩
    have hb : iadd (isub 9 0) 1 = 10 := by decide
    have hng : ¬ ((0 : Int) > 9) := by decide
    simp only [appendNumber, if_true, getSecureRandomNumber, hng, if_false, hb] at h
    rcases randInt_cases 10 e (by decide) with ⟨_, h1⟩ | ⟨_, _, _, h1⟩ | ⟨raw, rest, he, h1⟩
    · rw [h1] at h; simp at h
    · rw [h1] at h; simp at h
    · rw [h1] at h
      simp only [Prod.mk.injEq, Res.ret.injEq, and_true] at h
      obtain ⟨h2, h3⟩ := h
      refine ⟨raw, by rw [he, h3], ?_⟩
      have hk : raw % 10 < 10 := Nat.mod_lt _ (by decide)
      have hcast : ((raw : Int) % 10) = ((raw % 10 : Nat) : Int) := by omega
      have hw : iadd 0 ((raw : Int) % 10) = ((raw % 10 : Nat) : Int) := by
        unfold iadd wrap; omega
      rw [hw, sprintfD_digit _ hk] at h2
      exact h2.symm

/-- A successful `if addSymbol` block appends nothing when the flag is off,
and one byte, the symbol chosen by one draw, when it is on. -/
theorem appendSymbol_ok {addSymbol : Bool} {password p1 : GoString} {e e1 : Entropy}
    (h : appendSymbol addSymbol password e = (Res.ret p1 none, e1)) :
    (addSymbol = false ∧ p1 = password ∧ e1 = e) ∨
    (addSymbol = true ∧ ∃ (raw c : Nat), e = Draw.value raw :: e1 ∧ c ∈ symbols ∧
      symbols.get? (raw % 24) = some c ∧ p1 = password ++ [Fin.ofNat c]) := by
  cases addSymbol with
  | false =>
    simp only [appendSymbol, Bool.false_eq_true, if_false, Prod.mk.injEq, Res.ret.injEq,
      and_true] at h
    exact Or.inl ⟨rfl, h.1.symm, h.2.symm⟩
  | true =>
    right
    refine ⟨rfl, ?_⟩
    simp only [appendSymbol, if_true] at h
    split at h
    · simp at h
    · simp at h
    · rename_i idx e2 hg
      obtain ⟨_, raw, he, hidx⟩ := getSecureRandomIndex_ok hg
      split at h
      · simp at h
      · rename_i sym hsym
        simp only [Prod.mk.injEq, Res.ret.injEq, and_true] at h
        obtain ⟨h2, h3⟩ := h
        subst h3
        have hmem : sym ∈ symbols := index_some hsym
        have hl : len symbols = 24 := by decide
        rw [hl] at hidx
        have hget : symbols.get? (raw % 24) = some sym := by
          unfold index at hsym
          have h0 : ¬ idx < 0 := by omega
          simp only [h0, if_false] at hsym
          have ht : idx.toNat = raw % 24 := by omega
          rw [ht] at hsym
          exact hsym
        refine ⟨raw, sym, he, hmem, hget, ?_⟩
        rw [encodeRune_ascii (symbols_ascii sym hmem).1] at h2
        exact h2.symm


theorem stringsJoin_some {elems : List GoString} {sep p : GoString}
    (h : stringsJoin elems sep = some p) : p = joinBytes elems sep := by
  unfold stringsJoin at h
  split at h
  · simp only [Option.some.injEq] at h
    rw [← h]; rfl
  · simp only [Option.some.injEq] at h
    rw [← h]; rfl
  · split at h
    · simp at h
    · simp only [Option.some.injEq] at h
      exact h.symm

/-- A successful decoration: the (optionally capitalised) words are joined,
then the digit block runs, then the symbol block. -/
theorem decorate_ok {ws : List GoString} {sep pw : GoString} {capitalize addNumber addSymbol : Bool}
    {e e2 : Entropy}
    (h : decorate ws sep capitalize addNumber addSymbol e = (Res.ret pw none, e2)) :
    ∃ (base p1 : GoString) (e1 : Entropy),
      stringsJoin (if capitalize then ws.map capitalizeFirstLetter else ws) sep = some base ∧
      appendNumber addNumber base e = (Res.ret p1 none, e1) ∧
      appendSymbol addSymbol p1 e1 = (Res.ret pw none, e2) := by
  unfold decorate at h
  simp only at h
  split at h
  · simp at h
  · rename_i base hj
    split at h
    · simp at h
    · simp at h
    · rename_i p1 e1 hn
      exact ⟨base, p1, e1, hj, hn, h⟩

/-- A successful `generatePassword`: the word count is positive, the words
were chosen without error, and the decoration of these words gave the result. -/
theorem generatePassword_ok {budget : Nat} {words shortWords : List GoString} {numWords : Int}
    {separator : GoString} {length : Int} {capitalize addNumber addSymbol : Bool}
    {e e2 : Entropy} {pw : GoString}
    (h : generatePassword budget words shortWords numWords separator length capitalize addNumber
      addSymbol e = (Res.ret pw none, e2)) :
    0 < numWords ∧
      ∃ (ws : List GoString) (e1 : Entropy),
        chooseWords budget words shortWords numWords separator length e = (Res.ret ws none, e1) ∧
        decorate ws separator capitalize addNumber addSymbol e1 = (Res.ret pw none, e2) := by
  unfold generatePassword at h
  split at h
  · simp at h
  · rename_i hn
    simp only at h
    split at h
    · simp at h
    · split at h
      · simp at h
      · split at h
        · simp at h
        · simp at h
        · rename_i ws e1 hc
          exact ⟨by omega, ws, e1, hc, h⟩

/-- C5: every successful `generatePassword` result is `base ++ d ++ s`, where
`base` is the chosen words, capitalised when `capitalize` is set, joined by the
separator; `d` is one byte in `'0'..'9'` when `addNumber` is set and empty
otherwise; `s` is one byte, a member of the 24 distinct symbols (none of them a
digit), when `addSymbol` is set and empty otherwise.  The digit comes before
the symbol. -/
theorem generatePassword_shape (budget : Nat) (words shortWords : List GoString)
    (numWords : Int) (separator : GoString) (length : Int)
    (capitalize addNumber addSymbol : Bool) (e e2 : Entropy) (pw : GoString)
    (h : generatePassword budget words shortWords numWords separator length capitalize addNumber
      addSymbol e = (Res.ret pw none, e2)) :
    ∃ (ws : List GoString) (e1 : Entropy) (d s : GoString),
      chooseWords budget words shortWords numWords separator length e = (Res.ret ws none, e1) ∧
      pw = joinBytes (if capitalize then ws.map capitalizeFirstLetter else ws) separator
            ++ d ++ s ∧
      (if addNumber = true then ∃ k : Nat, k < 10 ∧ d = [Fin.ofNat (48 + k)] else d = []) ∧
      (if addSymbol = true then ∃ c : Nat, c ∈ symbols ∧ s = [Fin.ofNat c] else s = []) ∧
      symbols.length = 24 ∧ symbols.Nodup ∧ (∀ c ∈ symbols, c < 128 ∧ ¬ (48 ≤ c ∧ c ≤ 57)) := by
  obtain ⟨_, ws, e1, hc, hd⟩ := generatePassword_ok h
  obtain ⟨base, p1, e3, hj, hn, hs⟩ := decorate_ok hd
  have hbase := stringsJoin_some hj
  rcases appendNumber_ok hn with ⟨hn1, hn2, _⟩ | ⟨hn1, raw, _, hn2⟩ <;>
    rcases appendSymbol_ok hs with ⟨hs1, hs2, _⟩ | ⟨hs1, raw2, c, _, hc1, _, hs2⟩
  · refine ⟨ws, e1, [], [], hc, ?_, ?_, ?_, symbols_distinct.1, symbols_distinct.2, symbols_ascii⟩
    · rw [hs2, hn2, hbase]; simp
    · simp [hn1]
    · simp [hs1]
  · refine ⟨ws, e1, [], [Fin.ofNat c], hc, ?_, ?_, ?_, symbols_distinct.1, symbols_distinct.2,
      symbols_ascii⟩
    · rw [hs2, hn2, hbase]; simp
    · simp [hn1]
    · simp only [hs1, if_true]; exact ⟨c, hc1, rfl⟩
  · refine ⟨ws, e1, [Fin.ofNat (48 + raw % 10)], [], hc, ?_, ?_, ?_, symbols_distinct.1,
      symbols_distinct.2, symbols_ascii⟩
    · rw [hs2, hn2, hbase]; simp
    · simp only [hn1, if_true]; exact ⟨raw % 10, Nat.mod_lt _ (by decide), rfl⟩
    · simp [hs1]
  · refine ⟨ws, e1, [Fin.ofNat (48 + raw % 10)], [Fin.ofNat c], hc, ?_, ?_, ?_,
      symbols_distinct.1, symbols_distinct.2, symbols_ascii⟩
    · rw [hs2, hn2, hbase]
    · simp only [hn1, if_true]; exact ⟨raw % 10, Nat.mod_lt _ (by decide), rfl⟩
    · simp only [hs1, if_true]; exact ⟨c, hc1, rfl⟩


/-! ## Unconstrained selection -/

theorem index_draw {α : Type} {l : List α} {raw : Nat} {idx : Int} {a : α}
    (hidx : idx = (raw : Int) % len l) (h : index l idx = some a) :
    l.get? (raw % l.length) = some a := by
  unfold index at h
  unfold len at hidx
  have h0 : ¬ idx < 0 := by
    rw [hidx]
    have := Int.emod_nonneg (raw : Int) (b := (l.length : Int))
    by_cases hl : (l.length : Int) = 0
    · rw [hl]; simp
    · have := this hl; omega
  simp only [h0, if_false] at h
  have ht : idx.toNat = raw % l.length := by
    rw [hidx, ← Int.ofNat_emod]
    exact Int.toNat_ofNat _
  rw [ht] at h
  exact h

theorem forall2_get_mem {words picked : List GoString} {raws : List Nat} {f : Nat → Nat}
    (h : List.Forall₂ (fun r w => words.get? (f r) = some w) raws picked) :
    ∀ w ∈ picked, w ∈ words := by
  induction h with
  | nil => intro w hw; simp at hw
  | cons hrw _ ih =>
    intro w hw
    rcases List.mem_cons.mp hw with hw1 | hw1
    · rw [hw1]; exact List.get?_mem hrw
    · exact ih w hw1

/-- A successful selection loop consumed one value draw per remaining
iteration and appended, for each draw `r`, the catalog word at index
`r mod len(words)`. -/
theorem selectLoop_ok {words : List GoString} {numWords : Int} :
    ∀ (fuel : Nat) (i : Int) (pw ws : List GoString) (e e1 : Entropy),
      selectLoop words numWords fuel i pw e = (Res.ret ws none, e1) →
      ∃ (raws : List Nat) (picked : List GoString),
        e = raws.map Draw.value ++ e1 ∧ ws = pw ++ picked ∧
        List.Forall₂ (fun r w => words.get? (r % words.length) = some w) raws picked ∧
        picked.length = min fuel (numWords - i).toNat := by
  intro fuel
  induction fuel with
  | zero =>
    intro i pw ws e e1 h
    simp only [selectLoop, Prod.mk.injEq, Res.ret.injEq, and_true] at h
    exact ⟨[], [], by simp [h.2], by simp [h.1], List.Forall₂.nil, by simp⟩
  | succ k ih =>
    intro i pw ws e e1 h
    rw [selectLoop] at h
    split at h
    · rename_i hi
      split at h
      · simp at h
      · simp at h
      · rename_i idx e2 hg
        obtain ⟨_, raw, he, hidx⟩ := getSecureRandomIndex_ok hg
        split at h
        · simp at h
        · rename_i w hw
          obtain ⟨raws, picked, h1, h2, h3, h4⟩ := ih _ _ _ _ _ h
          refine ⟨raw :: raws, w :: picked, ?_, ?_, ?_, ?_⟩
          · rw [he, h1]; simp
          · rw [h2]; simp
          · exact List.Forall₂.cons (index_draw hidx hw) h3
          · simp only [List.length_cons, h4]
            omega
    · rename_i hi
      simp only [Prod.mk.injEq, Res.ret.injEq, and_true] at h
      refine ⟨[], [], by simp [h.2], by simp [h.1], List.Forall₂.nil, ?_⟩
      simp only [List.length_nil]
      omega

/-- C4: with an unconstrained length (`length = 0`) and no flag set, a
successful `generatePassword` made exactly `numWords` draws `d_0, d_1, ...`
and returned `strings.Join(ws, separator)`, where `ws` has `numWords` words
and `ws[i]` is the word of the general catalog at index `d_i`; nothing follows
the last word. -/
theorem generatePassword_unconstrained (budget : Nat) (words shortWords : List GoString)
    (numWords : Int) (separator : GoString) (e e1 : Entropy) (pw : GoString)
    (h : generatePassword budget words shortWords numWords separator 0 false false false e =
      (Res.ret pw none, e1)) :
    0 < numWords ∧ words ≠ [] ∧
    ∃ (raws : List Nat) (ws : List GoString),
      e = raws.map Draw.value ++ e1 ∧
      len raws = numWords ∧ len ws = numWords ∧
      List.Forall₂ (fun r w => words.get? (r % words.length) = some w) raws ws ∧
      (∀ w ∈ ws, w ∈ words) ∧
      stringsJoin ws separator = some pw ∧ pw = joinBytes ws separator := by
  obtain ⟨hn, ws, e2, hc, hd⟩ := generatePassword_ok h
  obtain ⟨base, p1, e3, hj, hnum, hsym⟩ := decorate_ok hd
  rcases appendNumber_ok hnum with ⟨_, hn2, hn3⟩ | ⟨hcontra, _⟩
  swap
  · simp at hcontra
  rcases appendSymbol_ok hsym with ⟨_, hs2, hs3⟩ | ⟨hcontra, _⟩
  swap
  · simp at hcontra
  simp only [Bool.false_eq_true, if_false] at hj
  have hl0 : ¬ ((0 : Int) > 0) := by decide
  simp only [chooseWords, hl0, if_false] at hc
  obtain ⟨raws, picked, h1, h2, h3, h4⟩ := selectLoop_ok _ _ _ _ _ _ hc
  simp only [List.nil_append] at h2
  subst h2
  have hlen : ws.length = numWords.toNat := by rw [h4]; simp
  have hraws : raws.length = ws.length := h3.length_eq
  have hne : words ≠ [] := by
    intro hnil
    cases h3 with
    | nil => simp at hlen; omega
    | cons hrw _ => rw [hnil] at hrw; simp at hrw
  refine ⟨hn, hne, raws, ws, ?_, ?_, ?_, h3, forall2_get_mem h3, ?_, ?_⟩
  · rw [h1, hs3, hn3]
  · unfold len; omega
  · unfold len; omega
  · rw [hs2, hn2]; exact hj
  · rw [hs2, hn2]; exact stringsJoin_some hj


theorem generatePassword_unconstrained_witness :
    generatePassword 1 [str "cat", str "dog", str "blue"] [str "ox"] 3 (str "-") 0 false false
        false [Draw.value 5, Draw.value 0, Draw.value 4, Draw.value 9] =
      (Res.ret (str "blue-cat-dog") none, [Draw.value 9]) ∧
    ((0 : Int) < 3 ∧ [str "cat", str "dog", str "blue"] ≠ [] ∧
      ∃ (raws : List Nat) (ws : List GoString),
        [Draw.value 5, Draw.value 0, Draw.value 4, Draw.value 9] =
          raws.map Draw.value ++ [Draw.value 9] ∧
        len raws = 3 ∧ len ws = 3 ∧
        List.Forall₂
          (fun r w =>
            [str "cat", str "dog", str "blue"].get?
              (r % [str "cat", str "dog", str "blue"].length) = some w) raws ws ∧
        (∀ w ∈ ws, w ∈ [str "cat", str "dog", str "blue"]) ∧
        stringsJoin ws (str "-") = some (str "blue-cat-dog") ∧
        str "blue-cat-dog" = joinBytes ws (str "-")) :=
  ⟨by decide,
   generatePassword_unconstrained 1 [str "cat", str "dog", str "blue"] [str "ox"] 3 (str "-")
    [Draw.value 5, Draw.value 0, Draw.value 4, Draw.value 9] [Draw.value 9]
    (str "blue-cat-dog") (by decide)⟩

theorem generatePassword_shape_witness :
    generatePassword 5 [str "cat", str "dog", str "blue"] [str "ox", str "go"] 2 (str "-") 7
        true true true [Draw.value 2, Draw.value 0, Draw.value 3, Draw.value 5] =
      (Res.ret (str "Blue-Ox3^") none, []) ∧
    ∃ (ws : List GoString) (e1 : Entropy) (d s : GoString),
      chooseWords 5 [str "cat", str "dog", str "blue"] [str "ox", str "go"] 2 (str "-") 7
          [Draw.value 2, Draw.value 0, Draw.value 3, Draw.value 5] = (Res.ret ws none, e1) ∧
      str "Blue-Ox3^" =
        joinBytes (if true = true then ws.map capitalizeFirstLetter else ws) (str "-")
          ++ d ++ s ∧
      (if true = true then ∃ k : Nat, k < 10 ∧ d = [Fin.ofNat (48 + k)] else d = []) ∧
      (if true = true then ∃ c : Nat, c ∈ symbols ∧ s = [Fin.ofNat c] else s = []) ∧
      symbols.length = 24 ∧ symbols.Nodup ∧ (∀ c ∈ symbols, c < 128 ∧ ¬ (48 ≤ c ∧ c ≤ 57)) :=
  ⟨by decide,
   generatePassword_shape 5 [str "cat", str "dog", str "blue"] [str "ox", str "go"] 2 (str "-") 7
    true true true [Draw.value 2, Draw.value 0, Draw.value 3, Draw.value 5] []
    (str "Blue-Ox3^") (by decide)⟩

/-! ## The length of a length-constrained password -/

/-- Every word the slot loop returns was there before or comes from one of
the two catalogs. -/
theorem slotLoop_mem {words shortWords : List GoString} {n sep : Int} :
    ∀ (fuel : Nat) (i : Int) (pw pw1 : List GoString) (rem rem1 : Int) (e e1 : Entropy),
      slotLoop words shortWords n sep fuel i pw rem e = (Res.ret (pw1, rem1) none, e1) →
      ∀ w ∈ pw1, w ∈ pw ∨ w ∈ words ∨ w ∈ shortWords := by
  intro fuel
  induction fuel with
  | zero =>
    intro i pw pw1 rem rem1 e e1 h w hw
    simp only [slotLoop, Prod.mk.injEq, Res.ret.injEq, and_true] at h
    rw [← h.1.1] at hw
    exact Or.inl hw
  | succ k ih =>
    intro i pw pw1 rem rem1 e e1 h w hw
    by_cases hi : i < n
    · rcases slotLoop_succ hi h with ⟨h1, _⟩ | ⟨_, word, e2, hne, hfw, hrec⟩
      · rw [h1] at hw
        exact Or.inl hw
      · have hword : word ∈ words ∨ word ∈ shortWords := by
          rcases findWord_ok _ _ _ _ hfw with hnil | ⟨hmem, _⟩
          · exact absurd hnil hne
          · split at hmem
            · exact Or.inr hmem
            · exact Or.inl hmem
        rcases ih _ _ _ _ _ _ _ hrec w hw with h1 | h1
        · rcases List.mem_append.mp h1 with h2 | h2
          · exact Or.inl h2
          · rw [List.mem_singleton.mp h2]
            exact Or.inr hword
        · exact Or.inr h1
    · obtain ⟨h1, _, _⟩ := slotLoop_done hi h
      rw [h1] at hw
      exact Or.inl hw

theorem joinBytes_len (sep : GoString) :
    ∀ ws : List GoString, ws ≠ [] →
      len (joinBytes ws sep) = sumLen ws + (len ws - 1) * len sep := by
  intro ws
  induction ws with
  | nil => intro h; exact absurd rfl h
  | cons a t ih =>
    intro _
    cases t with
    | nil => simp [joinBytes, sumLen, len]
    | cons b r =>
      have h := ih (by simp)
      simp only [joinBytes, len, sumLen, List.length_append, List.map_cons, List.sum_cons,
        List.length_cons, Nat.cast_add, Nat.cast_one] at h ⊢
      rw [h]
      ring

theorem sumLen_map_capitalize :
    ∀ ws : List GoString, (∀ w ∈ ws, AsciiFirst w) →
      sumLen (ws.map capitalizeFirstLetter) = sumLen ws := by
  intro ws
  induction ws with
  | nil => intro _; rfl
  | cons a t ih =>
    intro h
    have h1 := capitalizeFirstLetter_len (h a (by simp))
    have h2 := ih (fun w hw => h w (by simp [hw]))
    simp only [sumLen, List.map_cons, List.sum_cons] at h2 ⊢
    rw [h1, h2]

/-- When `strings.Join` does not panic, the separators between the elements
have a total length that is an `int`. -/
theorem stringsJoin_sep_total {elems : List GoString} {sep p : GoString}
    (h : stringsJoin elems sep = some p) (hne : elems ≠ []) :
    (len elems - 1) * len sep ≤ maxInt := by
  have hs0 : 0 ≤ len sep := len_nonneg sep
  unfold stringsJoin at h
  split at h
  · exact absurd rfl hne
  · simp [len, maxInt]
  · rename_i a b rest
    split at h
    · simp at h
    · rename_i n hj
      unfold joinLength at hj
      split at hj
      · simp at hj
      · rename_i hc
        by_cases hz : 0 < len sep
        · have hlt : len sep < maxInt / (len (a :: b :: rest) - 1) := by
            by_contra hcon
            exact hc ⟨hz, by omega⟩
          have hm : 0 < len (a :: b :: rest) - 1 := by simp [len]
          have := Int.mul_le_of_le_ediv hm (Int.le_of_lt hlt)
          rw [mul_comm]
          exact this
        · have : len sep = 0 := by omega
          rw [this]
          simp [maxInt]


/-- Exact total of a successful `findWordsForLength` call with non-negative
lengths and no overflow of the separator total. -/
theorem findWordsForLength_sum {words shortWords : List GoString} {n sep target : Int}
    {budget : Nat} {e e1 : Entropy} {ws : List GoString}
    (hn1 : 1 ≤ n) (hn : n ≤ maxInt) (hsep : 0 ≤ sep) (hprod : (n - 1) * sep ≤ maxInt)
    (ht0 : 0 ≤ target) (ht : target ≤ maxInt)
    (h : findWordsForLength words shortWords n sep target budget e = (Res.ret ws none, e1)) :
    len ws = n ∧ sumLen ws + (n - 1) * sep = target ∧
      ∀ w ∈ ws, w ∈ words ∨ w ∈ shortWords := by
  obtain ⟨hlen, e0, hs⟩ := findWordsForLength_ok budget e e1 ws h
  have hsum0 : sumLen [] = 0 := rfl
  have hlen0 : len ([] : List GoString) = 0 := rfl
  have hx := (slotLoop_exact hn hsep hprod ht
    n.toNat 0 [] ws target 0 e0 e1 (le_refl _) (by omega) hlen0 ht0 (le_refl _)
    (fun _ => by rw [hsum0]; simp) (fun hc => by omega) hs).2.2.2 hlen
  refine ⟨hlen, by omega, ?_⟩
  intro w hw
  rcases slotLoop_mem _ _ _ _ _ _ _ _ hs w hw with h1 | h1
  · simp at h1
  · exact h1

/-- C2 (code bug): with the one-word catalog "élan" (5 bytes), one word,
requested length 5 (within the bounds) and `capitalize` set, the call succeeds
and returns 6 bytes, although no digit and no symbol is appended: the words
are fitted to the length exactly, and `capitalizeFirstLetter` then re-encodes
the first byte of the word as two bytes. -/
theorem generatePassword_capitalize_longer :
    generatePassword 1 [str "élan"] [str "ox"] 1 (str "-") 5 true false false [Draw.value 0] =
      (Res.ret [195, 131, 169, 108, 97, 110] none, []) ∧
    len ([195, 131, 169, 108, 97, 110] : GoString) ≠ 5 + 0 + 0 ∧
    ((5 : Int) ≥ iadd (imul 1 3) (imul (isub 1 1) (len (str "-"))) ∧
      (5 : Int) ≤ iadd (imul 1 14) (imul (isub 1 1) (len (str "-")))) := by
  decide

/-- The length of a length-constrained password apart from the
capitalisation of non-ASCII words: for a request with `length > 0`, when
`capitalize` is off or every word of the two catalogs starts with an ASCII
byte, a successful `generatePassword` result is `base ++ tail` where `base`,
the `numWords` chosen words (capitalised on request) joined by the separator,
has length exactly `length` and `tail` is the optional digit and symbol, so
`len(password) = length + (1 if addNumber) + (1 if addSymbol)`. -/
theorem generatePassword_length (budget : Nat) (words shortWords : List GoString)
    (numWords : Int) (separator : GoString) (length : Int)
    (capitalize addNumber addSymbol : Bool) (e e2 : Entropy) (pw : GoString)
    (hn : IsInt numWords) (hl : 0 < length) (hli : IsInt length)
    (hascii : capitalize = true → ∀ w, w ∈ words ∨ w ∈ shortWords → AsciiFirst w)
    (h : generatePassword budget words shortWords numWords separator length capitalize addNumber
      addSymbol e = (Res.ret pw none, e2)) :
    ∃ (ws : List GoString) (e1 : Entropy) (base tail : GoString),
      chooseWords budget words shortWords numWords separator length e = (Res.ret ws none, e1) ∧
      len ws = numWords ∧
      base = joinBytes (if capitalize = true then ws.map capitalizeFirstLetter else ws)
        separator ∧
      pw = base ++ tail ∧ len base = length ∧
      len tail = (if addNumber = true then 1 else 0) + (if addSymbol = true then 1 else 0) ∧
      len pw = length + (if addNumber = true then 1 else 0) +
        (if addSymbol = true then 1 else 0) := by
  obtain ⟨hn0, ws, e1, hc, hd⟩ := generatePassword_ok h
  obtain ⟨base, p1, e3, hj, hnum, hsym⟩ := decorate_ok hd
  have hgt : length > 0 := hl
  have hchoose := hc
  simp only [chooseWords, hgt, if_true] at hc
  obtain ⟨hlenws, _⟩ := findWordsForLength_ok budget e e1 ws hc
  -- the list that is joined has `numWords` elements
  have hlen' : len (if capitalize = true then ws.map capitalizeFirstLetter else ws) = numWords := by
    split
    · rw [← hlenws]; simp [len]
    · exact hlenws
  have hne : (if capitalize = true then ws.map capitalizeFirstLetter else ws) ≠ [] := by
    intro hnil
    rw [hnil] at hlen'
    simp [len] at hlen'
    omega
  have hprod := stringsJoin_sep_total hj hne
  rw [hlen'] at hprod
  obtain ⟨_, hsum, hmem⟩ :=
    findWordsForLength_sum (by omega) hn.2 (len_nonneg separator) hprod (le_of_lt hl) hli.2 hc
  have hsum' : sumLen (if capitalize = true then ws.map capitalizeFirstLetter else ws) =
      sumLen ws := by
    split
    · rename_i hcap
      exact sumLen_map_capitalize ws (fun w hw => hascii hcap w (hmem w hw))
    · rfl
  have hbase : len base = length := by
    rw [stringsJoin_some hj, joinBytes_len separator _ hne, hlen', hsum']
    exact hsum
  have hpw : ∃ d s : GoString, pw = base ++ (d ++ s) ∧
      len d = (if addNumber = true then 1 else 0) ∧
      len s = (if addSymbol = true then 1 else 0) := by
    rcases appendNumber_ok hnum with ⟨hn1, hn2, _⟩ | ⟨hn1, raw, _, hn2⟩ <;>
      rcases appendSymbol_ok hsym with ⟨hs1, hs2, _⟩ | ⟨hs1, raw2, c, _, _, _, hs2⟩
    · exact ⟨[], [], by rw [hs2, hn2]; simp, by simp [hn1, len], by simp [hs1, len]⟩
    · exact ⟨[], [Fin.ofNat c], by rw [hs2, hn2]; simp, by simp [hn1, len], by simp [hs1, len]⟩
    · exact ⟨[Fin.ofNat (48 + raw % 10)], [], by rw [hs2, hn2]; simp, by simp [hn1, len],
        by simp [hs1, len]⟩
    · exact ⟨[Fin.ofNat (48 + raw % 10)], [Fin.ofNat c], by rw [hs2, hn2]; simp,
        by simp [hn1, len], by simp [hs1, len]⟩
  obtain ⟨d, s, hpw1, hd1, hs1⟩ := hpw
  have happ : ∀ a b : GoString, len (a ++ b) = len a + len b := by
    intro a b; simp [len]
  refine ⟨ws, e1, base, d ++ s, hchoose, hlenws, stringsJoin_some hj, hpw1, hbase, ?_, ?_⟩
  · rw [happ, hd1, hs1]
  · rw [hpw1, happ, happ, hbase, hd1, hs1]
    omega

theorem generatePassword_length_witness :
    (IsInt 2 ∧ (0 : Int) < 7 ∧ IsInt 7 ∧
      (true = true → ∀ w, w ∈ [str "cat", str "dog", str "blue"] ∨ w ∈ [str "ox", str "go"] →
        AsciiFirst w) ∧
      generatePassword 5 [str "cat", str "dog", str "blue"] [str "ox", str "go"] 2 (str "-") 7
          true true true [Draw.value 2, Draw.value 0, Draw.value 3, Draw.value 5] =
        (Res.ret (str "Blue-Ox3^") none, [])) ∧
    ∃ (ws : List GoString) (e1 : Entropy) (base tail : GoString),
      chooseWords 5 [str "cat", str "dog", str "blue"] [str "ox", str "go"] 2 (str "-") 7
          [Draw.value 2, Draw.value 0, Draw.value 3, Draw.value 5] = (Res.ret ws none, e1) ∧
      len ws = 2 ∧
      base = joinBytes (if true = true then ws.map capitalizeFirstLetter else ws) (str "-") ∧
      str "Blue-Ox3^" = base ++ tail ∧ len base = 7 ∧
      len tail = (if true = true then 1 else 0) + (if true = true then 1 else 0) ∧
      len (str "Blue-Ox3^") = 7 + (if true = true then 1 else 0) +
        (if true = true then 1 else 0) :=
  have hascii : true = true →
      ∀ w, w ∈ [str "cat", str "dog", str "blue"] ∨ w ∈ [str "ox", str "go"] → AsciiFirst w := by
    intro _ w hw b rest hwb
    simp only [List.mem_cons, List.mem_singleton, List.not_mem_nil, or_false] at hw
    rcases hw with (h | h | h) | (h | h) <;>
      · rw [h] at hwb
        have hb : b = (str "cat").head! ∨ b = (str "dog").head! ∨ b = (str "blue").head! ∨
            b = (str "ox").head! ∨ b = (str "go").head! := by
          simp [str, encodeRune] at hwb ⊢
          simp [hwb.1]
        rcases hb with h | h | h | h | h <;> rw [h] <;> decide
  ⟨⟨by decide, by decide, by decide, hascii, by decide⟩,
   generatePassword_length 5 [str "cat", str "dog", str "blue"] [str "ox", str "go"] 2 (str "-")
    7 true true true [Draw.value 2, Draw.value 0, Draw.value 3, Draw.value 5] []
    (str "Blue-Ox3^") (by decide) (by decide) (by decide) hascii (by decide)⟩


/-! ## The loop fuel is enough -/

/-- One more unit of fuel than the number of slots left does not change the
slot loop: the fuel `numWords.toNat` given by `findWordsForLength` never runs
out before the loop test `i < numWords` fails. -/
theorem slotLoop_fuel_succ {words shortWords : List GoString} {n sep : Int} :
    ∀ (fuel : Nat) (i : Int) (pw : List GoString) (rem : Int) (e : Entropy),
      (n - i).toNat ≤ fuel →
      slotLoop words shortWords n sep (fuel + 1) i pw rem e =
        slotLoop words shortWords n sep fuel i pw rem e := by
  intro fuel
  induction fuel with
  | zero =>
    intro i pw rem e h
    have hi : ¬ i < n := by omega
    rw [slotLoop]
    simp [hi, slotLoop]
  | succ k ih =>
    intro i pw rem e h
    rw [slotLoop, slotLoop]
    by_cases hi : i < n
    · simp only [hi, if_true]
      split
      · rfl
      · split
        · rfl
        · rfl
        · split
          · rfl
          · exact ih _ _ _ _ (by omega)
    · simp [hi]

/-- The selection loop likewise. -/
theorem selectLoop_fuel_succ {words : List GoString} {n : Int} :
    ∀ (fuel : Nat) (i : Int) (pw : List GoString) (e : Entropy),
      (n - i).toNat ≤ fuel →
      selectLoop words n (fuel + 1) i pw e = selectLoop words n fuel i pw e := by
  intro fuel
  induction fuel with
  | zero =>
    intro i pw e h
    have hi : ¬ i < n := by omega
    rw [selectLoop]
    simp [hi, selectLoop]
  | succ k ih =>
    intro i pw e h
    rw [selectLoop, selectLoop]
    by_cases hi : i < n
    · simp only [hi, if_true]
      split
      · rfl
      · rfl
      · split
        · rfl
        · exact ih _ _ _ (by omega)
    · simp [hi]


/-! ## Draws performed and errors passed on -/

theorem drawsOf_append (a b : List Nat) : drawsOf (a ++ b) = drawsOf a ++ drawsOf b := by
  simp [drawsOf]

/-- A call that made no draw and did not fail on the entropy source. -/
theorem Steps.zero {α : Type} (e : Entropy) (r : Res α)
    (h : ∀ err, r.error = some err → err.isEntropy = false) : Steps e r e 0 :=
  ⟨[], Or.inl ⟨by simp [drawsOf], rfl, h⟩⟩

/-- Sequencing: a step that ended without error, followed by further steps. -/
theorem Steps.trans {α β : Type} {e e1 e2 : Entropy} {v : α} {r : Res β} {k1 k2 : Nat}
    (h1 : Steps e (Res.ret v none) e1 k1) (h2 : Steps e1 r e2 k2) :
    Steps e r e2 (k1 + k2) := by
  obtain ⟨raws1, h1⟩ := h1
  have h1' : e = drawsOf raws1 ++ e1 ∧ k1 = raws1.length := by
    rcases h1 with ⟨ha, hb, _⟩ | ⟨code, _, _, hc⟩ | ⟨_, _, _, hc⟩
    · exact ⟨ha, hb⟩
    · simp [Res.error] at hc
    · simp [Res.error] at hc
  obtain ⟨he, hk⟩ := h1'
  obtain ⟨raws2, h2⟩ := h2
  refine ⟨raws1 ++ raws2, ?_⟩
  rcases h2 with ⟨ha, hb, hc⟩ | ⟨code, ha, hb, hc⟩ | ⟨ha, hb, hc, hd⟩
  · left
    exact ⟨by rw [he, ha, drawsOf_append, List.append_assoc], by simp [hk, hb], hc⟩
  · right; left
    exact ⟨code, by rw [he, ha, drawsOf_append, List.append_assoc],
      by simp [hk, hb]; omega, hc⟩
  · right; right
    exact ⟨by rw [he, ha, drawsOf_append], hb, by simp [hk, hc]; omega, hd⟩

/-- Only the error component of the outcome matters. -/
theorem Steps.congr {α β : Type} {e e1 : Entropy} {r : Res α} {r2 : Res β} {k : Nat}
    (h : Steps e r e1 k) (herr : r2.error = r.error) : Steps e r2 e1 k := by
  obtain ⟨raws, h⟩ := h
  refine ⟨raws, ?_⟩
  rw [herr]
  exact h

theorem randInt_steps (max : Int) (e : Entropy) (h : 0 < max) :
    Steps e (randInt max e).1 (randInt max e).2 1 := by
  rcases randInt_cases max e h with ⟨he, h1⟩ | ⟨code, rest, he, h1⟩ | ⟨raw, rest, he, h1⟩
  · rw [h1]
    exact ⟨[], Or.inr (Or.inr ⟨by simp [drawsOf, he], rfl, rfl, rfl⟩)⟩
  · rw [h1]
    exact ⟨[], Or.inr (Or.inl ⟨code, by simp [drawsOf, he], rfl, rfl⟩)⟩
  · rw [h1]
    exact ⟨[raw], Or.inl ⟨by simp [drawsOf, he], rfl, by simp [Res.error]⟩⟩

theorem getSecureRandomIndex_steps (max : Int) (e : Entropy) :
    ∃ k, k ≤ 1 ∧ Steps e (getSecureRandomIndex max e).1 (getSecureRandomIndex max e).2 k := by
  by_cases hm : max ≤ 0
  · refine ⟨0, by omega, ?_⟩
    simp only [getSecureRandomIndex, hm, if_true]
    exact Steps.zero e _ (by simp [Res.error, Err.isEntropy])
  · have hpos : 0 < max := by omega
    rw [getSecureRandomIndex_pos max e hpos]
    exact ⟨1, le_refl _, randInt_steps max e hpos⟩


/-- The inner loop makes at most as many draws as it has iterations, and an
error it returns is the error of its last draw. -/
theorem findWord_steps (wordList : List GoString) (maxWordLength : Int) :
    ∀ (fuel : Nat) (e : Entropy),
      ∃ k, k ≤ fuel ∧
        Steps e (findWord wordList maxWordLength fuel e).1
          (findWord wordList maxWordLength fuel e).2 k := by
  intro fuel
  induction fuel with
  | zero =>
    intro e
    exact ⟨0, le_refl _, Steps.zero e _ (by simp [findWord, Res.error])⟩
  | succ n ih =>
    intro e
    obtain ⟨k0, hk0, hs⟩ := getSecureRandomIndex_steps (len wordList) e
    rw [findWord]
    split
    · rename_i e1 hg
      rw [hg] at hs
      exact ⟨k0, by omega, Steps.congr hs rfl⟩
    · rename_i v err e1 hg
      rw [hg] at hs
      exact ⟨k0, by omega, Steps.congr hs rfl⟩
    · rename_i idx e1 hg
      rw [hg] at hs
      split
      · exact ⟨k0, by omega, Steps.congr hs rfl⟩
      · split
        · exact ⟨k0, by omega, Steps.congr hs rfl⟩
        · obtain ⟨k1, hk1, hs1⟩ := ih e1
          exact ⟨k0 + k1, by omega, Steps.trans hs hs1⟩

/-- The slot loop makes at most 100 draws per iteration. -/
theorem slotLoop_steps (words shortWords : List GoString) (n sep : Int) :
    ∀ (fuel : Nat) (i : Int) (pw : List GoString) (rem : Int) (e : Entropy),
      ∃ k, k ≤ 100 * fuel ∧
        Steps e (slotLoop words shortWords n sep fuel i pw rem e).1
          (slotLoop words shortWords n sep fuel i pw rem e).2 k := by
  intro fuel
  induction fuel with
  | zero =>
    intro i pw rem e
    exact ⟨0, le_refl _, Steps.zero e _ (by simp [slotLoop, Res.error])⟩
  | succ m ih =>
    intro i pw rem e
    rw [slotLoop]
    split
    · simp only
      split
      · exact ⟨0, by omega, Steps.zero e _ (by simp [Res.error])⟩
      · split
        · rename_i e1 hf
          obtain ⟨k0, hk0, hs⟩ := findWord_steps _ _ 100 e
          rw [hf] at hs
          exact ⟨k0, by omega, Steps.congr hs rfl⟩
        · rename_i v err e1 hf
          obtain ⟨k0, hk0, hs⟩ := findWord_steps _ _ 100 e
          rw [hf] at hs
          exact ⟨k0, by omega, Steps.congr hs rfl⟩
        · rename_i word e1 hf
          obtain ⟨k0, hk0, hs⟩ := findWord_steps _ _ 100 e
          rw [hf] at hs
          split
          · exact ⟨k0, by omega, Steps.congr hs rfl⟩
          · obtain ⟨k1, hk1, hs1⟩ := ih (i + 1) (pw ++ [word])
              (if i < isub n 1 then isub (isub rem (len word)) sep else isub rem (len word)) e1
            exact ⟨k0 + k1, by omega, Steps.trans hs hs1⟩
    · exact ⟨0, by omega, Steps.zero e _ (by simp [Res.error])⟩

/-- A whole call of `findWordsForLength` makes at most `100 * numWords` draws
per attempt. -/
theorem findWordsForLength_steps (words shortWords : List GoString) (n sep target : Int) :
    ∀ (budget : Nat) (e : Entropy),
      ∃ k, k ≤ 100 * n.toNat * budget ∧
        Steps e (findWordsForLength words shortWords n sep target budget e).1
          (findWordsForLength words shortWords n sep target budget e).2 k := by
  intro budget
  induction budget with
  | zero =>
    intro e
    exact ⟨0, le_refl _, Steps.zero e _ (by simp [findWordsForLength, Res.error, Err.isEntropy])⟩
  | succ b ih =>
    intro e
    obtain ⟨k0, hk0, hs⟩ := slotLoop_steps words shortWords n sep n.toNat 0 [] target e
    have hb : 100 * n.toNat * (b + 1) = 100 * n.toNat * b + 100 * n.toNat := by ring
    rw [findWordsForLength]
    split
    · rename_i e1 hf
      rw [hf] at hs
      exact ⟨k0, by omega, Steps.congr hs rfl⟩
    · rename_i v err e1 hf
      rw [hf] at hs
      exact ⟨k0, by omega, Steps.congr hs rfl⟩
    · rename_i pw rem e1 hf
      rw [hf] at hs
      split
      · exact ⟨k0, by omega, Steps.congr hs rfl⟩
      · obtain ⟨k1, hk1, hs1⟩ := ih e1
        exact ⟨k0 + k1, by omega, Steps.trans hs hs1⟩


/-! ## In-bounds accesses and the origin of errors -/

/-- An index drawn for bound `len(l)` is a valid index of `l`. -/
theorem index_of_draw {α : Type} {l : List α} {e e1 : Entropy} {idx : Int}
    (h : getSecureRandomIndex (len l) e = (Res.ret idx none, e1)) :
    0 ≤ idx ∧ idx < len l ∧ ∃ a, index l idx = some a := by
  obtain ⟨hpos, raw, _, hidx⟩ := getSecureRandomIndex_ok h
  have h0 : 0 ≤ idx := by rw [hidx]; exact Int.emod_nonneg _ (by omega)
  have h1 : idx < len l := by rw [hidx]; exact Int.emod_lt_of_pos _ hpos
  refine ⟨h0, h1, ?_⟩
  unfold index
  have hn : ¬ idx < 0 := by omega
  simp only [hn, if_false]
  have hlt : idx.toNat < l.length := by
    unfold len at h1
    omega
  exact ⟨l.get ⟨idx.toNat, hlt⟩, List.get?_eq_get hlt⟩

/-- An error of `getSecureRandomIndex` is the range error, returned without a
draw when the bound is not positive, or an error of the entropy source. -/
theorem getSecureRandomIndex_err {max : Int} {e e1 : Entropy} {v : Int} {err : Err}
    (h : getSecureRandomIndex max e = (Res.ret v (some err), e1)) :
    v = 0 ∧ ((max ≤ 0 ∧ err = Err.maxNotPositive ∧ e1 = e) ∨ (0 < max ∧ err.isEntropy = true)) := by
  by_cases hm : max ≤ 0
  · simp only [getSecureRandomIndex, hm, if_true, Prod.mk.injEq, Res.ret.injEq,
      Option.some.injEq] at h
    exact ⟨h.1.1.symm, Or.inl ⟨hm, h.1.2.symm, h.2.symm⟩⟩
  · have hpos : 0 < max := by omega
    have h2 := h
    rw [getSecureRandomIndex_pos max e hpos] at h2
    refine ⟨?_, Or.inr ⟨hpos, randInt_err_isEntropy h2⟩⟩
    rcases randInt_cases max e hpos with ⟨_, h1⟩ | ⟨_, _, _, h1⟩ | ⟨_, _, _, h1⟩
    · rw [h1] at h2
      simp only [Prod.mk.injEq, Res.ret.injEq] at h2
      exact h2.1.1.symm
    · rw [h1] at h2
      simp only [Prod.mk.injEq, Res.ret.injEq] at h2
      exact h2.1.1.symm
    · rw [h1] at h2
      simp at h2

/-- The inner loop never panics: every candidate is read at a drawn index. -/
theorem findWord_ne_panic (wordList : List GoString) (maxWordLength : Int) :
    ∀ (fuel : Nat) (e e1 : Entropy),
      findWord wordList maxWordLength fuel e ≠ (Res.panic, e1) := by
  intro fuel
  induction fuel with
  | zero => intro e e1; simp [findWord]
  | succ n ih =>
    intro e e1
    rw [findWord]
    split
    · rename_i e2 hg
      exact absurd hg (getSecureRandomIndex_ne_panic _ _ _)
    · simp
    · rename_i idx e2 hg
      obtain ⟨_, _, a, ha⟩ := index_of_draw hg
      rw [ha]
      simp only
      split
      · simp
      · exact ih _ _

/-- An error of the inner loop comes with the empty word; it is the range
error when the word list is empty and an error of the entropy source
otherwise. -/
theorem findWord_err (wordList : List GoString) (maxWordLength : Int) :
    ∀ (fuel : Nat) (e e1 : Entropy) (v : GoString) (err : Err),
      findWord wordList maxWordLength fuel e = (Res.ret v (some err), e1) →
      v = [] ∧ ((wordList = [] ∧ err = Err.maxNotPositive) ∨
        (wordList ≠ [] ∧ err.isEntropy = true)) := by
  intro fuel
  induction fuel with
  | zero => intro e e1 v err h; simp [findWord] at h
  | succ n ih =>
    intro e e1 v err h
    rw [findWord] at h
    split at h
    · simp at h
    · rename_i v0 err0 e2 hg
      simp only [Prod.mk.injEq, Res.ret.injEq, Option.some.injEq] at h
      obtain ⟨⟨hv, herr⟩, _⟩ := h
      subst herr
      refine ⟨hv.symm, ?_⟩
      rcases (getSecureRandomIndex_err hg).2 with ⟨hm, he, _⟩ | ⟨hm, he⟩
      · left
        refine ⟨?_, he⟩
        unfold len at hm
        have : wordList.length = 0 := by omega
        exact List.eq_nil_of_length_eq_zero this
      · right
        refine ⟨?_, he⟩
        intro hnil
        rw [hnil] at hm
        simp [len] at hm
    · split at h
      · simp at h
      · split at h
        · simp at h
        · exact ih _ _ _ _ h

/-- The slot loop never panics. -/
theorem slotLoop_ne_panic (words shortWords : List GoString) (n sep : Int) :
    ∀ (fuel : Nat) (i : Int) (pw : List GoString) (rem : Int) (e e1 : Entropy),
      slotLoop words shortWords n sep fuel i pw rem e ≠ (Res.panic, e1) := by
  intro fuel
  induction fuel with
  | zero => intro i pw rem e e1; simp [slotLoop]
  | succ m ih =>
    intro i pw rem e e1
    rw [slotLoop]
    split
    · simp only
      split
      · simp
      · split
        · rename_i e2 hf
          exact absurd hf (findWord_ne_panic _ _ _ _ _)
        · simp
        · split
          · simp
          · exact ih _ _ _ _ _
    · simp

/-- An error of the slot loop is the range error of an empty catalog or an
error of the entropy source. -/
theorem slotLoop_err (words shortWords : List GoString) (n sep : Int) :
    ∀ (fuel : Nat) (i : Int) (pw : List GoString) (rem : Int) (e e1 : Entropy)
      (v : List GoString × Int) (err : Err),
      slotLoop words shortWords n sep fuel i pw rem e = (Res.ret v (some err), e1) →
      (err = Err.maxNotPositive ∧ (words = [] ∨ shortWords = [])) ∨ err.isEntropy = true := by
  intro fuel
  induction fuel with
  | zero => intro i pw rem e e1 v err h; simp [slotLoop] at h
  | succ m ih =>
    intro i pw rem e e1 v err h
    rw [slotLoop] at h
    split at h
    · simp only at h
      split at h
      · simp at h
      · split at h
        · simp at h
        · rename_i v0 err0 e2 hf
          simp only [Prod.mk.injEq, Res.ret.injEq, Option.some.injEq] at h
          obtain ⟨⟨_, herr⟩, _⟩ := h
          subst herr
          rcases (findWord_err _ _ _ _ _ _ _ hf).2 with ⟨hnil, he⟩ | ⟨_, he⟩
          · left
            refine ⟨he, ?_⟩
            split at hnil
            · exact Or.inr hnil
            · exact Or.inl hnil
          · exact Or.inr he
        · split at h
          · simp at h
          · exact ih _ _ _ _ _ _ _ h
    · simp at h

/-- Source function `findWordsForLength` never panics. -/
theorem findWordsForLength_ne_panic (words shortWords : List GoString) (n sep target : Int) :
    ∀ (budget : Nat) (e e1 : Entropy),
      findWordsForLength words shortWords n sep target budget e ≠ (Res.panic, e1) := by
  intro budget
  induction budget with
  | zero => intro e e1; simp [findWordsForLength]
  | succ b ih =>
    intro e e1
    rw [findWordsForLength]
    split
    · rename_i e2 hs
      exact absurd hs (slotLoop_ne_panic _ _ _ _ _ _ _ _ _ _)
    · simp
    · split
      · simp
      · exact ih _ _

/-- An error of `findWordsForLength` comes with no word list; it is the
no-combination error for `targetLength`, the range error of an empty catalog,
or an error of the entropy source. -/
theorem findWordsForLength_err (words shortWords : List GoString) (n sep target : Int) :
    ∀ (budget : Nat) (e e1 : Entropy) (v : List GoString) (err : Err),
      findWordsForLength words shortWords n sep target budget e = (Res.ret v (some err), e1) →
      v = [] ∧ (err = Err.noCombination target ∨
        (err = Err.maxNotPositive ∧ (words = [] ∨ shortWords = [])) ∨
        err.isEntropy = true) := by
  intro budget
  induction budget with
  | zero =>
    intro e e1 v err h
    simp only [findWordsForLength, Prod.mk.injEq, Res.ret.injEq, Option.some.injEq] at h
    exact ⟨h.1.1.symm, Or.inl h.1.2.symm⟩
  | succ b ih =>
    intro e e1 v err h
    rw [findWordsForLength] at h
    split at h
    · simp at h
    · rename_i v0 err0 e2 hs
      simp only [Prod.mk.injEq, Res.ret.injEq, Option.some.injEq] at h
      obtain ⟨⟨hv, herr⟩, _⟩ := h
      subst herr
      exact ⟨hv.symm, Or.inr (slotLoop_err _ _ _ _ _ _ _ _ _ _ _ _ hs)⟩
    · split at h
      · simp at h
      · exact ih _ _ _ _ h


/-- The selection loop never panics. -/
theorem selectLoop_ne_panic (words : List GoString) (n : Int) :
    ∀ (fuel : Nat) (i : Int) (pw : List GoString) (e e1 : Entropy),
      selectLoop words n fuel i pw e ≠ (Res.panic, e1) := by
  intro fuel
  induction fuel with
  | zero => intro i pw e e1; simp [selectLoop]
  | succ m ih =>
    intro i pw e e1
    rw [selectLoop]
    split
    · split
      · rename_i e2 hg
        exact absurd hg (getSecureRandomIndex_ne_panic _ _ _)
      · simp
      · rename_i idx e2 hg
        obtain ⟨_, _, a, ha⟩ := index_of_draw hg
        rw [ha]
        exact ih _ _ _ _
    · simp

/-- An error of the selection loop comes with no word list; it is the range
error when the catalog is empty and an error of the entropy source otherwise. -/
theorem selectLoop_err (words : List GoString) (n : Int) :
    ∀ (fuel : Nat) (i : Int) (pw : List GoString) (e e1 : Entropy) (v : List GoString)
      (err : Err),
      selectLoop words n fuel i pw e = (Res.ret v (some err), e1) →
      v = [] ∧ ((words = [] ∧ err = Err.maxNotPositive) ∨
        (words ≠ [] ∧ err.isEntropy = true)) := by
  intro fuel
  induction fuel with
  | zero => intro i pw e e1 v err h; simp [selectLoop] at h
  | succ m ih =>
    intro i pw e e1 v err h
    rw [selectLoop] at h
    split at h
    · split at h
      · simp at h
      · rename_i v0 err0 e2 hg
        simp only [Prod.mk.injEq, Res.ret.injEq, Option.some.injEq] at h
        obtain ⟨⟨hv, herr⟩, _⟩ := h
        subst herr
        refine ⟨hv.symm, ?_⟩
        rcases (getSecureRandomIndex_err hg).2 with ⟨hm, he, _⟩ | ⟨hm, he⟩
        · left
          refine ⟨?_, he⟩
          unfold len at hm
          have : words.length = 0 := by omega
          exact List.eq_nil_of_length_eq_zero this
        · right
          refine ⟨?_, he⟩
          intro hnil
          rw [hnil] at hm
          simp [len] at hm
      · split at h
        · simp at h
        · exact ih _ _ _ _ _ _ h
    · simp at h

/-- The selection loop makes at most one draw per iteration. -/
theorem selectLoop_steps (words : List GoString) (n : Int) :
    ∀ (fuel : Nat) (i : Int) (pw : List GoString) (e : Entropy),
      ∃ k, k ≤ fuel ∧
        Steps e (selectLoop words n fuel i pw e).1 (selectLoop words n fuel i pw e).2 k := by
  intro fuel
  induction fuel with
  | zero =>
    intro i pw e
    exact ⟨0, le_refl _, Steps.zero e _ (by simp [selectLoop, Res.error])⟩
  | succ m ih =>
    intro i pw e
    obtain ⟨k0, hk0, hs⟩ := getSecureRandomIndex_steps (len words) e
    rw [selectLoop]
    split
    · split
      · rename_i e1 hg
        rw [hg] at hs
        exact ⟨k0, by omega, Steps.congr hs rfl⟩
      · rename_i v err e1 hg
        rw [hg] at hs
        exact ⟨k0, by omega, Steps.congr hs rfl⟩
      · rename_i idx e1 hg
        rw [hg] at hs
        split
        · exact ⟨k0, by omega, Steps.congr hs rfl⟩
        · rename_i w _
          obtain ⟨k1, hk1, hs1⟩ := ih (i + 1) (pw ++ [w]) e1
          exact ⟨k0 + k1, by omega, Steps.trans hs hs1⟩
    · exact ⟨0, by omega, Steps.zero e _ (by simp [Res.error])⟩

/-- The digit block: no panic, at most one draw, and an error is an error of
the entropy source returned with the empty string. -/
theorem appendNumber_facts (addNumber : Bool) (password : GoString) (e : Entropy) :
    (∀ e1, appendNumber addNumber password e ≠ (Res.panic, e1)) ∧
    (∀ v err e1, appendNumber addNumber password e = (Res.ret v (some err), e1) →
      v = [] ∧ err.isEntropy = true) ∧
    (∃ k, k ≤ 1 ∧
      Steps e (appendNumber addNumber password e).1 (appendNumber addNumber password e).2 k) := by
  cases addNumber with
  | false =>
    simp only [appendNumber, Bool.false_eq_true, if_false]
    exact ⟨by simp, by simp, 0, by omega, Steps.zero e _ (by simp [Res.error])⟩
  | true =>
    have hb : iadd (isub 9 0) 1 = 10 := by decide
    have hng : ¬ ((0 : Int) > 9) := by decide
    simp only [appendNumber, if_true, getSecureRandomNumber, hng, if_false, hb]
    have hs := randInt_steps 10 e (by decide)
    rcases randInt_cases 10 e (by decide) with ⟨_, h1⟩ | ⟨code, rest, _, h1⟩ | ⟨raw, rest, _, h1⟩
    · rw [h1] at hs ⊢
      refine ⟨by simp, ?_, 1, le_refl _, Steps.congr hs rfl⟩
      intro v err e1 h
      simp only [Prod.mk.injEq, Res.ret.injEq, Option.some.injEq] at h
      exact ⟨h.1.1.symm, by rw [← h.1.2]; rfl⟩
    · rw [h1] at hs ⊢
      refine ⟨by simp, ?_, 1, le_refl _, Steps.congr hs rfl⟩
      intro v err e1 h
      simp only [Prod.mk.injEq, Res.ret.injEq, Option.some.injEq] at h
      exact ⟨h.1.1.symm, by rw [← h.1.2]; rfl⟩
    · rw [h1] at hs ⊢
      exact ⟨by simp, by simp, 1, le_refl _, Steps.congr hs rfl⟩

/-- The symbol block: no panic, at most one draw, and an error is an error of
the entropy source returned with the empty string. -/
theorem appendSymbol_facts (addSymbol : Bool) (password : GoString) (e : Entropy) :
    (∀ e1, appendSymbol addSymbol password e ≠ (Res.panic, e1)) ∧
    (∀ v err e1, appendSymbol addSymbol password e = (Res.ret v (some err), e1) →
      v = [] ∧ err.isEntropy = true) ∧
    (∃ k, k ≤ 1 ∧
      Steps e (appendSymbol addSymbol password e).1 (appendSymbol addSymbol password e).2 k) := by
  cases addSymbol with
  | false =>
    simp only [appendSymbol, Bool.false_eq_true, if_false]
    exact ⟨by simp, by simp, 0, by omega, Steps.zero e _ (by simp [Res.error])⟩
  | true =>
    simp only [appendSymbol, if_true]
    obtain ⟨k0, hk0, hs⟩ := getSecureRandomIndex_steps (len symbols) e
    split
    · rename_i e2 hg
      exact absurd hg (getSecureRandomIndex_ne_panic _ _ _)
    · rename_i v0 err0 e2 hg
      rw [hg] at hs
      refine ⟨by simp, ?_, k0, hk0, Steps.congr hs rfl⟩
      intro v err e1 h
      simp only [Prod.mk.injEq, Res.ret.injEq, Option.some.injEq] at h
      refine ⟨h.1.1.symm, ?_⟩
      rw [← h.1.2]
      rcases (getSecureRandomIndex_err hg).2 with ⟨hm, _, _⟩ | ⟨_, he⟩
      · exact absurd hm (by decide)
      · exact he
    · rename_i idx e2 hg
      rw [hg] at hs
      obtain ⟨_, _, a, ha⟩ := index_of_draw hg
      rw [ha]
      exact ⟨by simp, by simp, k0, hk0, Steps.congr hs rfl⟩


/-! ## Failures of `generatePassword` -/

/-- After validation `generatePassword` is the word choice followed by the
decoration. -/
theorem generatePassword_valid {budget : Nat} {words shortWords : List GoString} {numWords : Int}
    {separator : GoString} {length : Int} {capitalize addNumber addSymbol : Bool} {e : Entropy}
    (hv : PassesValidation numWords separator length) :
    generatePassword budget words shortWords numWords separator length capitalize addNumber
      addSymbol e =
      match chooseWords budget words shortWords numWords separator length e with
      | (Res.panic, e1) => (Res.panic, e1)
      | (Res.ret _ (some err), e1) => (Res.ret [] (some err), e1)
      | (Res.ret passwordWords none, e1) =>
        decorate passwordWords separator capitalize addNumber addSymbol e1 := by
  obtain ⟨h1, h2, h3⟩ := hv
  have hn : ¬ numWords ≤ 0 := by omega
  unfold generatePassword
  simp only [hn, if_false, h2, h3]

/-- When validation fails, the result is a validation error and no draw is
made. -/
theorem generatePassword_invalid (budget : Nat) (words shortWords : List GoString)
    (numWords : Int) (separator : GoString) (length : Int)
    (capitalize addNumber addSymbol : Bool) (e : Entropy)
    (hv : ¬ PassesValidation numWords separator length) :
    ∃ err, (err = Err.invalidWordCount ∨ err.isLengthOutOfRange = true) ∧
      generatePassword budget words shortWords numWords separator length capitalize addNumber
        addSymbol e = (Res.ret [] (some err), e) := by
  unfold PassesValidation at hv
  unfold generatePassword
  by_cases hn : numWords ≤ 0
  · exact ⟨Err.invalidWordCount, Or.inl rfl, by simp [hn]⟩
  · simp only [hn, if_false]
    by_cases h2 : length > 0 ∧
        length < iadd (imul numWords 3) (imul (isub numWords 1) (len separator))
    · exact ⟨Err.lengthTooShort length numWords
        (iadd (imul numWords 3) (imul (isub numWords 1) (len separator))), Or.inr rfl,
        by simp only [h2, and_self, if_true]⟩
    · by_cases h3 : length > 0 ∧
          length > iadd (imul numWords 14) (imul (isub numWords 1) (len separator))
      · refine ⟨Err.lengthTooLong length numWords
          (iadd (imul numWords 14) (imul (isub numWords 1) (len separator))), Or.inr rfl, ?_⟩
        rw [if_neg h2, if_pos h3]
      · exact absurd ⟨by omega, h2, h3⟩ hv

/-- The word choice never panics; an error comes with no word list. -/
theorem chooseWords_facts (budget : Nat) (words shortWords : List GoString) (numWords : Int)
    (separator : GoString) (length : Int) (e : Entropy) :
    (∀ e1, chooseWords budget words shortWords numWords separator length e ≠ (Res.panic, e1)) ∧
    (∀ v err e1, chooseWords budget words shortWords numWords separator length e =
        (Res.ret v (some err), e1) →
      v = [] ∧ (err = Err.noCombination length ∨ err = Err.maxNotPositive ∨
        err.isEntropy = true)) ∧
    (∃ k, k ≤ 100 * numWords.toNat * budget + numWords.toNat ∧
      Steps e (chooseWords budget words shortWords numWords separator length e).1
        (chooseWords budget words shortWords numWords separator length e).2 k) := by
  unfold chooseWords
  by_cases hl : length > 0
  · simp only [hl, if_true]
    refine ⟨fun e1 => findWordsForLength_ne_panic _ _ _ _ _ _ _ _, ?_, ?_⟩
    · intro v err e1 h
      obtain ⟨hv, he⟩ := findWordsForLength_err _ _ _ _ _ _ _ _ _ _ h
      refine ⟨hv, ?_⟩
      rcases he with he | ⟨he, _⟩ | he
      · exact Or.inl he
      · exact Or.inr (Or.inl he)
      · exact Or.inr (Or.inr he)
    · obtain ⟨k, hk, hs⟩ := findWordsForLength_steps words shortWords numWords (len separator)
        length budget e
      exact ⟨k, by omega, hs⟩
  · simp only [hl, if_false]
    refine ⟨fun e1 => selectLoop_ne_panic _ _ _ _ _ _ _, ?_, ?_⟩
    · intro v err e1 h
      obtain ⟨hv, he⟩ := selectLoop_err _ _ _ _ _ _ _ _ _ h
      refine ⟨hv, ?_⟩
      rcases he with ⟨_, he⟩ | ⟨_, he⟩
      · exact Or.inr (Or.inl he)
      · exact Or.inr (Or.inr he)
    · obtain ⟨k, hk, hs⟩ := selectLoop_steps words numWords numWords.toNat 0 [] e
      exact ⟨k, by omega, hs⟩

/-- The decoration panics only when `strings.Join` does; an error is an error
of the entropy source and comes with the empty string; at most two draws are
made. -/
theorem decorate_facts (ws : List GoString) (sep : GoString)
    (capitalize addNumber addSymbol : Bool) (e : Entropy) :
    (∀ e1, decorate ws sep capitalize addNumber addSymbol e = (Res.panic, e1) →
      stringsJoin (if capitalize then ws.map capitalizeFirstLetter else ws) sep = none) ∧
    (∀ v err e1, decorate ws sep capitalize addNumber addSymbol e = (Res.ret v (some err), e1) →
      v = [] ∧ err.isEntropy = true) ∧
    (∃ k, k ≤ 2 ∧
      Steps e (decorate ws sep capitalize addNumber addSymbol e).1
        (decorate ws sep capitalize addNumber addSymbol e).2 k) := by
  unfold decorate
  simp only
  split
  · rename_i hj
    exact ⟨fun _ _ => hj, by simp, 0, by omega, Steps.zero e _ (by simp [Res.error])⟩
  · rename_i base hj
    obtain ⟨hn1, hn2, k1, hk1, hs1⟩ := appendNumber_facts addNumber base e
    split
    · rename_i e1 hn
      exact absurd hn (hn1 e1)
    · rename_i v0 err0 e1 hn
      rw [hn] at hs1
      refine ⟨by simp, ?_, k1, by omega, Steps.congr hs1 rfl⟩
      intro v err e2 h
      simp only [Prod.mk.injEq, Res.ret.injEq, Option.some.injEq] at h
      refine ⟨h.1.1.symm, ?_⟩
      rw [← h.1.2]
      exact (hn2 _ _ _ hn).2
    · rename_i p1 e1 hn
      rw [hn] at hs1
      obtain ⟨hs1', hs2, k2, hk2, hs3⟩ := appendSymbol_facts addSymbol p1 e1
      refine ⟨fun e2 h => absurd h (hs1' e2), hs2, k1 + k2, by omega, Steps.trans hs1 hs3⟩


/-- Every error of `generatePassword` comes with the empty string. -/
theorem generatePassword_err_empty {budget : Nat} {words shortWords : List GoString}
    {numWords : Int} {separator : GoString} {length : Int}
    {capitalize addNumber addSymbol : Bool} {e e1 : Entropy} {pw : GoString} {err : Err}
    (h : generatePassword budget words shortWords numWords separator length capitalize addNumber
      addSymbol e = (Res.ret pw (some err), e1)) : pw = [] := by
  by_cases hv : PassesValidation numWords separator length
  · rw [generatePassword_valid hv] at h
    split at h
    · simp at h
    · simp only [Prod.mk.injEq, Res.ret.injEq] at h
      exact h.1.1.symm
    · exact ((decorate_facts _ _ _ _ _ _).2.1 _ _ _ h).1
  · obtain ⟨err0, _, h0⟩ := generatePassword_invalid budget words shortWords numWords separator
      length capitalize addNumber addSymbol e hv
    rw [h0] at h
    simp only [Prod.mk.injEq, Res.ret.injEq] at h
    exact h.1.1.symm

/-- The draws of a whole call: at most `100 * numWords` per attempt, or one
per word, and two for the decoration; an error of the entropy source that is
returned is the error of the first draw that failed. -/
theorem generatePassword_steps (budget : Nat) (words shortWords : List GoString)
    (numWords : Int) (separator : GoString) (length : Int)
    (capitalize addNumber addSymbol : Bool) (e : Entropy) :
    ∃ k, k ≤ 100 * numWords.toNat * budget + numWords.toNat + 2 ∧
      Steps e
        (generatePassword budget words shortWords numWords separator length capitalize addNumber
          addSymbol e).1
        (generatePassword budget words shortWords numWords separator length capitalize addNumber
          addSymbol e).2 k := by
  by_cases hv : PassesValidation numWords separator length
  · rw [generatePassword_valid hv]
    obtain ⟨_, _, k1, hk1, hs1⟩ :=
      chooseWords_facts budget words shortWords numWords separator length e
    split
    · rename_i e1 hc
      rw [hc] at hs1
      exact ⟨k1, by omega, Steps.congr hs1 rfl⟩
    · rename_i v err e1 hc
      rw [hc] at hs1
      exact ⟨k1, by omega, Steps.congr hs1 rfl⟩
    · rename_i ws e1 hc
      rw [hc] at hs1
      obtain ⟨_, _, k2, hk2, hs2⟩ :=
        decorate_facts ws separator capitalize addNumber addSymbol e1
      exact ⟨k1 + k2, by omega, Steps.trans hs1 hs2⟩
  · obtain ⟨err0, herr, h0⟩ := generatePassword_invalid budget words shortWords numWords separator
      length capitalize addNumber addSymbol e hv
    rw [h0]
    refine ⟨0, by omega, Steps.zero e _ ?_⟩
    intro err he
    simp only [Res.error, Option.some.injEq] at he
    subst he
    rcases herr with h | h
    · rw [h]; rfl
    · cases err0 <;> simp_all [Err.isLengthOutOfRange, Err.isEntropy]

/-- A panic of `generatePassword` is the length-overflow panic of
`strings.Join`, after the words were chosen without error. -/
theorem generatePassword_panic {budget : Nat} {words shortWords : List GoString}
    {numWords : Int} {separator : GoString} {length : Int}
    {capitalize addNumber addSymbol : Bool} {e e1 : Entropy}
    (h : generatePassword budget words shortWords numWords separator length capitalize addNumber
      addSymbol e = (Res.panic, e1)) :
    ∃ ws : List GoString,
      chooseWords budget words shortWords numWords separator length e = (Res.ret ws none, e1) ∧
      stringsJoin (if capitalize then ws.map capitalizeFirstLetter else ws) separator = none := by
  by_cases hv : PassesValidation numWords separator length
  · rw [generatePassword_valid hv] at h
    split at h
    · rename_i e2 hc
      exact absurd hc
        ((chooseWords_facts budget words shortWords numWords separator length e).1 e2)
    · simp at h
    · rename_i ws e2 hc
      have hj := (decorate_facts ws separator capitalize addNumber addSymbol e2).1 e1 h
      have he : e1 = e2 := by
        unfold decorate at h
        simp only [hj] at h
        simp only [Prod.mk.injEq, true_and] at h
        exact h.symm
      rw [he]
      exact ⟨ws, hc, hj⟩
  · obtain ⟨err0, _, h0⟩ := generatePassword_invalid budget words shortWords numWords separator
      length capitalize addNumber addSymbol e hv
    rw [h0] at h
    simp at h


/-- C11: failures propagate unchanged and no password is emitted.  (1) Every
error result of `generatePassword` carries the empty string.  (2) The call is
a sequence of draws in which an error of the entropy source, when returned, is
exactly the error of the first draw that failed.  (3) Step by step: a failed
draw of the inner loop is returned by the inner loop, by the slot loop and by
`findWordsForLength`; an exhausted budget gives the no-combination error; and
after validation an error of `findWordsForLength`, of the selection loop, of
the digit block or of the symbol block is returned by `generatePassword` as it
is, with the empty string. -/
theorem generatePassword_failures (budget : Nat) (words shortWords : List GoString)
    (numWords : Int) (separator : GoString) (length : Int)
    (capitalize addNumber addSymbol : Bool) (e : Entropy) :
    (∀ pw err e1,
      generatePassword budget words shortWords numWords separator length capitalize addNumber
        addSymbol e = (Res.ret pw (some err), e1) → pw = []) ∧
    (∃ k, Steps e
      (generatePassword budget words shortWords numWords separator length capitalize addNumber
        addSymbol e).1
      (generatePassword budget words shortWords numWords separator length capitalize addNumber
        addSymbol e).2 k) ∧
    (∀ (wordList : List GoString) (maxWordLength : Int) (fuel : Nat) (v : Int) (err : Err)
        (e1 : Entropy),
      getSecureRandomIndex (len wordList) e = (Res.ret v (some err), e1) →
      findWord wordList maxWordLength (fuel + 1) e = (Res.ret [] (some err), e1)) ∧
    (∀ (sepLen : Int) (fuel : Nat) (i : Int) (pw : List GoString) (rem : Int) (v : GoString)
        (err : Err) (e1 : Entropy),
      i < numWords →
      0 < isub rem (imul (isub (isub numWords i) 1) sepLen) →
      findWord
        (if isub rem (imul (isub (isub numWords i) 1) sepLen) ≤ 2 then shortWords else words)
        (isub rem (imul (isub (isub numWords i) 1) sepLen)) 100 e = (Res.ret v (some err), e1) →
      slotLoop words shortWords numWords sepLen (fuel + 1) i pw rem e =
        (Res.ret ([], 0) (some err), e1)) ∧
    (∀ (sepLen target : Int) (b : Nat) (v : List GoString × Int) (err : Err) (e1 : Entropy),
      slotLoop words shortWords numWords sepLen numWords.toNat 0 [] target e =
        (Res.ret v (some err), e1) →
      findWordsForLength words shortWords numWords sepLen target (b + 1) e =
        (Res.ret [] (some err), e1)) ∧
    (∀ sepLen target : Int,
      findWordsForLength words shortWords numWords sepLen target 0 e =
        (Res.ret [] (some (Err.noCombination target)), e)) ∧
    (PassesValidation numWords separator length →
      (length > 0 → ∀ v err e1,
        findWordsForLength words shortWords numWords (len separator) length budget e =
          (Res.ret v (some err), e1) →
        generatePassword budget words shortWords numWords separator length capitalize addNumber
          addSymbol e = (Res.ret [] (some err), e1)) ∧
      (length ≤ 0 → ∀ v err e1,
        selectLoop words numWords numWords.toNat 0 [] e = (Res.ret v (some err), e1) →
        generatePassword budget words shortWords numWords separator length capitalize addNumber
          addSymbol e = (Res.ret [] (some err), e1)) ∧
      (∀ ws e1 base,
        chooseWords budget words shortWords numWords separator length e = (Res.ret ws none, e1) →
        stringsJoin (if capitalize then ws.map capitalizeFirstLetter else ws) separator =
          some base →
        (∀ v err e2, appendNumber addNumber base e1 = (Res.ret v (some err), e2) →
          generatePassword budget words shortWords numWords separator length capitalize
            addNumber addSymbol e = (Res.ret [] (some err), e2)) ∧
        (∀ p1 e2 v err e3, appendNumber addNumber base e1 = (Res.ret p1 none, e2) →
          appendSymbol addSymbol p1 e2 = (Res.ret v (some err), e3) →
          generatePassword budget words shortWords numWords separator length capitalize
            addNumber addSymbol e = (Res.ret [] (some err), e3)))) := by
  refine ⟨fun pw err e1 h => generatePassword_err_empty h, ?_, ?_, ?_, ?_, ?_, ?_⟩
  · obtain ⟨k, _, hs⟩ := generatePassword_steps budget words shortWords numWords separator length
      capitalize addNumber addSymbol e
    exact ⟨k, hs⟩
  · intro wordList maxWordLength fuel v err e1 h
    rw [findWord, h]
  · intro sepLen fuel i pw rem v err e1 hi hmax h
    have hm : ¬ isub rem (imul (isub (isub numWords i) 1) sepLen) ≤ 0 := by omega
    rw [slotLoop]
    simp only [hi, if_true, hm, if_false, h]
  · intro sepLen target b v err e1 h
    rw [findWordsForLength, h]
  · intro sepLen target
    rfl
  · intro hv
    refine ⟨?_, ?_, ?_⟩
    · intro hl v err e1 h
      rw [generatePassword_valid hv]
      simp only [chooseWords, hl, if_true, h]
    · intro hl v err e1 h
      have hl2 : ¬ length > 0 := by omega
      rw [generatePassword_valid hv]
      simp only [chooseWords, hl2, if_false, h]
    · intro ws e1 base hc hj
      constructor
      · intro v err e2 hn
        rw [generatePassword_valid hv, hc]
        simp only [decorate, hj, hn]
      · intro p1 e2 v err e3 hn hs
        have hv2 := ((appendSymbol_facts addSymbol p1 e2).2.1 v err e3 hs).1
        rw [generatePassword_valid hv, hc]
        simp only [decorate, hj, hn, hs, hv2]


theorem generatePassword_failures_witness :
    generatePassword 5 [str "cat", str "dog", str "blue"] [str "ox", str "go"] 2 (str "-") 7
        true true true [Draw.value 2, Draw.fail 9, Draw.value 1] =
      (Res.ret [] (some (Err.entropy 9)), [Draw.value 1]) ∧
    ([] : GoString) = [] :=
  ⟨by decide,
   (generatePassword_failures 5 [str "cat", str "dog", str "blue"] [str "ox", str "go"] 2
      (str "-") 7 true true true [Draw.value 2, Draw.fail 9, Draw.value 1]).1 []
      (Err.entropy 9) [Draw.value 1] (by decide)⟩

/-- C18: every catalog and symbol-table access is in bounds.  An index drawn
by `getSecureRandomIndex(len(l))` satisfies `0 <= index < len(l)`, so the
access `l[index]` succeeds, for a catalog and for the symbol table; for an
empty list the call returns the range error instead, which ends the slot loop
(whichever catalog the slot uses) and the selection loop with that error;
`findWordsForLength` never panics, and a panic of `generatePassword` can only
be the length overflow of `strings.Join`, never an access; and
`capitalizeFirstLetter` returns the empty string unchanged and reads `s[0]`
only from a non-empty string, where the read succeeds. -/
theorem accesses_in_bounds :
    (∀ (l : List GoString) (e e1 : Entropy) (idx : Int),
      getSecureRandomIndex (len l) e = (Res.ret idx none, e1) →
      0 ≤ idx ∧ idx < len l ∧ ∃ w, index l idx = some w) ∧
    (∀ (e e1 : Entropy) (idx : Int),
      getSecureRandomIndex (len symbols) e = (Res.ret idx none, e1) →
      0 ≤ idx ∧ idx < len symbols ∧ ∃ c, index symbols idx = some c) ∧
    (∀ e : Entropy,
      getSecureRandomIndex (len ([] : List GoString)) e =
        (Res.ret 0 (some Err.maxNotPositive), e)) ∧
    (∀ (words shortWords : List GoString) (n sep : Int) (fuel : Nat) (i : Int)
        (pw : List GoString) (rem : Int) (e : Entropy),
      i < n → 0 < isub rem (imul (isub (isub n i) 1) sep) →
      (if isub rem (imul (isub (isub n i) 1) sep) ≤ 2 then shortWords else words) = [] →
      slotLoop words shortWords n sep (fuel + 1) i pw rem e =
        (Res.ret ([], 0) (some Err.maxNotPositive), e)) ∧
    (∀ (n : Int) (fuel : Nat) (i : Int) (pw : List GoString) (e : Entropy),
      i < n → selectLoop [] n (fuel + 1) i pw e = (Res.ret [] (some Err.maxNotPositive), e)) ∧
    (∀ (words shortWords : List GoString) (n sep target : Int) (budget : Nat) (e e1 : Entropy),
      findWordsForLength words shortWords n sep target budget e ≠ (Res.panic, e1)) ∧
    (∀ (budget : Nat) (words shortWords : List GoString) (n : Int) (separator : GoString)
        (length : Int) (capitalize addNumber addSymbol : Bool) (e e1 : Entropy),
      generatePassword budget words shortWords n separator length capitalize addNumber
        addSymbol e = (Res.panic, e1) →
      ∃ ws : List GoString,
        chooseWords budget words shortWords n separator length e = (Res.ret ws none, e1) ∧
        stringsJoin (if capitalize then ws.map capitalizeFirstLetter else ws) separator =
          none) ∧
    (capitalizeFirstLetter [] = [] ∧
      ∀ (b : Byte) (rest : GoString), index (b :: rest) 0 = some b) := by
  refine ⟨fun l e e1 idx h => index_of_draw h, fun e e1 idx h => index_of_draw h, ?_, ?_, ?_,
    ?_, ?_, rfl, fun b rest => rfl⟩
  · intro e
    simp [getSecureRandomIndex, len]
  · intro words shortWords n sep fuel i pw rem e hi hmax hnil
    have hm : ¬ isub rem (imul (isub (isub n i) 1) sep) ≤ 0 := by omega
    have hf : findWord
        (if isub rem (imul (isub (isub n i) 1) sep) ≤ 2 then shortWords else words)
        (isub rem (imul (isub (isub n i) 1) sep)) 100 e =
        (Res.ret [] (some Err.maxNotPositive), e) := by
      rw [hnil, findWord]
      simp [getSecureRandomIndex, len]
    rw [slotLoop]
    simp only [hi, if_true, hm, if_false, hf]
  · intro n fuel i pw e hi
    rw [selectLoop]
    simp [hi, getSecureRandomIndex, len]
  · intro words shortWords n sep target budget e e1
    exact findWordsForLength_ne_panic _ _ _ _ _ _ _ _
  · intro budget words shortWords n separator length capitalize addNumber addSymbol e e1 h
    exact generatePassword_panic h

theorem isEntropy_not_validation {err : Err} (h : err.isEntropy = true) :
    err.isLengthOutOfRange = false ∧ ∀ t, err ≠ Err.noCombination t := by
  cases err <;> simp [Err.isEntropy, Err.isLengthOutOfRange] at h ⊢

/-- C19: a length that is zero or negative is treated as unconstrained.  For
`length <= 0` the call returns exactly what it returns for `length = 0`, with
the same catalogs, separator, flags and entropy stream: the words come from
the selection loop over the general catalog, the result does not depend on
the budget or the short catalog (`findWordsForLength` is not called), and an
error is never a length-validation error or the no-combination error. -/
theorem generatePassword_nonpositive_length (budget budget2 : Nat)
    (words shortWords shortWords2 : List GoString) (numWords : Int) (separator : GoString)
    (length : Int) (capitalize addNumber addSymbol : Bool) (e : Entropy) (hl : length ≤ 0) :
    generatePassword budget words shortWords numWords separator length capitalize addNumber
        addSymbol e =
      generatePassword budget words shortWords numWords separator 0 capitalize addNumber
        addSymbol e ∧
    chooseWords budget words shortWords numWords separator length e =
      selectLoop words numWords numWords.toNat 0 [] e ∧
    generatePassword budget words shortWords numWords separator length capitalize addNumber
        addSymbol e =
      generatePassword budget2 words shortWords2 numWords separator length capitalize addNumber
        addSymbol e ∧
    (∀ pw err e1,
      generatePassword budget words shortWords numWords separator length capitalize addNumber
        addSymbol e = (Res.ret pw (some err), e1) →
      err.isLengthOutOfRange = false ∧ ∀ t, err ≠ Err.noCombination t) := by
  have hl2 : ¬ length > 0 := by omega
  have h0 : ¬ ((0 : Int) > 0) := by decide
  have hc : ∀ (b : Nat) (sw : List GoString) (len0 : Int), ¬ len0 > 0 →
      chooseWords b words sw numWords separator len0 e =
        selectLoop words numWords numWords.toNat 0 [] e := by
    intro b sw len0 h
    simp only [chooseWords, h, if_false]
  have hg : ∀ (b : Nat) (sw : List GoString) (len0 : Int), ¬ len0 > 0 →
      generatePassword b words sw numWords separator len0 capitalize addNumber addSymbol e =
        if numWords ≤ 0 then (Res.ret [] (some Err.invalidWordCount), e)
        else
          match selectLoop words numWords numWords.toNat 0 [] e with
          | (Res.panic, e1) => (Res.panic, e1)
          | (Res.ret _ (some err), e1) => (Res.ret [] (some err), e1)
          | (Res.ret passwordWords none, e1) =>
            decorate passwordWords separator capitalize addNumber addSymbol e1 := by
    intro b sw len0 h
    unfold generatePassword
    simp only [h, false_and, if_false, hc b sw len0 h]
  refine ⟨?_, hc budget shortWords length hl2, ?_, ?_⟩
  · rw [hg budget shortWords length hl2, hg budget shortWords 0 h0]
  · rw [hg budget shortWords length hl2, hg budget2 shortWords2 length hl2]
  · intro pw err e1 h
    rw [hg budget shortWords length hl2] at h
    split at h
    · simp only [Prod.mk.injEq, Res.ret.injEq, Option.some.injEq] at h
      rw [← h.1.2]
      exact ⟨rfl, fun t => by simp⟩
    · split at h
      · simp at h
      · rename_i v0 err0 e2 hs
        simp only [Prod.mk.injEq, Res.ret.injEq, Option.some.injEq] at h
        rw [← h.1.2]
        rcases (selectLoop_err _ _ _ _ _ _ _ _ _ hs).2 with ⟨_, he⟩ | ⟨_, he⟩
        · rw [he]
          exact ⟨rfl, fun t => by simp⟩
        · exact isEntropy_not_validation he
      · exact isEntropy_not_validation ((decorate_facts _ _ _ _ _ _).2.1 _ _ _ h).2

theorem generatePassword_nonpositive_length_witness :
    ((-5 : Int) ≤ 0) ∧
    generatePassword 3 [str "cat", str "dog", str "blue"] [str "ox"] 2 (str "-") (-5) false
        true false [Draw.value 5, Draw.value 0, Draw.value 4, Draw.value 9] =
      generatePassword 3 [str "cat", str "dog", str "blue"] [str "ox"] 2 (str "-") 0 false
        true false [Draw.value 5, Draw.value 0, Draw.value 4, Draw.value 9] ∧
    generatePassword 3 [str "cat", str "dog", str "blue"] [str "ox"] 2 (str "-") (-5) false
        true false [Draw.value 5, Draw.value 0, Draw.value 4, Draw.value 9] =
      (Res.ret (str "blue-cat4") none, [Draw.value 9]) :=
  ⟨by decide,
   (generatePassword_nonpositive_length 3 0 [str "cat", str "dog", str "blue"] [str "ox"] [] 2
      (str "-") (-5) false true false [Draw.value 5, Draw.value 0, Draw.value 4, Draw.value 9]
      (by decide)).1,
   by decide⟩

/-! ## The per-slot bound and the sign of `remainingLength` -/


/-- The integer expressions of one slot without overflow: for a slot `i` of
an attempt with non-negative separator length, separator total within `int`
and `0 <= remainingLength`, the wrapped expressions of the source have their
mathematical values. -/
theorem slot_arith {n sep i rem : Int} (hn : n ≤ maxInt) (hsep : 0 ≤ sep)
    (hprod : (n - 1) * sep ≤ maxInt) (hi0 : 0 ≤ i) (hi : i < n) (hr0 : 0 ≤ rem)
    (hr : rem ≤ maxInt) :
    isub rem (imul (isub (isub n i) 1) sep) = rem - (n - 1) * sep + i * sep ∧
      0 ≤ i * sep ∧ i * sep ≤ (n - 1) * sep ∧ isub n 1 = n - 1 ∧
      (i < n - 1 → (i + 1) * sep ≤ (n - 1) * sep) ∧
      (∀ L : Int, 0 ≤ L → L ≤ rem - (n - 1) * sep + i * sep →
        isub rem L = rem - L ∧
        (i < n - 1 → isub (rem - L) sep = rem - L - sep)) := by
  unfold maxInt at hn hprod hr
  have hB0 : 0 ≤ i * sep := mul_nonneg hi0 hsep
  have hBA : i * sep ≤ (n - 1) * sep := mul_le_mul_of_nonneg_right (by omega) hsep
  have hP : (n - i - 1) * sep = (n - 1) * sep - i * sep := by ring
  have h1 : isub (isub n i) 1 = n - i - 1 := by unfold isub wrap; omega
  have h2 : imul (n - i - 1) sep = (n - 1) * sep - i * sep := by
    unfold imul wrap; rw [hP]; omega
  have h3 : isub rem ((n - 1) * sep - i * sep) = rem - (n - 1) * sep + i * sep := by
    unfold isub wrap; omega
  have h4 : isub n 1 = n - 1 := by unfold isub wrap; omega
  have hI : (i + 1) * sep = i * sep + sep := by ring
  refine ⟨by rw [h1, h2, h3], hB0, hBA, h4, ?_, ?_⟩
  · intro hlast
    exact mul_le_mul_of_nonneg_right (by omega) hsep
  · intro L hL0 hL
    have h5 : isub rem L = rem - L := by unfold isub wrap; omega
    refine ⟨h5, ?_⟩
    intro hlast
    have hsepP : (i + 1) * sep ≤ (n - 1) * sep := mul_le_mul_of_nonneg_right (by omega) hsep
    unfold isub wrap
    omega


/-- Counterexample to C13 as stated: with target 7, two words and separator
length 1, slot 0 has `maxWordLength = 6`; the six-letter word "banana" is
accepted, slot 1 then has `maxWordLength = 0`, the attempt is abandoned with
one word, and the call ends with the no-combination error. -/
theorem slot_bound_full_word_abandons :
    maxWordLengthAt 2 1 0 7 = 6 ∧ len (str "banana") ≤ maxWordLengthAt 2 1 0 7 ∧
    maxWordLengthAt 2 1 1 (remainingAfter 2 1 0 7 (str "banana")) = 0 ∧
    slotLoop [str "banana", str "cat"] [str "ox"] 2 1 2 0 [] 7 [Draw.value 0] =
      (Res.ret ([str "banana"], 0) none, []) ∧
    findWordsForLength [str "banana", str "cat"] [str "ox"] 2 1 7 1 [Draw.value 0] =
      (Res.ret [] (some (Err.noCombination 7)), []) := by
  decide

/-- The bound of the next slot in `int` arithmetic: whatever the arguments
are, once a word of length `L` with `0 <= L <= maxWordLength` and the
separator are subtracted, the expression for slot `i + 1` has the value
`maxWordLength - L`. -/
theorem maxWordLengthAt_next (n sep i rem L : Int) (h0 : 0 ≤ L)
    (hL : L ≤ maxWordLengthAt n sep i rem) :
    maxWordLengthAt n sep (i + 1) (isub (isub rem L) sep) = maxWordLengthAt n sep i rem - L := by
  unfold maxWordLengthAt at hL ⊢
  have hA : (isub (isub n i) 1 - isub (isub n (i + 1)) 1 - 1) % 18446744073709551616 = 0 := by
    unfold isub wrap
    omega
  generalize isub (isub n i) 1 = A at hA hL ⊢
  generalize isub (isub n (i + 1)) 1 = A2 at hA ⊢
  obtain ⟨k, hk⟩ := Int.dvd_of_emod_eq_zero hA
  have hprod : A * sep = A2 * sep + sep + 18446744073709551616 * (k * sep) := by
    have hA2 : A = A2 + 1 + 18446744073709551616 * k := by omega
    rw [hA2]
    ring
  unfold imul isub wrap at hL ⊢
  rw [hprod] at hL ⊢
  generalize A2 * sep = P at hL ⊢
  generalize k * sep = Q at hL ⊢
  omega

/-- C13 (amended): in a slot `i` that is not the last, when the inner loop
returns a non-empty word, of length `L <= maxWordLength`, the slot loop goes on
to slot `i + 1` with the word appended and `remainingLength` reduced by `L`
and the separator length, and the `maxWordLength` of slot `i + 1` is
`maxWordLength - L`.  It is never negative, it is positive exactly when
`L < maxWordLength`, and when `L = maxWordLength` the slot loop is left at
slot `i + 1` without a draw, so the attempt is abandoned with the words found
so far: the bound keeps room for the separators that follow, not for the
words that follow. -/
theorem slot_bound_after_word (words shortWords : List GoString) (n sep : Int) (fuel : Nat)
    (i : Int) (pw : List GoString) (rem : Int) (e e1 : Entropy) (word : GoString)
    (hi : i < n) (hlast : i < isub n 1) (hm : 0 < maxWordLengthAt n sep i rem)
    (hfw : findWord (slotList words shortWords (maxWordLengthAt n sep i rem))
      (maxWordLengthAt n sep i rem) 100 e = (Res.ret word none, e1))
    (hne : word ≠ []) :
    len word ≤ maxWordLengthAt n sep i rem ∧
      slotLoop words shortWords n sep (fuel + 1) i pw rem e =
        slotLoop words shortWords n sep fuel (i + 1) (pw ++ [word])
          (remainingAfter n sep i rem word) e1 ∧
      remainingAfter n sep i rem word = isub (isub rem (len word)) sep ∧
      maxWordLengthAt n sep (i + 1) (remainingAfter n sep i rem word) =
        maxWordLengthAt n sep i rem - len word ∧
      0 ≤ maxWordLengthAt n sep (i + 1) (remainingAfter n sep i rem word) ∧
      (0 < maxWordLengthAt n sep (i + 1) (remainingAfter n sep i rem word) ↔
        len word < maxWordLengthAt n sep i rem) ∧
      (len word = maxWordLengthAt n sep i rem →
        slotLoop words shortWords n sep (fuel + 1) i pw rem e =
          (Res.ret (pw ++ [word], remainingAfter n sep i rem word) none, e1)) := by
  have hfit : len word ≤ maxWordLengthAt n sep i rem := by
    rcases findWord_ok _ _ _ _ hfw with hnil | ⟨_, hle⟩
    · exact absurd hnil hne
    · exact hle
  have hstep : slotLoop words shortWords n sep (fuel + 1) i pw rem e =
      slotLoop words shortWords n sep fuel (i + 1) (pw ++ [word])
        (remainingAfter n sep i rem word) e1 := by
    have hm2 : ¬ isub rem (imul (isub (isub n i) 1) sep) ≤ 0 := by
      unfold maxWordLengthAt at hm
      omega
    unfold maxWordLengthAt slotList at hfw
    rw [slotLoop]
    simp only [hi, if_true, hm2, if_false, hfw, hne]
    rfl
  have hrem : remainingAfter n sep i rem word = isub (isub rem (len word)) sep := by
    unfold remainingAfter
    simp only [hlast, if_true]
  have hnext := maxWordLengthAt_next n sep i rem (len word) (len_nonneg word) hfit
  rw [← hrem] at hnext
  refine ⟨hfit, hstep, hrem, hnext, by omega, by omega, ?_⟩
  intro heq
  rw [hstep]
  cases fuel with
  | zero => rfl
  | succ k =>
    have hle : isub (remainingAfter n sep i rem word) (imul (isub (isub n (i + 1)) 1) sep) ≤ 0 := by
      unfold maxWordLengthAt at hnext heq
      rw [hnext]
      unfold maxWordLengthAt at hfit
      omega
    rw [slotLoop]
    split
    · simp only [hle, if_true]
    · rfl

theorem slot_bound_after_word_witness :
    (((0 : Int) < 2 ∧ (0 : Int) < isub 2 1 ∧ 0 < maxWordLengthAt 2 1 0 7) ∧
      findWord (slotList [str "banana", str "cat"] [str "ox"] (maxWordLengthAt 2 1 0 7))
        (maxWordLengthAt 2 1 0 7) 100 [Draw.value 0] = (Res.ret (str "banana") none, []) ∧
      str "banana" ≠ []) ∧
    maxWordLengthAt 2 1 (0 + 1) (remainingAfter 2 1 0 7 (str "banana")) =
      maxWordLengthAt 2 1 0 7 - len (str "banana") ∧
    slotLoop [str "banana", str "cat"] [str "ox"] 2 1 (1 + 1) 0 [] 7 [Draw.value 0] =
      (Res.ret ([] ++ [str "banana"], remainingAfter 2 1 0 7 (str "banana")) none, []) :=
  have h := slot_bound_after_word [str "banana", str "cat"] [str "ox"] 2 1 1 0 [] 7
    [Draw.value 0] [] (str "banana") (by decide) (by decide) (by decide) (by decide) (by decide)
  ⟨by decide, h.2.2.2.1, h.2.2.2.2.2.2 (by decide)⟩

/-- The accounting of an attempt at every point where the slot loop can be
left: `remainingLength` stays within `[0, targetLength]`, and together with
the lengths of the words and of the separators subtracted so far it makes up
`targetLength`. -/
theorem slotLoop_account {words shortWords : List GoString} {n sep target : Int}
    (hn : n ≤ maxInt) (hsep : 0 ≤ sep) (hprod : (n - 1) * sep ≤ maxInt)
    (ht : target ≤ maxInt) :
    ∀ (fuel : Nat) (i : Int) (pw pw1 : List GoString) (rem rem1 : Int) (e e1 : Entropy),
      0 ≤ i → i ≤ n → len pw = i → 0 ≤ rem → rem ≤ target →
      (i < n → rem + sumLen pw + i * sep = target) →
      (i = n → rem + sumLen pw + (n - 1) * sep = target) →
      slotLoop words shortWords n sep fuel i pw rem e = (Res.ret (pw1, rem1) none, e1) →
      len pw1 ≤ n ∧ 0 ≤ rem1 ∧ rem1 ≤ target ∧
        (len pw1 < n → rem1 + sumLen pw1 + len pw1 * sep = target) ∧
        (len pw1 = n → rem1 + sumLen pw1 + (n - 1) * sep = target) := by
  intro fuel
  induction fuel with
  | zero =>
    intro i pw pw1 rem rem1 e e1 hi0 hin hlen hr0 hrt hlt heq h
    simp only [slotLoop, Prod.mk.injEq, Res.ret.injEq, and_true] at h
    obtain ⟨⟨h1, h2⟩, _⟩ := h
    subst h1 h2
    exact ⟨by omega, hr0, hrt, fun hl => by rw [hlen]; exact hlt (by omega),
      fun hl => heq (by omega)⟩
  | succ k ih =>
    intro i pw pw1 rem rem1 e e1 hi0 hin hlen hr0 hrt hlt heq h
    by_cases hi : i < n
    · rcases slotLoop_succ hi h with ⟨h1, h2⟩ | ⟨hmax, word, e2, hne, hfw, hrec⟩
      · subst h1 h2
        exact ⟨by omega, hr0, hrt, fun hl => by rw [hlen]; exact hlt (by omega),
          fun hl => heq (by omega)⟩
      · obtain ⟨hm, hB0, hBA, hn1, hnext, hL⟩ :=
          slot_arith hn hsep hprod hi0 hi hr0 (by omega : rem ≤ maxInt)
        rw [hm] at hfw hmax
        have hL1 : 1 ≤ len word := len_pos_of_ne_nil hne
        have hL2 : len word ≤ rem - (n - 1) * sep + i * sep := by
          rcases findWord_ok _ _ _ _ hfw with hnil | ⟨_, hle⟩
          · exact absurd hnil hne
          · exact hle
        obtain ⟨h5, h6⟩ := hL (len word) (by omega) hL2
        rw [hn1, h5] at hrec
        have hS : sumLen (pw ++ [word]) = sumLen pw + len word := sumLen_append_singleton pw word
        have hlen1 : len (pw ++ [word]) = i + 1 := by rw [len_append_singleton, hlen]
        have hlt1 := hlt hi
        have hI : (i + 1) * sep = i * sep + sep := by ring
        by_cases hlast : i < n - 1
        · have hsepP := hnext hlast
          simp only [hlast, if_true, h6 hlast] at hrec
          exact ih (i + 1) _ pw1 _ rem1 e2 e1 (by omega) (by omega) hlen1 (by omega) (by omega)
            (fun _ => by rw [hS, hI]; omega) (fun hc => by omega) hrec
        · have hin1 : i = n - 1 := by omega
          simp only [hlast, if_false] at hrec
          have hIn : i * sep = (n - 1) * sep := by rw [hin1]
          exact ih (i + 1) _ pw1 _ rem1 e2 e1 (by omega) (by omega) hlen1 (by omega) (by omega)
            (fun hc => by omega) (fun _ => by rw [hS]; omega) hrec
    · obtain ⟨h1, h2, _⟩ := slotLoop_done hi h
      subst h1 h2
      exact ⟨by omega, hr0, hrt, fun hl => by rw [hlen]; exact hlt (by omega),
        fun _ => heq (by omega)⟩

/-- Counterexample to C17 as stated: the separator length `2^62` and the
target 5 are non-negative, but with five words the separator total `4 * 2^62`
overflows to 0, the first slot accepts "cat", and subtracting the separator
leaves `remainingLength = 2 - 2^62`, a negative value. -/
theorem remainingLength_negative_on_overflow :
    ((0 : Int) ≤ 4611686018427387904 ∧ (0 : Int) ≤ 5) ∧
    maxWordLengthAt 5 4611686018427387904 0 5 = 5 ∧
    remainingAfter 5 4611686018427387904 0 5 (str "cat") = -4611686018427387902 ∧
    slotLoop [str "cat"] [str "ox"] 5 4611686018427387904 1 0 [] 5 [Draw.value 0] =
      (Res.ret ([str "cat"], -4611686018427387902) none, []) ∧
    (-4611686018427387902 : Int) < 0 := by
  decide

/-- C17 (amended): for a non-negative separator length whose total
`(numWords-1)*separatorLength` is an `int` and a non-negative target,
`remainingLength` is never negative in an attempt.  Whenever the slot loop is
left, after any number of slots, `0 <= remainingLength <= targetLength`, and
`remainingLength` plus the lengths of the words and separators accounted for
is `targetLength` (so the words and separators never exceed the target, and
after all `numWords` slots they equal it exactly when `remainingLength = 0`);
and inside a slot, after a fitting word is subtracted and after the separator
is subtracted, the value is still non-negative. -/
theorem remainingLength_nonneg (words shortWords : List GoString) (n sep target : Int)
    (hn : n ≤ maxInt) (hsep : 0 ≤ sep) (hprod : (n - 1) * sep ≤ maxInt)
    (ht0 : 0 ≤ target) (ht : target ≤ maxInt) :
    (∀ (fuel : Nat) (e e1 : Entropy) (pw1 : List GoString) (rem1 : Int),
      slotLoop words shortWords n sep fuel 0 [] target e = (Res.ret (pw1, rem1) none, e1) →
      0 ≤ rem1 ∧ rem1 ≤ target ∧
        (1 ≤ n →
          (len pw1 < n → rem1 + sumLen pw1 + len pw1 * sep = target) ∧
          (len pw1 = n → rem1 + sumLen pw1 + (n - 1) * sep = target ∧
            (rem1 = 0 ↔ sumLen pw1 + (n - 1) * sep = target)))) ∧
    (∀ (i rem : Int) (word : GoString),
      0 ≤ i → i < n → 0 ≤ rem → rem ≤ target →
      len word ≤ maxWordLengthAt n sep i rem →
      0 ≤ isub rem (len word) ∧ 0 ≤ remainingAfter n sep i rem word ∧
        remainingAfter n sep i rem word ≤ rem) := by
  constructor
  · intro fuel e e1 pw1 rem1 h
    have hsum0 : sumLen [] = 0 := rfl
    have hlen0 : len ([] : List GoString) = 0 := rfl
    by_cases hn1 : 1 ≤ n
    · obtain ⟨_, h0, h1, h2, h3⟩ := slotLoop_account hn hsep hprod ht fuel 0 [] pw1 target rem1
        e e1 (le_refl _) (by omega) hlen0 ht0 (le_refl _) (fun _ => by rw [hsum0]; simp)
        (fun hc => by omega) h
      refine ⟨h0, h1, fun _ => ⟨h2, fun hl => ⟨h3 hl, ?_⟩⟩⟩
      have := h3 hl
      constructor <;> intro hx <;> omega
    · obtain ⟨h1, h2, _⟩ := slotLoop_done (by omega : ¬ (0 : Int) < n) h
      subst h2
      exact ⟨ht0, le_refl _, fun hc => absurd hc hn1⟩
  · intro i rem word hi0 hi hr0 hrt hfit
    obtain ⟨hm, hB0, hBA, hn1, hnext, hL⟩ :=
      slot_arith hn hsep hprod hi0 hi hr0 (by omega : rem ≤ maxInt)
    unfold maxWordLengthAt at hfit
    rw [hm] at hfit
    have hw0 := len_nonneg word
    obtain ⟨h5, h6⟩ := hL (len word) hw0 hfit
    unfold remainingAfter
    rw [hn1, h5]
    by_cases hlast : i < n - 1
    · have hsepP := hnext hlast
      have hI : (i + 1) * sep = i * sep + sep := by ring
      simp only [hlast, if_true, h6 hlast]
      exact ⟨by omega, by omega, by omega⟩
    · simp only [hlast, if_false]
      exact ⟨by omega, by omega, by omega⟩

theorem remainingLength_nonneg_witness :
    ((2 : Int) ≤ maxInt ∧ (0 : Int) ≤ 1 ∧ ((2 : Int) - 1) * 1 ≤ maxInt ∧ (0 : Int) ≤ 7 ∧
      (7 : Int) ≤ maxInt) ∧
    slotLoop [str "cat", str "dog", str "blue"] [str "ox", str "go"] 2 1 1 0 [] 7
        [Draw.value 2, Draw.value 0] = (Res.ret ([str "blue"], 2) none, [Draw.value 0]) ∧
    ((0 : Int) ≤ 2 ∧ (2 : Int) ≤ 7) :=
  ⟨by decide, by decide,
   have h := ((remainingLength_nonneg [str "cat", str "dog", str "blue"] [str "ox", str "go"] 2
      1 7 (by decide) (by decide) (by decide) (by decide) (by decide)).1 1
      [Draw.value 2, Draw.value 0] [Draw.value 0] [str "blue"] 2 (by decide))
   ⟨h.1, h.2.1⟩⟩


/-! ## The concrete scenario: two words, separator "-", target 7 -/

/-- In the scenario every successful call returns one of six word lists: a
three-letter word of the general catalog twice, or "blue" followed by a word
of the short catalog. -/
theorem scenario_lists {budget : Nat} {e e1 : Entropy} {ws : List GoString}
    (h : findWordsForLength scenarioGeneral scenarioShort 2 1 7 budget e =
      (Res.ret ws none, e1)) :
    ws ∈ [[str "cat", str "cat"], [str "cat", str "dog"], [str "dog", str "cat"],
      [str "dog", str "dog"], [str "blue", str "ox"], [str "blue", str "go"]] := by
  obtain ⟨hlen, e0, hs⟩ := findWordsForLength_ok budget e e1 ws h
  have h2 : (2 : Int).toNat = 1 + 1 := rfl
  rw [h2] at hs
  rcases slotLoop_succ (by decide : (0 : Int) < 2) hs with
    ⟨h1, _⟩ | ⟨_, w1, e2, hne1, hfw1, hrec1⟩
  · rw [h1] at hlen
    exact absurd hlen (by decide)
  · have hm0 : isub 7 (imul (isub (isub 2 0) 1) 1) = 6 := by decide
    rw [hm0] at hfw1
    simp only [show ¬ ((6 : Int) ≤ 2) by decide, if_false] at hfw1
    have hw1 : w1 ∈ scenarioGeneral := by
      rcases findWord_ok _ _ _ _ hfw1 with hnil | ⟨hmem, _⟩
      · exact absurd hnil hne1
      · exact hmem
    have hstep : ∀ (r : Int) (w : GoString),
        slotLoop scenarioGeneral scenarioShort 2 1 (0 + 1) (0 + 1) ([] ++ [w]) r e2 =
          (Res.ret (ws, 0) none, e1) →
        ∃ w2, w2 ≠ [] ∧
          (w2 ∈ (if isub r (imul (isub (isub 2 (0 + 1)) 1) 1) ≤ 2 then scenarioShort
            else scenarioGeneral)) ∧
          len w2 ≤ isub r (imul (isub (isub 2 (0 + 1)) 1) 1) ∧ ws = [w, w2] := by
      intro r w hr
      rcases slotLoop_succ (by decide : (0 : Int) + 1 < 2) hr with
        ⟨h1, _⟩ | ⟨_, w2, e3, hne2, hfw2, hrec2⟩
      · rw [h1] at hlen
        exact absurd hlen (by simp [len])
      · rcases findWord_ok _ _ _ _ hfw2 with hnil | ⟨hmem, hle⟩
        · exact absurd hnil hne2
        · refine ⟨w2, hne2, hmem, hle, ?_⟩
          simp only [slotLoop, Prod.mk.injEq, Res.ret.injEq, and_true] at hrec2
          rw [← hrec2.1.1]
          simp
    simp only [scenarioGeneral, List.mem_cons, List.mem_singleton, List.not_mem_nil,
      or_false] at hw1
    rcases hw1 with hw | hw | hw
    · subst hw
      obtain ⟨w2, _, hmem, hle, hws⟩ := hstep _ _ hrec1
      have hm1 : isub (if (0 : Int) < isub 2 1 then isub (isub 7 (len (str "cat"))) 1
          else isub 7 (len (str "cat"))) (imul (isub (isub 2 (0 + 1)) 1) 1) = 3 := by decide
      rw [hm1] at hmem hle
      simp only [show ¬ ((3 : Int) ≤ 2) by decide, if_false, scenarioGeneral, List.mem_cons,
        List.mem_singleton, List.not_mem_nil, or_false] at hmem
      rcases hmem with hw | hw | hw
      · rw [hws, hw]; simp
      · rw [hws, hw]; simp
      · rw [hw] at hle
        exact absurd hle (by decide)
    · subst hw
      obtain ⟨w2, _, hmem, hle, hws⟩ := hstep _ _ hrec1
      have hm1 : isub (if (0 : Int) < isub 2 1 then isub (isub 7 (len (str "dog"))) 1
          else isub 7 (len (str "dog"))) (imul (isub (isub 2 (0 + 1)) 1) 1) = 3 := by decide
      rw [hm1] at hmem hle
      simp only [show ¬ ((3 : Int) ≤ 2) by decide, if_false, scenarioGeneral, List.mem_cons,
        List.mem_singleton, List.not_mem_nil, or_false] at hmem
      rcases hmem with hw | hw | hw
      · rw [hws, hw]; simp
      · rw [hws, hw]; simp
      · rw [hw] at hle
        exact absurd hle (by decide)
    · subst hw
      obtain ⟨w2, _, hmem, hle, hws⟩ := hstep _ _ hrec1
      have hm1 : isub (if (0 : Int) < isub 2 1 then isub (isub 7 (len (str "blue"))) 1
          else isub 7 (len (str "blue"))) (imul (isub (isub 2 (0 + 1)) 1) 1) = 2 := by decide
      rw [hm1] at hmem hle
      simp only [le_refl, if_true, scenarioShort, List.mem_cons,
        List.mem_singleton, List.not_mem_nil, or_false] at hmem
      rcases hmem with hw | hw
      · rw [hws, hw]; simp
      · rw [hws, hw]; simp


/-- Counterexample to C12 as stated: "ox" and "blue" are catalog words and
"ox-blue" has total length 7, but no call returns it, because the first slot
has `maxWordLength = 6` and therefore draws from the general catalog only. -/
theorem scenario_ox_blue_not_output :
    (str "ox" ∈ scenarioShort ∧ str "blue" ∈ scenarioGeneral ∧
      len (str "ox") + 1 + len (str "blue") = 7 ∧
      str "ox" ++ str "-" ++ str "blue" = str "ox-blue" ∧ len (str "ox-blue") = 7) ∧
    ¬ ∃ (budget : Nat) (e e1 : Entropy) (ws : List GoString),
      findWordsForLength scenarioGeneral scenarioShort 2 1 7 budget e = (Res.ret ws none, e1) ∧
      joinBytes ws (str "-") = str "ox-blue" := by
  refine ⟨by decide, ?_⟩
  rintro ⟨budget, e, e1, ws, h, hj⟩
  have hmem := scenario_lists h
  simp only [List.mem_cons, List.mem_singleton, List.not_mem_nil, or_false] at hmem
  rcases hmem with hw | hw | hw | hw | hw | hw <;>
    · rw [hw] at hj
      exact absurd hj (by decide)

/-- C12 (amended): in the scenario (general catalog cat, dog, blue; short
catalog ox, go; two words; separator "-"; target 7) a string is a possible
output of the composer, for some budget and sequence of draws, if and only if
it is `w1 + "-" + w2` with `w1` a word of the general catalog, `w2` a word of
either catalog and total length 7; "blue-ox" is a possible output, and every
output has total length 7. -/
theorem scenario_outputs (s : GoString) :
    ((∃ (budget : Nat) (e e1 : Entropy) (ws : List GoString),
        findWordsForLength scenarioGeneral scenarioShort 2 1 7 budget e =
          (Res.ret ws none, e1) ∧ s = joinBytes ws (str "-")) ↔
      (∃ w1 w2 : GoString, w1 ∈ scenarioGeneral ∧ (w2 ∈ scenarioGeneral ∨ w2 ∈ scenarioShort) ∧
        len w1 + len (str "-") + len w2 = 7 ∧ s = w1 ++ str "-" ++ w2)) ∧
    (∃ (budget : Nat) (e e1 : Entropy),
      findWordsForLength scenarioGeneral scenarioShort 2 1 7 budget e =
        (Res.ret [str "blue", str "ox"] none, e1) ∧
      joinBytes [str "blue", str "ox"] (str "-") = str "blue-ox") ∧
    (∀ (budget : Nat) (e e1 : Entropy) (ws : List GoString),
      findWordsForLength scenarioGeneral scenarioShort 2 1 7 budget e = (Res.ret ws none, e1) →
      len (joinBytes ws (str "-")) = 7) := by
  refine ⟨⟨?_, ?_⟩, ⟨1, drawsOf [2, 0], [], by decide, by decide⟩, ?_⟩
  · rintro ⟨budget, e, e1, ws, h, hs⟩
    have hmem := scenario_lists h
    simp only [List.mem_cons, List.mem_singleton, List.not_mem_nil, or_false] at hmem
    rcases hmem with hw | hw | hw | hw | hw | hw
    · exact ⟨str "cat", str "cat", by decide, Or.inl (by decide), by decide, by rw [hs, hw]; rfl⟩
    · exact ⟨str "cat", str "dog", by decide, Or.inl (by decide), by decide, by rw [hs, hw]; rfl⟩
    · exact ⟨str "dog", str "cat", by decide, Or.inl (by decide), by decide, by rw [hs, hw]; rfl⟩
    · exact ⟨str "dog", str "dog", by decide, Or.inl (by decide), by decide, by rw [hs, hw]; rfl⟩
    · exact ⟨str "blue", str "ox", by decide, Or.inr (by decide), by decide, by rw [hs, hw]; rfl⟩
    · exact ⟨str "blue", str "go", by decide, Or.inr (by decide), by decide, by rw [hs, hw]; rfl⟩
  · rintro ⟨w1, w2, h1, h2, hlen, hs⟩
    simp only [scenarioGeneral, scenarioShort, List.mem_cons, List.mem_singleton,
      List.not_mem_nil, or_false] at h1 h2
    rcases h1 with h1 | h1 | h1 <;> rcases h2 with (h2 | h2 | h2) | (h2 | h2) <;>
      subst h1 <;> subst h2
    · exact ⟨1, drawsOf [0, 0], [], [str "cat", str "cat"], by decide, hs⟩
    · exact ⟨1, drawsOf [0, 1], [], [str "cat", str "dog"], by decide, hs⟩
    · exact absurd hlen (by decide)
    · exact absurd hlen (by decide)
    · exact absurd hlen (by decide)
    · exact ⟨1, drawsOf [1, 0], [], [str "dog", str "cat"], by decide, hs⟩
    · exact ⟨1, drawsOf [1, 1], [], [str "dog", str "dog"], by decide, hs⟩
    · exact absurd hlen (by decide)
    · exact absurd hlen (by decide)
    · exact absurd hlen (by decide)
    · exact absurd hlen (by decide)
    · exact absurd hlen (by decide)
    · exact absurd hlen (by decide)
    · exact ⟨1, drawsOf [2, 0], [], [str "blue", str "ox"], by decide, hs⟩
    · exact ⟨1, drawsOf [2, 1], [], [str "blue", str "go"], by decide, hs⟩
  · intro budget e e1 ws h
    have hmem := scenario_lists h
    simp only [List.mem_cons, List.mem_singleton, List.not_mem_nil, or_false] at hmem
    rcases hmem with hw | hw | hw | hw | hw | hw <;>
      · rw [hw]
        decide


/-! ## The draws of one slot -/

/-- One iteration of the inner loop on a stream that starts with a value: the
candidate at the drawn index is accepted if it fits, otherwise the loop goes
on. -/
theorem findWord_value {wordList : List GoString} {m : Int} {r : Nat} {c : GoString}
    (fuel : Nat) (rest : Entropy) (hc : wordList.get? (r % wordList.length) = some c) :
    findWord wordList m (fuel + 1) (Draw.value r :: rest) =
      if len c ≤ m then (Res.ret c none, rest) else findWord wordList m fuel rest := by
  have hpos : 0 < wordList.length := by
    rcases Nat.eq_zero_or_pos wordList.length with h0 | h0
    · rw [List.eq_nil_of_length_eq_zero h0] at hc
      simp at hc
    · exact h0
  have hlen : (0 : Int) < len wordList := by unfold len; omega
  have hg : getSecureRandomIndex (len wordList) (Draw.value r :: rest) =
      (Res.ret ((r : Int) % len wordList) none, rest) := by
    have hn : ¬ len wordList ≤ 0 := by omega
    simp [getSecureRandomIndex, randInt, hn]
  have hi : index wordList ((r : Int) % len wordList) = some c := by
    unfold index len
    have h0 : ¬ ((r : Int) % (wordList.length : Int) < 0) := by
      have := Int.emod_nonneg (r : Int) (b := (wordList.length : Int)) (by omega)
      omega
    simp only [h0, if_false]
    rw [← Int.ofNat_emod, Int.toNat_ofNat]
    exact hc
  rw [findWord, hg]
  simp only [hi]

/-- A result of the inner loop without error, read backwards: the stream
started with a value whose candidate was accepted, or was too long and the
loop went on. -/
theorem findWord_succ_cases {wordList : List GoString} {m : Int} {fuel : Nat}
    {e e1 : Entropy} {word : GoString}
    (h : findWord wordList m (fuel + 1) e = (Res.ret word none, e1)) :
    ∃ (r : Nat) (rest : Entropy) (c : GoString),
      e = Draw.value r :: rest ∧ wordList.get? (r % wordList.length) = some c ∧
      ((len c ≤ m ∧ word = c ∧ e1 = rest) ∨
        (m < len c ∧ findWord wordList m fuel rest = (Res.ret word none, e1))) := by
  have h0 := h
  rw [findWord] at h
  split at h
  · simp at h
  · simp at h
  · rename_i idx e2 hg
    obtain ⟨_, raw, he, hidx⟩ := getSecureRandomIndex_ok hg
    obtain ⟨_, _, a, ha⟩ := index_of_draw hg
    have hc := index_draw hidx ha
    rw [he, findWord_value fuel e2 hc] at h0
    refine ⟨raw, e2, a, he, hc, ?_⟩
    by_cases hfit : len a ≤ m
    · simp only [hfit, if_true, Prod.mk.injEq, Res.ret.injEq, and_true] at h0
      exact Or.inl ⟨hfit, h0.1.symm, h0.2.symm⟩
    · simp only [hfit, if_false] at h0
      exact Or.inr ⟨by omega, h0⟩

/-- The inner loop ends without error exactly in two ways: all its draws pick
candidates that are too long and the word stays empty, or after fewer draws of
that kind one draw picks a candidate that fits, which is the word. -/
theorem findWord_iff (wordList : List GoString) (m : Int) :
    ∀ (fuel : Nat) (e e1 : Entropy) (word : GoString),
      findWord wordList m fuel e = (Res.ret word none, e1) ↔
        (word = [] ∧ ∃ raws : List Nat, e = drawsOf raws ++ e1 ∧ raws.length = fuel ∧
          ∀ r ∈ raws, TooLong wordList m r) ∨
        (∃ (rejected : List Nat) (raw : Nat),
          e = drawsOf rejected ++ Draw.value raw :: e1 ∧ rejected.length < fuel ∧
          (∀ r ∈ rejected, TooLong wordList m r) ∧
          wordList.get? (raw % wordList.length) = some word ∧ len word ≤ m) := by
  intro fuel
  induction fuel with
  | zero =>
    intro e e1 word
    constructor
    · intro h
      simp only [findWord, Prod.mk.injEq, Res.ret.injEq, and_true] at h
      exact Or.inl ⟨h.1.symm, [], by simp [drawsOf, h.2], rfl, by simp⟩
    · rintro (⟨hw, raws, he, hl, _⟩ | ⟨rejected, raw, _, hl, _⟩)
      · have : raws = [] := List.eq_nil_of_length_eq_zero hl
        rw [this] at he
        simp only [drawsOf, List.map_nil, List.nil_append] at he
        rw [hw, he]
        rfl
      · omega
  | succ k ih =>
    intro e e1 word
    constructor
    · intro h
      obtain ⟨r, rest, c, he, hc, hcase⟩ := findWord_succ_cases h
      rcases hcase with ⟨hfit, hw, he1⟩ | ⟨hlong, hrec⟩
      · right
        exact ⟨[], r, by rw [he, he1]; simp [drawsOf], by simp, by simp, by rw [hw]; exact hc,
          by rw [hw]; exact hfit⟩
      · rcases (ih rest e1 word).mp hrec with ⟨hw, raws, he2, hl, hall⟩ |
          ⟨rejected, raw, he2, hl, hall, hget, hfit⟩
        · left
          refine ⟨hw, r :: raws, by rw [he, he2]; simp [drawsOf], by simp [hl], ?_⟩
          intro x hx
          rcases List.mem_cons.mp hx with hx | hx
          · rw [hx]; exact ⟨c, hc, hlong⟩
          · exact hall x hx
        · right
          refine ⟨r :: rejected, raw, by rw [he, he2]; simp [drawsOf], by simp; omega, ?_,
            hget, hfit⟩
          intro x hx
          rcases List.mem_cons.mp hx with hx | hx
          · rw [hx]; exact ⟨c, hc, hlong⟩
          · exact hall x hx
    · rintro (⟨hw, raws, he, hl, hall⟩ | ⟨rejected, raw, he, hl, hall, hget, hfit⟩)
      · cases raws with
        | nil => simp at hl
        | cons r raws =>
          obtain ⟨c, hc, hlong⟩ := hall r (by simp)
          have he' : e = Draw.value r :: (drawsOf raws ++ e1) := by rw [he]; simp [drawsOf]
          rw [he', findWord_value k _ hc]
          have hnf : ¬ len c ≤ m := by omega
          simp only [hnf, if_false]
          exact (ih _ e1 word).mpr (Or.inl ⟨hw, raws, rfl, by simpa using hl,
            fun x hx => hall x (by simp [hx])⟩)
      · cases rejected with
        | nil =>
          have he' : e = Draw.value raw :: e1 := by rw [he]; simp [drawsOf]
          rw [he', findWord_value k _ hget]
          simp only [hfit, if_true]
        | cons r rejected =>
          obtain ⟨c, hc, hlong⟩ := hall r (by simp)
          have he' : e = Draw.value r :: (drawsOf rejected ++ Draw.value raw :: e1) := by
            rw [he]; simp [drawsOf]
          rw [he', findWord_value k _ hc]
          have hnf : ¬ len c ≤ m := by omega
          simp only [hnf, if_false]
          exact (ih _ e1 word).mpr (Or.inr ⟨rejected, raw, rfl, by simp at hl; omega,
            fun x hx => hall x (by simp [hx]), hget, hfit⟩)


/-- A call that ended without error consumed only successful draws. -/
theorem Steps.ok {α : Type} {e e1 : Entropy} {v : α} {k : Nat}
    (h : Steps e (Res.ret v none) e1 k) :
    ∃ raws : List Nat, e = drawsOf raws ++ e1 ∧ raws.length = k := by
  obtain ⟨raws, h⟩ := h
  rcases h with ⟨ha, hb, _⟩ | ⟨code, _, _, hc⟩ | ⟨_, _, _, hc⟩
  · exact ⟨raws, ha, hb.symm⟩
  · simp [Res.error] at hc
  · simp [Res.error] at hc

/-- A slot loop that ends with `numWords` words accepted one word in every
slot it went through, each one the first fitting candidate of its slot. -/
theorem slotLoop_trace {words shortWords : List GoString} {n sep : Int} :
    ∀ (fuel : Nat) (i : Int) (pw pw1 : List GoString) (rem rem1 : Int) (e e1 : Entropy),
      slotLoop words shortWords n sep fuel i pw rem e = (Res.ret (pw1, rem1) none, e1) →
      len pw = i → len pw1 = n →
      ∃ added : List GoString,
        pw1 = pw ++ added ∧ SlotTrace words shortWords n sep i rem added e e1 rem1 := by
  intro fuel
  induction fuel with
  | zero =>
    intro i pw pw1 rem rem1 e e1 h _ _
    simp only [slotLoop, Prod.mk.injEq, Res.ret.injEq, and_true] at h
    exact ⟨[], by simp [h.1.1], by simp [SlotTrace, h.2, h.1.2]⟩
  | succ k ih =>
    intro i pw pw1 rem rem1 e e1 h hlen hfull
    by_cases hi : i < n
    · rcases slotLoop_succ hi h with ⟨h1, _⟩ | ⟨hmax, word, e2, hne, hfw, hrec⟩
      · rw [h1] at hfull
        omega
      · have hfit : FirstFit (slotList words shortWords (maxWordLengthAt n sep i rem))
            (maxWordLengthAt n sep i rem) e word e2 := by
          rcases (findWord_iff _ _ _ _ _ _).mp hfw with ⟨hnil, _⟩ | hx
          · exact absurd hnil hne
          · exact hx
        obtain ⟨added, hpw, htr⟩ := ih (i + 1) _ pw1 _ rem1 e2 e1 hrec
          (by rw [len_append_singleton, hlen]) hfull
        refine ⟨word :: added, by rw [hpw]; simp, ?_⟩
        exact ⟨hmax, e2, hfit, htr⟩
    · obtain ⟨h1, h2, h3⟩ := slotLoop_done hi h
      exact ⟨[], by simp [h1], by simp [SlotTrace, h2, h3]⟩

/-- A successful call of `findWordsForLength`: the earlier attempts consumed
successful draws only, and the last attempt ran the slot loop from slot 0 to
the returned list with `remainingLength = 0`. -/
theorem findWordsForLength_last_attempt {words shortWords : List GoString}
    {n sep target : Int} :
    ∀ (budget : Nat) (e e1 : Entropy) (ws : List GoString),
      findWordsForLength words shortWords n sep target budget e = (Res.ret ws none, e1) →
      len ws = n ∧
        ∃ (raws : List Nat) (e0 : Entropy), e = drawsOf raws ++ e0 ∧
          slotLoop words shortWords n sep n.toNat 0 [] target e0 = (Res.ret (ws, 0) none, e1) := by
  intro budget
  induction budget with
  | zero =>
    intro e e1 ws h
    simp [findWordsForLength] at h
  | succ k ih =>
    intro e e1 ws h
    rw [findWordsForLength] at h
    split at h
    · simp at h
    · simp at h
    · rename_i pw rem e2 hs
      split at h
      · rename_i hc
        simp only [Prod.mk.injEq, Res.ret.injEq, and_true] at h
        obtain ⟨h1, h2⟩ := h
        subst h1 h2
        refine ⟨hc.1, [], e, by simp [drawsOf], ?_⟩
        rw [hs, hc.2]
      · obtain ⟨hlen, raws, e0, he, hs0⟩ := ih _ _ _ h
        obtain ⟨k0, _, hst⟩ := slotLoop_steps words shortWords n sep n.toNat 0 [] target e
        rw [hs] at hst
        obtain ⟨raws0, he0, _⟩ := Steps.ok hst
        exact ⟨hlen, raws0 ++ raws, e0, by rw [he0, he, drawsOf_append, List.append_assoc], hs0⟩

/-- C14: in every successful `findWordsForLength` result the words were
accepted slot by slot in the last attempt.  In slot `i` the bound
`maxWordLength` was positive, the word list was the short catalog exactly when
`maxWordLength <= 2` and the general catalog otherwise, the word is the first
candidate drawn for that slot whose length is at most `maxWordLength` (fewer
than 100 longer candidates were drawn before it), and `remainingLength` went
from `targetLength` to 0; hence every returned word belongs to the general or
to the short catalog. -/
theorem findWordsForLength_slots (words shortWords : List GoString)
    (numWords separatorLength targetLength : Int) (budget : Nat) (e e1 : Entropy)
    (ws : List GoString)
    (h : findWordsForLength words shortWords numWords separatorLength targetLength budget e =
      (Res.ret ws none, e1)) :
    len ws = numWords ∧
      (∃ (raws : List Nat) (e0 : Entropy), e = drawsOf raws ++ e0 ∧
        SlotTrace words shortWords numWords separatorLength 0 targetLength ws e0 e1 0) ∧
      (∀ w ∈ ws, w ∈ words ∨ w ∈ shortWords) ∧
      (∀ m : Int, (m ≤ 2 → slotList words shortWords m = shortWords) ∧
        (¬ m ≤ 2 → slotList words shortWords m = words)) := by
  obtain ⟨hlen, raws, e0, he, hs⟩ := findWordsForLength_last_attempt budget e e1 ws h
  obtain ⟨added, hpw, htr⟩ := slotLoop_trace _ _ _ _ _ _ _ _ hs rfl hlen
  simp only [List.nil_append] at hpw
  subst hpw
  refine ⟨hlen, ⟨raws, e0, he, htr⟩, ?_, ?_⟩
  · intro w hw
    rcases slotLoop_mem _ _ _ _ _ _ _ _ hs w hw with h1 | h1
    · simp at h1
    · exact h1
  · intro m
    unfold slotList
    exact ⟨fun hm => by simp [hm], fun hm => by simp [hm]⟩

theorem findWordsForLength_slots_witness :
    findWordsForLength scenarioGeneral scenarioShort 2 1 7 2
        [Draw.value 2, Draw.value 0, Draw.value 1] =
      (Res.ret [str "blue", str "ox"] none, [Draw.value 1]) ∧
    (len [str "blue", str "ox"] = 2 ∧
      (∃ (raws : List Nat) (e0 : Entropy),
        [Draw.value 2, Draw.value 0, Draw.value 1] = drawsOf raws ++ e0 ∧
        SlotTrace scenarioGeneral scenarioShort 2 1 0 7 [str "blue", str "ox"] e0
          [Draw.value 1] 0) ∧
      (∀ w ∈ [str "blue", str "ox"], w ∈ scenarioGeneral ∨ w ∈ scenarioShort) ∧
      (∀ m : Int, (m ≤ 2 → slotList scenarioGeneral scenarioShort m = scenarioShort) ∧
        (¬ m ≤ 2 → slotList scenarioGeneral scenarioShort m = scenarioGeneral))) :=
  ⟨by decide,
   findWordsForLength_slots scenarioGeneral scenarioShort 2 1 7 2
    [Draw.value 2, Draw.value 0, Draw.value 1] [Draw.value 1] [str "blue", str "ox"]
    (by decide)⟩


/-! ## Draws and abandonment of an attempt -/

/-- The slot loop only appends words. -/
theorem slotLoop_extends {words shortWords : List GoString} {n sep : Int} :
    ∀ (fuel : Nat) (i : Int) (pw pw1 : List GoString) (rem rem1 : Int) (e e1 : Entropy),
      slotLoop words shortWords n sep fuel i pw rem e = (Res.ret (pw1, rem1) none, e1) →
      pw.length ≤ pw1.length := by
  intro fuel
  induction fuel with
  | zero =>
    intro i pw pw1 rem rem1 e e1 h
    simp only [slotLoop, Prod.mk.injEq, Res.ret.injEq, and_true] at h
    rw [h.1.1]
  | succ k ih =>
    intro i pw pw1 rem rem1 e e1 h
    by_cases hi : i < n
    · rcases slotLoop_succ hi h with ⟨h1, _⟩ | ⟨_, word, e2, _, _, hrec⟩
      · rw [h1]
      · have := ih _ _ _ _ _ _ _ hrec
        simp only [List.length_append, List.length_singleton] at this
        omega
    · obtain ⟨h1, _, _⟩ := slotLoop_done hi h
      rw [h1]

/-- Fuel beyond `numWords` iterations is never used by the slot loop. -/
theorem slotLoop_fuel_add {words shortWords : List GoString} {n sep : Int}
    (target : Int) (e : Entropy) :
    ∀ extra : Nat,
      slotLoop words shortWords n sep (n.toNat + extra) 0 [] target e =
        slotLoop words shortWords n sep n.toNat 0 [] target e := by
  intro extra
  induction extra with
  | zero => rfl
  | succ k ih =>
    rw [← ih]
    exact slotLoop_fuel_succ (n.toNat + k) 0 [] target e (by simp)

/-- A slot is abandoned (the loop is left with the state unchanged and no
error) exactly when its bound is not positive, or the bound is positive and
the inner loop ends with the empty word. -/
theorem slotLoop_abandon_iff {words shortWords : List GoString} {n sep : Int}
    (fuel : Nat) (i : Int) (pw : List GoString) (rem : Int) (e e1 : Entropy) (hi : i < n) :
    slotLoop words shortWords n sep (fuel + 1) i pw rem e = (Res.ret (pw, rem) none, e1) ↔
      (maxWordLengthAt n sep i rem ≤ 0 ∧ e1 = e) ∨
      (0 < maxWordLengthAt n sep i rem ∧
        findWord (slotList words shortWords (maxWordLengthAt n sep i rem))
          (maxWordLengthAt n sep i rem) 100 e = (Res.ret [] none, e1)) := by
  unfold maxWordLengthAt slotList
  constructor
  · intro h
    have h0 := h
    rw [slotLoop] at h
    simp only [hi, if_true] at h
    split at h
    · rename_i hm
      simp only [Prod.mk.injEq, Res.ret.injEq, and_true, true_and] at h
      exact Or.inl ⟨hm, h.symm⟩
    · rename_i hm
      right
      refine ⟨by omega, ?_⟩
      split at h
      · simp at h
      · simp at h
      · rename_i word e2 hfw
        split at h
        · rename_i hw
          simp only [Prod.mk.injEq, Res.ret.injEq, and_true, true_and] at h
          rw [hfw, hw, h]
        · have := slotLoop_extends _ _ _ _ _ _ _ _ h
          simp only [List.length_append, List.length_singleton] at this
          omega
  · rintro (⟨hm, he⟩ | ⟨hm, hfw⟩)
    · rw [slotLoop]
      simp only [hi, if_true, hm, he]
    · have hm' : ¬ isub rem (imul (isub (isub n i) 1) sep) ≤ 0 := by omega
      rw [slotLoop]
      simp only [hi, if_true, hm', if_false, hfw]

/-- C15: an attempt terminates and its draws are bounded.  The inner loop of a
slot makes at most 100 draws; the slot loop of an attempt makes at most
`100 * numWords` draws and never uses more than `numWords` iterations.  A slot
is abandoned, and the attempt with it, exactly when its `maxWordLength` is not
positive or its inner loop ends without a word; the inner loop ends without a
word exactly when all 100 draws pick candidates longer than `maxWordLength`
or, should the word list hold an empty string, when an earlier draw picks the
empty string; for a list of non-empty words this is: none of the 100 draws
picks a word that fits. -/
theorem attempt_draws (words shortWords : List GoString) (n sep : Int) :
    (∀ (wordList : List GoString) (m : Int) (e : Entropy),
      ∃ k, k ≤ 100 ∧
        Steps e (findWord wordList m 100 e).1 (findWord wordList m 100 e).2 k) ∧
    (∀ (target : Int) (e : Entropy),
      ∃ k, k ≤ 100 * n.toNat ∧
        Steps e (slotLoop words shortWords n sep n.toNat 0 [] target e).1
          (slotLoop words shortWords n sep n.toNat 0 [] target e).2 k) ∧
    (∀ (extra : Nat) (target : Int) (e : Entropy),
      slotLoop words shortWords n sep (n.toNat + extra) 0 [] target e =
        slotLoop words shortWords n sep n.toNat 0 [] target e) ∧
    (∀ (fuel : Nat) (i : Int) (pw : List GoString) (rem : Int) (e e1 : Entropy),
      i < n →
      (slotLoop words shortWords n sep (fuel + 1) i pw rem e = (Res.ret (pw, rem) none, e1) ↔
        (maxWordLengthAt n sep i rem ≤ 0 ∧ e1 = e) ∨
        (0 < maxWordLengthAt n sep i rem ∧
          findWord (slotList words shortWords (maxWordLengthAt n sep i rem))
            (maxWordLengthAt n sep i rem) 100 e = (Res.ret [] none, e1)))) ∧
    (∀ (wordList : List GoString) (m : Int) (e e1 : Entropy),
      (findWord wordList m 100 e = (Res.ret [] none, e1) ↔
        (∃ raws : List Nat, e = drawsOf raws ++ e1 ∧ raws.length = 100 ∧
          ∀ r ∈ raws, TooLong wordList m r) ∨
        (∃ (rejected : List Nat) (raw : Nat),
          e = drawsOf rejected ++ Draw.value raw :: e1 ∧ rejected.length < 100 ∧
          (∀ r ∈ rejected, TooLong wordList m r) ∧
          wordList.get? (raw % wordList.length) = some [] ∧ 0 ≤ m)) ∧
      ((∀ w ∈ wordList, w ≠ []) →
        (findWord wordList m 100 e = (Res.ret [] none, e1) ↔
          ∃ raws : List Nat, e = drawsOf raws ++ e1 ∧ raws.length = 100 ∧
            ∀ r ∈ raws, TooLong wordList m r))) := by
  refine ⟨fun wordList m e => findWord_steps wordList m 100 e, ?_, ?_, ?_, ?_⟩
  · intro target e
    obtain ⟨k, hk, hs⟩ := slotLoop_steps words shortWords n sep n.toNat 0 [] target e
    exact ⟨k, hk, hs⟩
  · intro extra target e
    exact slotLoop_fuel_add target e extra
  · intro fuel i pw rem e e1 hi
    exact slotLoop_abandon_iff fuel i pw rem e e1 hi
  · intro wordList m e e1
    have hiff := findWord_iff wordList m 100 e e1 []
    have hlen0 : len ([] : GoString) = 0 := rfl
    constructor
    · rw [hiff, hlen0]
      simp
    · intro hne
      rw [hiff]
      constructor
      · rintro (⟨_, hx⟩ | ⟨rejected, raw, _, _, _, hget, _⟩)
        · exact hx
        · exact absurd rfl (hne [] (List.get?_mem hget))
      · intro hx
        exact Or.inl ⟨rfl, hx⟩


/-! ## No combination -/

theorem sumLen_nonneg (ws : List GoString) : 0 ≤ sumLen ws := by
  induction ws with
  | nil => simp [sumLen]
  | cons a t ih =>
    have := len_nonneg a
    simp only [sumLen, List.map_cons, List.sum_cons] at ih ⊢
    omega

theorem drawsOf_no_fail {raws raws2 : List Nat} {code : Nat} {e1 : Entropy}
    (h : drawsOf raws = drawsOf raws2 ++ Draw.fail code :: e1) : False := by
  have hmem : Draw.fail code ∈ drawsOf raws := by rw [h]; simp
  simp [drawsOf] at hmem

theorem drawsOf_length (raws : List Nat) : (drawsOf raws).length = raws.length := by
  simp [drawsOf]

/-- The call returns the no-combination error exactly when every attempt of
the budget ran to its end without an error and without passing the final
test. -/
theorem attemptsFail_iff (words shortWords : List GoString) (n sep target : Int) :
    ∀ (budget : Nat) (e e1 : Entropy),
      AttemptsFail words shortWords n sep target budget e e1 ↔
        findWordsForLength words shortWords n sep target budget e =
          (Res.ret [] (some (Err.noCombination target)), e1) := by
  intro budget
  induction budget with
  | zero =>
    intro e e1
    simp only [AttemptsFail, findWordsForLength, Prod.mk.injEq, true_and]
    exact eq_comm
  | succ b ih =>
    intro e e1
    rw [AttemptsFail, findWordsForLength]
    constructor
    · rintro ⟨pw, rem, e2, hs, hfail, hrest⟩
      rw [hs]
      simp only [hfail, if_false]
      exact (ih e2 e1).1 hrest
    · intro h
      split at h
      · simp at h
      · rename_i v err e2 hs
        exfalso
        have herr : err = Err.noCombination target := by
          simp only [Prod.mk.injEq, Res.ret.injEq, Option.some.injEq, true_and] at h
          exact h.1
        rcases slotLoop_err _ _ _ _ _ _ _ _ _ _ _ _ hs with ⟨hc, _⟩ | hc
        · rw [herr] at hc
          exact absurd hc (by simp)
        · rw [herr] at hc
          exact absurd hc (by simp [Err.isEntropy])
      · rename_i pw rem e2 hs
        split at h
        · simp at h
        · rename_i hfail
          exact ⟨pw, rem, e2, hs, hfail, (ih e2 e1).2 h⟩

/-- Counterexample to C16 as stated.  (a) With `numWords = 0`, separator
length 1 and target 0 no sequence of zero words has lengths and separators
summing to the target (`0 + (0 - 1) * 1 = -1`), yet the call returns the empty
word list without error and without a draw.  (b) With five words and separator
length `2^62` no five catalog words have lengths and separators summing to the
target 5, yet the overflowing `int` arithmetic lets the call return five
one-letter words. -/
theorem findWordsForLength_noCombination_fails :
    ((∀ ws : List GoString, len ws = 0 → (∀ w ∈ ws, w ∈ [str "cat"] ∨ w ∈ [str "ox"]) →
        sumLen ws + (0 - 1) * 1 ≠ 0) ∧
      findWordsForLength [str "cat"] [str "ox"] 0 1 0 1 (drawsOf [0]) =
        (Res.ret [] none, drawsOf [0])) ∧
    ((∀ ws : List GoString, len ws = 5 →
        (∀ w ∈ ws, w ∈ [str "a", str "c"] ∨ w ∈ [str "b", str "d"]) →
        sumLen ws + (5 - 1) * 4611686018427387904 ≠ 5) ∧
      findWordsForLength [str "a", str "c"] [str "b", str "d"] 5 4611686018427387904 5 1
          (drawsOf [0, 1, 0, 1, 0]) =
        (Res.ret [str "a", str "c", str "a", str "d", str "b"] none, [])) := by
  refine ⟨⟨?_, by decide⟩, ⟨?_, by decide⟩⟩
  · intro ws hlen _
    match ws, hlen with
    | [], _ => decide
    | _ :: t, hlen =>
      have := len_nonneg t
      simp [len] at hlen
      omega
  · intro ws _ _
    have := sumLen_nonneg ws
    omega

/-- The budget can run out although a combination exists: with the catalog
`banana`, `cat`, the short catalog `ox`, two words, separator length 1 and
target 7 the words `cat`, `cat` fit, yet an attempt that draws `banana` first
is abandoned and with a budget of one attempt the call returns the
no-combination error. -/
theorem findWordsForLength_budget_runs_out :
    sumLen [str "cat", str "cat"] + (2 - 1) * 1 = 7 ∧
    findWordsForLength [str "banana", str "cat"] [str "ox"] 2 1 7 1 (drawsOf [1, 1]) =
      (Res.ret [str "cat", str "cat"] none, []) ∧
    findWordsForLength [str "banana", str "cat"] [str "ox"] 2 1 7 1 (drawsOf [0, 1, 1]) =
      (Res.ret [] (some (Err.noCombination 7)), drawsOf [1, 1]) ∧
    findWordsForLength [str "banana", str "cat"] [str "ox"] 2 1 7 2 (drawsOf [0, 1, 1]) =
      (Res.ret [str "cat", str "cat"] none, []) := by
  decide

/-- C16 (amended): the budget is a number of attempts.  For all arguments,
budgets and entropy streams, the call returns the no-combination error for
`targetLength`, with no word list, exactly when every attempt of the budget
runs to its end without an error of `getSecureRandomIndex` and fails the final
test, whether or not a combination exists; and every error result carries no
word list and is the no-combination error, the range error of
`getSecureRandomIndex` for an empty catalog, or the error of a failed draw.
When moreover `1 <= numWords`, `separatorLength` and `targetLength` are
non-negative, the separator total is an `int` and no `numWords` words of the
two catalogs have lengths and separators summing to `targetLength`, the call
never returns a word list: every result is one of these errors, and with
non-empty catalogs and a stream of successful draws long enough for the
budget it is the no-combination error. -/
theorem findWordsForLength_noCombination (words shortWords : List GoString)
    (n sep target : Int) :
    (∀ (budget : Nat) (e e1 : Entropy),
      AttemptsFail words shortWords n sep target budget e e1 ↔
        findWordsForLength words shortWords n sep target budget e =
          (Res.ret [] (some (Err.noCombination target)), e1)) ∧
    (∀ (budget : Nat) (e e1 : Entropy) (v : List GoString) (err : Err),
      findWordsForLength words shortWords n sep target budget e = (Res.ret v (some err), e1) →
      v = [] ∧ (err = Err.noCombination target ∨
        (err = Err.maxNotPositive ∧ (words = [] ∨ shortWords = [])) ∨
        err.isEntropy = true)) ∧
    (1 ≤ n → n ≤ maxInt → 0 ≤ sep → (n - 1) * sep ≤ maxInt → 0 ≤ target → target ≤ maxInt →
      (∀ ws : List GoString, len ws = n → (∀ w ∈ ws, w ∈ words ∨ w ∈ shortWords) →
        sumLen ws + (n - 1) * sep ≠ target) →
      (∀ (budget : Nat) (e : Entropy),
        ∃ (err : Err) (e1 : Entropy),
          findWordsForLength words shortWords n sep target budget e =
            (Res.ret [] (some err), e1) ∧
          (err = Err.noCombination target ∨
            (err = Err.maxNotPositive ∧ (words = [] ∨ shortWords = [])) ∨
            err.isEntropy = true)) ∧
      (words ≠ [] → shortWords ≠ [] →
        ∀ (budget : Nat) (raws : List Nat), 100 * n.toNat * budget ≤ raws.length →
          ∃ e1 : Entropy,
            findWordsForLength words shortWords n sep target budget (drawsOf raws) =
              (Res.ret [] (some (Err.noCombination target)), e1) ∧
            AttemptsFail words shortWords n sep target budget (drawsOf raws) e1)) := by
  refine ⟨attemptsFail_iff words shortWords n sep target,
    findWordsForLength_err words shortWords n sep target, ?_⟩
  intro hn1 hn hsep hprod ht0 ht hno
  have hclass : ∀ (budget : Nat) (e : Entropy),
      ∃ (err : Err) (e1 : Entropy),
        findWordsForLength words shortWords n sep target budget e =
          (Res.ret [] (some err), e1) ∧
        (err = Err.noCombination target ∨
          (err = Err.maxNotPositive ∧ (words = [] ∨ shortWords = [])) ∨
          err.isEntropy = true) := by
    intro budget e
    cases hres : findWordsForLength words shortWords n sep target budget e with
    | mk r e1 =>
      cases r with
      | panic => exact absurd hres (findWordsForLength_ne_panic _ _ _ _ _ _ _ _)
      | ret v err =>
        cases err with
        | none =>
          obtain ⟨hlen, hsum, hmem⟩ := findWordsForLength_sum hn1 hn hsep hprod ht0 ht hres
          exact absurd hsum (hno v hlen hmem)
        | some err =>
          obtain ⟨hv, hc⟩ := findWordsForLength_err _ _ _ _ _ _ _ _ _ _ hres
          exact ⟨err, e1, by rw [hv], hc⟩
  refine ⟨hclass, ?_⟩
  intro hw hsw budget raws hlong
  obtain ⟨err, e1, hres, hc⟩ := hclass budget (drawsOf raws)
  obtain ⟨k, hk, hst⟩ := findWordsForLength_steps words shortWords n sep target budget
    (drawsOf raws)
  rw [hres] at hst
  have hnc : findWordsForLength words shortWords n sep target budget (drawsOf raws) =
      (Res.ret [] (some (Err.noCombination target)), e1) := by
    rcases hc with hc | ⟨_, hc | hc⟩ | hc
    · rw [hres, hc]
    · exact absurd hc hw
    · exact absurd hc hsw
    · exfalso
      obtain ⟨raws2, hx⟩ := hst
      rcases hx with ⟨_, _, hx⟩ | ⟨code, hx, _, _⟩ | ⟨hx, _, hk2, _⟩
      · have := hx err rfl
        rw [hc] at this
        exact absurd this (by simp)
      · exact drawsOf_no_fail hx
      · have hl := congrArg List.length hx
        rw [drawsOf_length, drawsOf_length] at hl
        omega
  exact ⟨e1, hnc, (attemptsFail_iff words shortWords n sep target budget _ e1).2 hnc⟩

theorem findWordsForLength_noCombination_witness :
    ((1 : Int) ≤ 2 ∧ (2 : Int) ≤ maxInt ∧ (0 : Int) ≤ 1 ∧ ((2 : Int) - 1) * 1 ≤ maxInt ∧
      (0 : Int) ≤ 4 ∧ (4 : Int) ≤ maxInt) ∧
    (∀ ws : List GoString, len ws = 2 → (∀ w ∈ ws, w ∈ [str "cat"] ∨ w ∈ [str "ox"]) →
      sumLen ws + (2 - 1) * 1 ≠ 4) ∧
    ([str "cat"] ≠ ([] : List GoString) ∧ [str "ox"] ≠ ([] : List GoString) ∧
      100 * (2 : Int).toNat * 1 ≤ (List.replicate 200 0).length) ∧
    (∃ e1 : Entropy,
      findWordsForLength [str "cat"] [str "ox"] 2 1 4 1 (drawsOf (List.replicate 200 0)) =
        (Res.ret [] (some (Err.noCombination 4)), e1) ∧
      AttemptsFail [str "cat"] [str "ox"] 2 1 4 1 (drawsOf (List.replicate 200 0)) e1) ∧
    AttemptsFail [str "banana", str "cat"] [str "ox"] 2 1 7 1 (drawsOf [0, 1, 1])
      (drawsOf [1, 1]) :=
  have hno : ∀ ws : List GoString, len ws = 2 →
      (∀ w ∈ ws, w ∈ [str "cat"] ∨ w ∈ [str "ox"]) → sumLen ws + (2 - 1) * 1 ≠ 4 := by
    intro ws hlen hmem
    match ws, hlen, hmem with
    | [a, b], _, hmem =>
      have ha : a = str "cat" ∨ a = str "ox" := by
        have := hmem a (by simp)
        simpa using this
      have hb : b = str "cat" ∨ b = str "ox" := by
        have := hmem b (by simp)
        simpa using this
      rcases ha with ha | ha <;> rcases hb with hb | hb <;> rw [ha, hb] <;> decide
    | [], hlen, _ => simp [len] at hlen
    | [_], hlen, _ => simp [len] at hlen
    | _ :: _ :: _ :: _, hlen, _ =>
      simp [len] at hlen
      omega
  have hlong : 100 * (2 : Int).toNat * 1 ≤ (List.replicate 200 0).length := by
    rw [List.length_replicate]
    decide
  ⟨by decide, hno, ⟨by decide, by decide, hlong⟩,
   ((findWordsForLength_noCombination [str "cat"] [str "ox"] 2 1 4).2.2 (by decide) (by decide)
      (by decide) (by decide) (by decide) (by decide) hno).2 (by decide) (by decide) 1
      (List.replicate 200 0) hlong,
   ((findWordsForLength_noCombination [str "banana", str "cat"] [str "ox"] 2 1 7).1 1
      (drawsOf [0, 1, 1]) (drawsOf [1, 1])).2 (by decide)⟩

end Passgen
